import Mathlib

/-!
# Forward and reverse mode for `z = pow(x, y)` (CppAD `local/op/pow_op.hpp`)

A shallow embedding of the `pow` operator family.

* `Base` is a type `K` carrying the arithmetic the routines use (`0`, `+`, `-`,
  `*`, `/`, the conversion `Base(double(k))` of an index, and equality for
  `CondExpEq`).  The definitions ask for nothing more, so statements about the
  guard hold for a `Base` whose division by zero is arbitrary; the algebraic
  statements are proved over fields.
* `Base* taylor` is the flat coefficient buffer, a map from offsets to `K`;
  `taylor + i * cap_order` is the view `fun k => taylor (i * cap_order + k)`.
  A store `z[j] = v` is `Function.update taylor (i_z * cap_order + j) v`.
* `const addr_t* arg` and `const Base* parameter` are maps from indices.
* The scalar functions `pow`, `log`, `exp` of `Base` are arguments.

After the operator family come `Value` (`core/value.hpp`), the call store of
`atomic_lin_ode` (`set.hpp`, `forward.hpp`), and the graph example
`example/graph/div_op.cpp` with a tape that is recorded from a graph and
written back to one.
-/

namespace CppAD
namespace local_op

section Defs

variable {K : Type}

/-- Modelled from the spec: `CondExpEq(left, right, if_true, if_false)` is the
equality conditional select of the base type (declared outside `pow_op.hpp`):
it yields `if_true` when `left == right` and `if_false` otherwise. -/
def CondExpEq [DecidableEq K] (left right if_true if_false : K) : K :=
  if left = right then if_true else if_false

/-- Modelled from the spec: `azmul(x, y)` is the absolute-zero multiplication of
the base type (declared outside `pow_op.hpp`): zero when `x` is zero, and the
product `x * y` otherwise; over a field it is multiplication. -/
def azmul [Zero K] [Mul K] [DecidableEq K] (x y : K) : K :=
  if x = 0 then 0 else x * y

/-- The inner loop of `forward_powvp_op`:
`for(k = 1; k < j; ++k) sum += bk * (y * x[k] * z[j-k] - z[k] * x[j-k])`,
started from `sum = Base(0)`. -/
def powvp_sum [Zero K] [Add K] [Sub K] [Mul K] [NatCast K]
    (y : K) (x z : Nat → K) (j : Nat) : K :=
  (List.range' 1 (j - 1)).foldl
    (fun (sum : K) (k : Nat) => sum + (k : K) * (y * x k * z (j - k) - z k * x (j - k))) 0

/-- One pass of the outer loop body of `forward_powvp_op` (order `j`). -/
def forward_powvp_order [Zero K] [Add K] [Sub K] [Mul K] [Div K] [NatCast K] [DecidableEq K]
    (i_z : Nat) (arg : Nat → Nat) (parameter : Nat → K) (cap_order : Nat)
    (taylor : Nat → K) (j : Nat) : Nat → K :=
  let x : Nat → K := fun k => taylor (arg 0 * cap_order + k)
  let z : Nat → K := fun k => taylor (i_z * cap_order + k)
  let y : K := parameter (arg 1)
  let b0 : K := 0
  let sum : K := powvp_sum y x z j
  let bj : K := (j : K)
  let zj : K := (y * z 0 * x j + sum / bj) / x 0
  Function.update taylor (i_z * cap_order + j) (CondExpEq (x 0) b0 b0 zj)

/-- The routine `forward_powvp_op(p, q, i_z, arg, parameter, cap_order, taylor)`:
forward mode Taylor coefficients of orders `p..q` for `z = pow(x, y)` with
`x` a variable and `y` a parameter.  The result is the buffer after the call. -/
def forward_powvp_op [Zero K] [Add K] [Sub K] [Mul K] [Div K] [NatCast K] [DecidableEq K]
    (pow : K → K → K)
    (p q i_z : Nat) (arg : Nat → Nat) (parameter : Nat → K) (cap_order : Nat)
    (taylor : Nat → K) : Nat → K :=
  let y : K := parameter (arg 1)
  -- special case zero order: z[0] = pow(x[0], y); p++
  let taylor0 : Nat → K :=
    if p = 0 then
      Function.update taylor (i_z * cap_order + 0) (pow (taylor (arg 0 * cap_order + 0)) y)
    else taylor
  let p1 : Nat := if p = 0 then p + 1 else p
  -- for(j = p; j <= q; ++j)
  (List.range' p1 (q + 1 - p1)).foldl
    (forward_powvp_order i_z arg parameter cap_order) taylor0

/-- One direction `ell` of the loop over directions in `forward_powvp_op_dir`. -/
def forward_powvp_dir_ell [Zero K] [Add K] [Sub K] [Mul K] [Div K] [NatCast K] [DecidableEq K]
    (q r i_z : Nat) (arg : Nat → Nat) (parameter : Nat → K) (cap_order : Nat)
    (taylor : Nat → K) (ell : Nat) : Nat → K :=
  let num_taylor_per_var : Nat := (cap_order - 1) * r + 1
  let x : Nat → K := fun k => taylor (arg 0 * num_taylor_per_var + k)
  let z : Nat → K := fun k => taylor (i_z * num_taylor_per_var + k)
  let y : K := parameter (arg 1)
  let b0 : K := 0
  let m : Nat := (q - 1) * r + 1
  let sum : K := (List.range' 1 (q - 1)).foldl
    (fun (sum : K) (k : Nat) =>
      let xk : K := x ((k - 1) * r + ell + 1)
      let zk : K := z ((k - 1) * r + ell + 1)
      let xqk : K := x ((q - k - 1) * r + ell + 1)
      let zqk : K := z ((q - k - 1) * r + ell + 1)
      let bk : K := (k : K)
      sum + bk * (y * xk * zqk - zk * xqk)) 0
  let xq : K := x ((q - 1) * r + ell + 1)
  let bq : K := (q : K)
  let zell : K := (y * z 0 * xq + sum / bq) / x 0
  Function.update taylor (i_z * num_taylor_per_var + (m + ell)) (CondExpEq (x 0) b0 b0 zell)

/-- The routine `forward_powvp_op_dir(q, r, i_z, arg, parameter, cap_order, taylor)`:
order `q` coefficients in `r` directions; a variable owns
`(cap_order - 1) * r + 1` entries, the order zero one shared by the directions. -/
def forward_powvp_op_dir [Zero K] [Add K] [Sub K] [Mul K] [Div K] [NatCast K] [DecidableEq K]
    (q r i_z : Nat) (arg : Nat → Nat) (parameter : Nat → K) (cap_order : Nat)
    (taylor : Nat → K) : Nat → K :=
  (List.range' 0 r).foldl (forward_powvp_dir_ell q r i_z arg parameter cap_order) taylor

/-- The routine `forward_powvp_op_0(i_z, arg, parameter, cap_order, taylor)`. -/
def forward_powvp_op_0 (pow : K → K → K)
    (i_z : Nat) (arg : Nat → Nat) (parameter : Nat → K) (cap_order : Nat)
    (taylor : Nat → K) : Nat → K :=
  let y : K := parameter (arg 1)
  Function.update taylor (i_z * cap_order + 0) (pow (taylor (arg 0 * cap_order + 0)) y)

/-- The routine `forward_powvv_op_0(i_z, arg, parameter, cap_order, taylor)`.
`i_z` is the final result slot; `i_z -= 2` moves to the first of the three
result slots (the operator has `NumRes == 3`, so callers pass `i_z ≥ 2`).
The three stores happen in order, each reading the buffer as it then is. -/
def forward_powvv_op_0 [Mul K] (pow : K → K → K) (log : K → K)
    (i_z : Nat) (arg : Nat → Nat) (_parameter : Nat → K) (cap_order : Nat)
    (taylor : Nat → K) : Nat → K :=
  let i_z : Nat := i_z - 2
  let x : Nat := arg 0 * cap_order
  let y : Nat := arg 1 * cap_order
  let z_0 : Nat := i_z * cap_order
  let z_1 : Nat := z_0 + cap_order
  let z_2 : Nat := z_1 + cap_order
  -- z_0[0] = log( x[0] )
  let taylor1 : Nat → K := Function.update taylor (z_0 + 0) (log (taylor (x + 0)))
  -- z_1[0] = z_0[0] * y[0]
  let taylor2 : Nat → K :=
    Function.update taylor1 (z_1 + 0) (taylor1 (z_0 + 0) * taylor1 (y + 0))
  -- z_2[0] = pow(x[0], y[0])
  Function.update taylor2 (z_2 + 0) (pow (taylor2 (x + 0)) (taylor2 (y + 0)))

/-- The routine `forward_powpv_op_0(i_z, arg, parameter, cap_order, taylor)`. -/
def forward_powpv_op_0 [Mul K] (pow : K → K → K) (log : K → K)
    (i_z : Nat) (arg : Nat → Nat) (parameter : Nat → K) (cap_order : Nat)
    (taylor : Nat → K) : Nat → K :=
  let i_z : Nat := i_z - 2
  let x : K := parameter (arg 0)
  let y : Nat := arg 1 * cap_order
  let z_0 : Nat := i_z * cap_order
  let z_1 : Nat := z_0 + cap_order
  let z_2 : Nat := z_1 + cap_order
  -- z_0[0] = log(x)
  let taylor1 : Nat → K := Function.update taylor (z_0 + 0) (log x)
  -- z_1[0] = z_0[0] * y[0]
  let taylor2 : Nat → K :=
    Function.update taylor1 (z_1 + 0) (taylor1 (z_0 + 0) * taylor1 (y + 0))
  -- z_2[0] = pow(x, y[0])
  Function.update taylor2 (z_2 + 0) (pow x (taylor2 (y + 0)))

/-! ### Helper operators called by the `vv` and `pv` variants

`forward_log_op`, `forward_mulvv_op`, `forward_mulpv_op` and `forward_exp_op`
live in `log_op.hpp`, `mul_op.hpp` and `exp_op.hpp`. -/

/-- Modelled from the spec: one order `j ≥ 2` of the logarithm recurrence of
`forward_log_op` (file `log_op.hpp`, not among the sources):
`z[j] = (x[j] - (sum_{k=1}^{j-1} k z[k] x[j-k]) / j) / x[0]`, accumulated in
place in `z[j]`. -/
def forward_log_order [Neg K] [Sub K] [Add K] [Mul K] [Div K] [NatCast K]
    (i_z i_x cap_order : Nat) (taylor : Nat → K) (j : Nat) : Nat → K :=
  let x : Nat := i_x * cap_order
  let z : Nat := i_z * cap_order
  -- z[j] = -z[1] * x[j-1]
  let t1 : Nat → K := Function.update taylor (z + j) (-(taylor (z + 1)) * taylor (x + (j - 1)))
  -- for(k = 2; k < j; k++) z[j] -= Base(double(k)) * z[k] * x[j-k]
  let t2 : Nat → K := (List.range' 2 (j - 2)).foldl
    (fun (t : Nat → K) (k : Nat) =>
      Function.update t (z + j) (t (z + j) - (k : K) * t (z + k) * t (x + (j - k)))) t1
  -- z[j] /= Base(double(j)); z[j] += x[j]; z[j] /= x[0]
  let t3 : Nat → K := Function.update t2 (z + j) (t2 (z + j) / (j : K))
  let t4 : Nat → K := Function.update t3 (z + j) (t3 (z + j) + t3 (x + j))
  Function.update t4 (z + j) (t4 (z + j) / t4 (x + 0))

/-- Modelled from the spec: `forward_log_op(p, q, i_z, i_x, cap_order, taylor)`
(file `log_op.hpp`, not among the sources) computes orders `p..q` of
`z = log(x)`; its order zero step is `z[0] = log(x[0])`, its order one step is
`z[1] = x[1] / x[0]`, and higher orders follow the logarithm recurrence. -/
def forward_log_op [Neg K] [Sub K] [Add K] [Mul K] [Div K] [NatCast K] (log : K → K)
    (p q i_z i_x cap_order : Nat) (taylor : Nat → K) : Nat → K :=
  let x : Nat := i_x * cap_order
  let z : Nat := i_z * cap_order
  let taylor0 : Nat → K :=
    if p = 0 then Function.update taylor (z + 0) (log (taylor (x + 0))) else taylor
  let p0 : Nat := if p = 0 then p + 1 else p
  if p = 0 ∧ q = 0 then taylor0
  else
    let taylor1 : Nat → K :=
      if p0 = 1 then Function.update taylor0 (z + 1) (taylor0 (x + 1) / taylor0 (x + 0))
      else taylor0
    let p1 : Nat := if p0 = 1 then p0 + 1 else p0
    (List.range' p1 (q + 1 - p1)).foldl (forward_log_order i_z i_x cap_order) taylor1

/-- Modelled from the spec: one order `d` of `forward_mulvv_op`
(file `mul_op.hpp`, not among the sources): the Cauchy product
`z[d] = sum_{k=0}^{d} x[d-k] * y[k]`, accumulated in place from `z[d] = 0`. -/
def forward_mulvv_order [Zero K] [Add K] [Mul K]
    (i_z : Nat) (arg : Nat → Nat) (cap_order : Nat) (taylor : Nat → K) (d : Nat) : Nat → K :=
  let x : Nat := arg 0 * cap_order
  let y : Nat := arg 1 * cap_order
  let z : Nat := i_z * cap_order
  let t0 : Nat → K := Function.update taylor (z + d) 0
  (List.range' 0 (d + 1)).foldl
    (fun (t : Nat → K) (k : Nat) =>
      Function.update t (z + d) (t (z + d) + t (x + (d - k)) * t (y + k))) t0

/-- Modelled from the spec: `forward_mulvv_op(p, q, i_z, arg, parameter,
cap_order, taylor)` (file `mul_op.hpp`, not among the sources) computes orders
`p..q` of `z = x * y` for two variables; its order zero step is
`z[0] = x[0] * y[0]` and its order one step is `z[1] = x[0]*y[1] + x[1]*y[0]`. -/
def forward_mulvv_op [Zero K] [Add K] [Mul K]
    (p q i_z : Nat) (arg : Nat → Nat) (_parameter : Nat → K) (cap_order : Nat)
    (taylor : Nat → K) : Nat → K :=
  (List.range' p (q + 1 - p)).foldl (forward_mulvv_order i_z arg cap_order) taylor

/-- Modelled from the spec: `forward_mulpv_op(p, q, i_z, arg, parameter,
cap_order, taylor)` (file `mul_op.hpp`, not among the sources) computes orders
`p..q` of `z = x * y` with `x = parameter[arg[0]]` read once and `y` a
variable: `z[d] = x * y[d]`. -/
def forward_mulpv_op [Mul K]
    (p q i_z : Nat) (arg : Nat → Nat) (parameter : Nat → K) (cap_order : Nat)
    (taylor : Nat → K) : Nat → K :=
  let y : Nat := arg 1 * cap_order
  let z : Nat := i_z * cap_order
  let x : K := parameter (arg 0)
  (List.range' p (q + 1 - p)).foldl
    (fun (t : Nat → K) (d : Nat) => Function.update t (z + d) (x * t (y + d))) taylor

/-- Modelled from the spec: one order `j ≥ 1` of the exponential recurrence of
`forward_exp_op` (file `exp_op.hpp`, not among the sources):
`z[j] = (sum_{k=1}^{j} k x[k] z[j-k]) / j`, accumulated in place in `z[j]`. -/
def forward_exp_order [Add K] [Mul K] [Div K] [NatCast K]
    (i_z i_x cap_order : Nat) (taylor : Nat → K) (j : Nat) : Nat → K :=
  let x : Nat := i_x * cap_order
  let z : Nat := i_z * cap_order
  -- z[j] = x[1] * z[j-1]
  let t1 : Nat → K := Function.update taylor (z + j) (taylor (x + 1) * taylor (z + (j - 1)))
  -- for(k = 2; k <= j; k++) z[j] += Base(double(k)) * x[k] * z[j-k]
  let t2 : Nat → K := (List.range' 2 (j - 1)).foldl
    (fun (t : Nat → K) (k : Nat) =>
      Function.update t (z + j) (t (z + j) + (k : K) * t (x + k) * t (z + (j - k)))) t1
  -- z[j] /= Base(double(j))
  Function.update t2 (z + j) (t2 (z + j) / (j : K))

/-- Modelled from the spec: `forward_exp_op(p, q, i_z, i_x, cap_order, taylor)`
(file `exp_op.hpp`, not among the sources) computes orders `p..q` of
`z = exp(x)`; its order zero step is `z[0] = exp(x[0])` and its order one step
is `z[1] = x[1] * z[0]`. -/
def forward_exp_op [Add K] [Mul K] [Div K] [NatCast K] (exp : K → K)
    (p q i_z i_x cap_order : Nat) (taylor : Nat → K) : Nat → K :=
  let x : Nat := i_x * cap_order
  let z : Nat := i_z * cap_order
  let taylor0 : Nat → K :=
    if p = 0 then Function.update taylor (z + 0) (exp (taylor (x + 0))) else taylor
  let p1 : Nat := if p = 0 then p + 1 else p
  (List.range' p1 (q + 1 - p1)).foldl (forward_exp_order i_z i_x cap_order) taylor0

/-- The routine `forward_powvv_op(p, q, i_z, arg, parameter, cap_order, taylor)`:
`z_0 = log(x)`, `z_1 = z_0 * y`, `z_2 = exp(z_1)`, except that the order zero
coefficient of `z_2` is set by `pow`.  `adr[0] = addr_t(i_z)` is exact, the
routine asserting that `i_z` fits in `addr_t`. -/
def forward_powvv_op [Zero K] [Neg K] [Sub K] [Add K] [Mul K] [Div K] [NatCast K]
    (pow : K → K → K) (log exp : K → K)
    (p q i_z : Nat) (arg : Nat → Nat) (parameter : Nat → K) (cap_order : Nat)
    (taylor : Nat → K) : Nat → K :=
  let i_z : Nat := i_z - 2
  -- z_0 = log(x)
  let taylor1 : Nat → K := forward_log_op log p q i_z (arg 0) cap_order taylor
  -- z_1 = z_0 * y
  let adr : Nat → Nat := fun i => if i = 0 then i_z else arg 1
  let taylor2 : Nat → K := forward_mulvv_op p q (i_z + 1) adr parameter cap_order taylor1
  -- z_2 = exp(z_1); final result for zero order case is exactly the same as for Base
  let taylor3 : Nat → K :=
    if p = 0 then
      Function.update taylor2 ((i_z + 2) * cap_order + 0)
        (pow (taylor2 (arg 0 * cap_order + 0)) (taylor2 (arg 1 * cap_order + 0)))
    else taylor2
  let p1 : Nat := if p = 0 then p + 1 else p
  if p1 ≤ q then forward_exp_op exp p1 q (i_z + 2) (i_z + 1) cap_order taylor3
  else taylor3

/-- The message of the capacity check in the `pv` variant. -/
def addr_exceeded_msg : String :=
  "cppad_tape_addr_type maximum value has been exceeded\n" ++
  "This is due to a kludge in the pow operation and should be fixed."

/-- The conversion `addr_t(n)` of a `size_t` value to the tape address type, an
unsigned type whose largest value `std::numeric_limits<addr_t>::max()` is
`addr_max`: the value modulo `addr_max + 1`. -/
def addr_t (addr_max n : Nat) : Nat := n % (addr_max + 1)

/-- The routine `forward_powpv_op(p, q, i_z, arg, parameter, cap_order, taylor)`.
`addr_max` is `std::numeric_limits<addr_t>::max()`.  The macro
`CPPAD_ASSERT_KNOWN` is defined outside the sources; modelled from the spec, a
failed capacity check is an error result.  The `size_t` product `i_z * cap_order` is
the offset of a slot of the allocated buffer and is taken exact.  The multiply
step reads its parameter operand from the Taylor buffer (`taylor` is passed for
both vectors). -/
def forward_powpv_op [Zero K] [Add K] [Mul K] [Div K] [NatCast K]
    (pow : K → K → K) (log exp : K → K) (addr_max : Nat)
    (p q i_z : Nat) (arg : Nat → Nat) (parameter : Nat → K) (cap_order : Nat)
    (taylor : Nat → K) : Except String (Nat → K) :=
  let i_z : Nat := i_z - 2
  let z_0 : Nat := i_z * cap_order
  -- z_0 = log(x)
  let x : K := parameter (arg 0)
  let taylor1 : Nat → K := (List.range' p (q + 1 - p)).foldl
    (fun (t : Nat → K) (d : Nat) =>
      if d = 0 then Function.update t (z_0 + d) (log x)
      else Function.update t (z_0 + d) 0) taylor
  if addr_max ≥ i_z * cap_order then
    -- z_1 = z_0 * y
    let adr : Nat → Nat := fun i => if i = 0 then addr_t addr_max (i_z * cap_order) else arg 1
    let taylor2 : Nat → K := forward_mulpv_op p q (i_z + 1) adr taylor1 cap_order taylor1
    -- z_2 = exp(z_1); zero order case exactly same as Base type operation
    let taylor3 : Nat → K :=
      if p = 0 then
        Function.update taylor2 ((i_z + 2) * cap_order + 0)
          (pow x (taylor2 (arg 1 * cap_order + 0)))
      else taylor2
    let p1 : Nat := if p = 0 then p + 1 else p
    if p1 ≤ q then Except.ok (forward_exp_op exp p1 q (i_z + 2) (i_z + 1) cap_order taylor3)
    else Except.ok taylor3
  else Except.error addr_exceeded_msg

/-- One pass `j` of the `while(j)` loop of `reverse_powvp_op`; the state is the
pair of the partial buffer and the `work` vector. -/
def reverse_powvp_order [Zero K] [Add K] [Sub K] [Mul K] [Div K] [NatCast K] [DecidableEq K]
    (i_z : Nat) (arg : Nat → Nat) (parameter : Nat → K) (cap_order : Nat)
    (taylor : Nat → K) ( nc_partial : Nat)
    (s : (Nat → K) × (Nat → K)) (j : Nat) : (Nat → K) × (Nat → K) :=
  let x : Nat → K := fun k => taylor (arg 0 * cap_order + k)
  let z : Nat → K := fun k => taylor (i_z * cap_order + k)
  let y : K := parameter (arg 1)
  let pz : Nat := i_z * nc_partial
  let bj : K := (j : K)
  -- x^j term: work[j] += azmul(pz[j], y * z[0] / x[0])
  let work1 : Nat → K :=
    Function.update s.2 j (s.2 j + azmul (s.1 (pz + j)) (y * z 0 / x 0))
  -- x^k terms: work[k] += azmul(pz[j], (bk * y - Base(j-k)) * z[j-k] / (bj * x[0]))
  let work2 : Nat → K := (List.range' 1 (j - 1)).foldl
    (fun (w : Nat → K) (k : Nat) =>
      let bk : K := (k : K)
      let term : K := (bk * y - ((j - k : Nat) : K)) * z (j - k) / (bj * x 0)
      Function.update w k (w k + azmul (s.1 (pz + j)) term)) work1
  -- z^k terms: pz[k] += azmul(pz[j], (Base(j-k) * y - bk) * x[j-k] / (bj * x[0]))
  let part2 : Nat → K := (List.range' 1 (j - 1)).foldl
    (fun (pt : Nat → K) (k : Nat) =>
      let bk : K := (k : K)
      let term : K := (((j - k : Nat) : K) * y - bk) * x (j - k) / (bj * x 0)
      Function.update pt (pz + k) (pt (pz + k) + azmul (pt (pz + j)) term)) s.1
  -- x^0 term: work[0] -= azmul(pz[j], z[j] / x[0])
  let work3 : Nat → K := Function.update work2 0 (work2 0 - azmul (part2 (pz + j)) (z j / x 0))
  -- z^0 term: pz[0] += azmul(pz[j], y * x[j] / x[0])
  let part3 : Nat → K :=
    Function.update part2 (pz + 0) (part2 (pz + 0) + azmul (part2 (pz + j)) (y * x j / x 0))
  (part3, work3)

/-- The routine `reverse_powvp_op(d, i_z, arg, parameter, cap_order, taylor,
nc_partial, partial, work)`: reverse mode for `z = pow(x, y)` with `x` a
variable and `y` a parameter.  The result is the partial buffer after the call;
`work` is scratch whose entries `0..d` are overwritten before they are read. -/
def reverse_powvp_op [Zero K] [Add K] [Sub K] [Mul K] [Div K] [NatCast K] [DecidableEq K]
    (d i_z : Nat) (arg : Nat → Nat) (parameter : Nat → K) (cap_order : Nat)
    (taylor : Nat → K) ( nc_partial : Nat) (partial_ : Nat → K) (work : Nat → K) :
    Nat → K :=
  let x : Nat → K := fun k => taylor (arg 0 * cap_order + k)
  let z : Nat → K := fun k => taylor (i_z * cap_order + k)
  let y : K := parameter (arg 1)
  let px : Nat := arg 0 * nc_partial
  let pz : Nat := i_z * nc_partial
  let b0 : K := 0
  -- for(j = 0; j <= d; ++j) work[j] = px[j]
  let work0 : Nat → K := (List.range' 0 (d + 1)).foldl
    (fun (w : Nat → K) (j : Nat) => Function.update w j (partial_ (px + j))) work
  -- reverse z^j for j = d, ..., 1
  let s : (Nat → K) × (Nat → K) := ((List.range' 1 d).reverse).foldl
    (reverse_powvp_order i_z arg parameter cap_order taylor nc_partial) (partial_, work0)
  -- reverse z^0: work[0] += azmul(pz[0], y * z[0] / x[0])
  let work1 : Nat → K := Function.update s.2 0 (s.2 0 + azmul (s.1 (pz + 0)) (y * z 0 / x 0))
  -- for(j = 0; j <= d; ++j) px[j] = CondExpEq(x[0], b0, b0, work[j])
  (List.range' 0 (d + 1)).foldl
    (fun (pt : Nat → K) (j : Nat) =>
      Function.update pt (px + j) (CondExpEq (x 0) b0 b0 (work1 j))) s.1

/-- Modelled from the spec: one pass `j ≥ 1` of the `while(j)` loop of
`reverse_exp_op` (file `exp_op.hpp`, not among the sources), the adjoint of
`z[j] = (sum_{k=1}^{j} k x[k] z[j-k]) / j`: `pz[j] /= j`, then for `k = 1..j`
`px[k] += k * azmul(pz[j], z[j-k])` and `pz[j-k] += k * azmul(pz[j], x[k])`. -/
def reverse_exp_order [Zero K] [Add K] [Mul K] [Div K] [NatCast K] [DecidableEq K]
    (i_z i_x cap_order : Nat) (taylor : Nat → K) ( nc_partial : Nat)
    (pt : Nat → K) (j : Nat) : Nat → K :=
  let x : Nat → K := fun k => taylor (i_x * cap_order + k)
  let z : Nat → K := fun k => taylor (i_z * cap_order + k)
  let px : Nat := i_x * nc_partial
  let pz : Nat := i_z * nc_partial
  let pt1 : Nat → K := Function.update pt (pz + j) (pt (pz + j) / (j : K))
  (List.range' 1 j).foldl
    (fun (pt : Nat → K) (k : Nat) =>
      let pt2 : Nat → K :=
        Function.update pt (px + k) (pt (px + k) + (k : K) * azmul (pt (pz + j)) (z (j - k)))
      Function.update pt2 (pz + (j - k))
        (pt2 (pz + (j - k)) + (k : K) * azmul (pt2 (pz + j)) (x k))) pt1

/-- Modelled from the spec: `reverse_exp_op(d, i_z, i_x, cap_order, taylor,
nc_partial, partial)` (file `exp_op.hpp`, not among the sources): reverse mode
for `z = exp(x)`; orders `d, ..., 1` are reversed first and its order zero rule
is `px[0] += pz[0] * z[0]`. -/
def reverse_exp_op [Zero K] [Add K] [Mul K] [Div K] [NatCast K] [DecidableEq K]
    (d i_z i_x cap_order : Nat) (taylor : Nat → K) ( nc_partial : Nat)
    (partial_ : Nat → K) : Nat → K :=
  let z : Nat → K := fun k => taylor (i_z * cap_order + k)
  let px : Nat := i_x * nc_partial
  let pz : Nat := i_z * nc_partial
  let pt : Nat → K := ((List.range' 1 d).reverse).foldl
    (reverse_exp_order i_z i_x cap_order taylor nc_partial) partial_
  Function.update pt (px + 0) (pt (px + 0) + azmul (pt (pz + 0)) (z 0))

/-- Modelled from the spec: `reverse_mulpv_op(d, i_z, arg, parameter, cap_order,
taylor, nc_partial, partial)` (file `mul_op.hpp`, not among the sources):
reverse mode for `z = x * y` with `x = parameter[arg[0]]` and `y` a variable:
`py[j] += azmul(pz[j], x)` for `j = d, ..., 0`. -/
def reverse_mulpv_op [Zero K] [Add K] [Mul K] [DecidableEq K]
    (d i_z : Nat) (arg : Nat → Nat) (parameter : Nat → K) (_cap_order : Nat)
    (_taylor : Nat → K) ( nc_partial : Nat) (partial_ : Nat → K) : Nat → K :=
  let x : K := parameter (arg 0)
  let py : Nat := arg 1 * nc_partial
  let pz : Nat := i_z * nc_partial
  ((List.range' 0 (d + 1)).reverse).foldl
    (fun (pt : Nat → K) (j : Nat) =>
      Function.update pt (py + j) (pt (py + j) + azmul (pt (pz + j)) x)) partial_

/-- The routine `reverse_powpv_op(d, i_z, arg, parameter, cap_order, taylor,
nc_partial, partial)`: `z_2 = exp(z_1)` is reversed, then the capacity check
`CPPAD_ASSERT_KNOWN` (an error result), then `z_1 = z_0 * y` with the parameter
operand read from the Taylor buffer at `adr[0] = addr_t(i_z * cap_order)`;
`z_0 = log(x)` has a parameter argument and is not reversed. -/
def reverse_powpv_op [Zero K] [Add K] [Mul K] [Div K] [NatCast K] [DecidableEq K]
    (addr_max : Nat) (d i_z : Nat) (arg : Nat → Nat) (_parameter : Nat → K)
    (cap_order : Nat) (taylor : Nat → K) ( nc_partial : Nat) (partial_ : Nat → K) :
    Except String (Nat → K) :=
  let i_z : Nat := i_z - 2
  -- z_2 = exp(z_1)
  let partial1 : Nat → K :=
    reverse_exp_op d (i_z + 2) (i_z + 1) cap_order taylor nc_partial partial_
  if addr_max ≥ i_z * cap_order then
    -- z_1 = z_0 * y
    let adr : Nat → Nat := fun i => if i = 0 then addr_t addr_max (i_z * cap_order) else arg 1
    Except.ok (reverse_mulpv_op d (i_z + 1) adr taylor cap_order taylor nc_partial partial1)
  else Except.error addr_exceeded_msg

/-- Modelled from the spec: `reverse_mulvv_op(d, i_z, arg, parameter, cap_order,
taylor, nc_partial, partial)` (file `mul_op.hpp`, not among the sources):
reverse mode for `z = x * y` with two variables: for `j = d, ..., 0` and
`k = 0, ..., j`, `px[j-k] += azmul(pz[j], y[k])` and
`py[k] += azmul(pz[j], x[j-k])`; its order zero rule is `px[0] += pz[0] * y[0]`,
`py[0] += pz[0] * x[0]`. -/
def reverse_mulvv_op [Zero K] [Add K] [Mul K] [DecidableEq K]
    (d i_z : Nat) (arg : Nat → Nat) (_parameter : Nat → K) (cap_order : Nat)
    (taylor : Nat → K) ( nc_partial : Nat) (partial_ : Nat → K) : Nat → K :=
  let x : Nat → K := fun k => taylor (arg 0 * cap_order + k)
  let y : Nat → K := fun k => taylor (arg 1 * cap_order + k)
  let px : Nat := arg 0 * nc_partial
  let py : Nat := arg 1 * nc_partial
  let pz : Nat := i_z * nc_partial
  ((List.range' 0 (d + 1)).reverse).foldl
    (fun (pt : Nat → K) (j : Nat) =>
      (List.range' 0 (j + 1)).foldl
        (fun (pt : Nat → K) (k : Nat) =>
          let pt1 : Nat → K :=
            Function.update pt (px + (j - k)) (pt (px + (j - k)) + azmul (pt (pz + j)) (y k))
          Function.update pt1 (py + k) (pt1 (py + k) + azmul (pt1 (pz + j)) (x (j - k)))) pt)
    partial_

/-- Modelled from the spec: one pass `j ≥ 1` of the `while(j)` loop of
`reverse_log_op` (file `log_op.hpp`, not among the sources), the adjoint of the
logarithm recurrence: `pz[j] = azmul(pz[j], 1 / x[0])`,
`px[0] -= azmul(pz[j], z[j])`, `px[j] += pz[j]`, `pz[j] /= j`, then for
`k = 1, ..., j-1` `pz[k] -= j * azmul(pz[j], x[j-k])` and
`px[j-k] -= k * azmul(pz[j], z[k])`. -/
def reverse_log_order [Zero K] [One K] [Add K] [Sub K] [Mul K] [Div K] [NatCast K]
    [DecidableEq K]
    (i_z i_x cap_order : Nat) (taylor : Nat → K) ( nc_partial : Nat)
    (pt : Nat → K) (j : Nat) : Nat → K :=
  let x : Nat → K := fun k => taylor (i_x * cap_order + k)
  let z : Nat → K := fun k => taylor (i_z * cap_order + k)
  let px : Nat := i_x * nc_partial
  let pz : Nat := i_z * nc_partial
  let inv_x0 : K := 1 / x 0
  let pt1 : Nat → K := Function.update pt (pz + j) (azmul (pt (pz + j)) inv_x0)
  let pt2 : Nat → K := Function.update pt1 (px + 0) (pt1 (px + 0) - azmul (pt1 (pz + j)) (z j))
  let pt3 : Nat → K := Function.update pt2 (px + j) (pt2 (px + j) + pt2 (pz + j))
  let pt4 : Nat → K := Function.update pt3 (pz + j) (pt3 (pz + j) / (j : K))
  (List.range' 1 (j - 1)).foldl
    (fun (pt : Nat → K) (k : Nat) =>
      let pt5 : Nat → K :=
        Function.update pt (pz + k) (pt (pz + k) - (j : K) * azmul (pt (pz + j)) (x (j - k)))
      Function.update pt5 (px + (j - k))
        (pt5 (px + (j - k)) - (k : K) * azmul (pt5 (pz + j)) (z k))) pt4

/-- Modelled from the spec: `reverse_log_op(d, i_z, i_x, cap_order, taylor,
nc_partial, partial)` (file `log_op.hpp`, not among the sources): reverse mode
for `z = log(x)`; orders `d, ..., 1` are reversed first and its order zero rule
is `px[0] += pz[0] / x[0]`, computed as `azmul(pz[0], 1 / x[0])`. -/
def reverse_log_op [Zero K] [One K] [Add K] [Sub K] [Mul K] [Div K] [NatCast K]
    [DecidableEq K]
    (d i_z i_x cap_order : Nat) (taylor : Nat → K) ( nc_partial : Nat)
    (partial_ : Nat → K) : Nat → K :=
  let x : Nat → K := fun k => taylor (i_x * cap_order + k)
  let px : Nat := i_x * nc_partial
  let pz : Nat := i_z * nc_partial
  let inv_x0 : K := 1 / x 0
  let pt : Nat → K := ((List.range' 1 d).reverse).foldl
    (reverse_log_order i_z i_x cap_order taylor nc_partial) partial_
  Function.update pt (px + 0) (pt (px + 0) + azmul (pt (pz + 0)) inv_x0)

/-- The routine `reverse_powvv_op(d, i_z, arg, parameter, cap_order, taylor,
nc_partial, partial)`: the three steps of the forward pass are reversed in the
opposite order, `z_2 = exp(z_1)`, then `z_1 = z_0 * y`, then `z_0 = log(x)`.
`adr[0] = addr_t(i_z)` is exact, the routine asserting that `i_z` fits in
`addr_t`. -/
def reverse_powvv_op [Zero K] [One K] [Add K] [Sub K] [Mul K] [Div K] [NatCast K]
    [DecidableEq K]
    (d i_z : Nat) (arg : Nat → Nat) (parameter : Nat → K) (cap_order : Nat)
    (taylor : Nat → K) ( nc_partial : Nat) (partial_ : Nat → K) : Nat → K :=
  let i_z : Nat := i_z - 2
  -- z_2 = exp(z_1)
  let partial1 : Nat → K :=
    reverse_exp_op d (i_z + 2) (i_z + 1) cap_order taylor nc_partial partial_
  -- z_1 = z_0 * y
  let adr : Nat → Nat := fun i => if i = 0 then i_z else arg 1
  let partial2 : Nat → K :=
    reverse_mulvv_op d (i_z + 1) adr parameter cap_order taylor nc_partial partial1
  -- z_0 = log(x)
  reverse_log_op d i_z (arg 0) cap_order taylor nc_partial partial2

/-! ### Concrete inputs over the rationals -/

/-- A `Base` power on the rationals for integer exponents: `x` to the power
of the numerator of `y`. -/
def ratPow (x y : ℚ) : ℚ := x ^ y.num

/-- Argument vector with `arg[0] = 0` (the slot of `x`) and `arg[1] = 0`
(the index of `y` among the parameters). -/
def exArg : Nat → Nat := fun _ => 0

/-- Parameter vector holding the exponent `3`. -/
def exPar : Nat → ℚ := fun _ => 3

/-- Parameter vector holding the exponent `0`. -/
def exParZero : Nat → ℚ := fun _ => 0

/-- Taylor buffer with `cap_order = 4` whose slot `0` holds `x = (2, 1, 0, 0)`. -/
def exTaylor : Nat → ℚ := fun n => if n = 0 then 2 else if n = 1 then 1 else 0

/-- A stand-in for the `Base` logarithm on the rationals. -/
def exLog (x : ℚ) : ℚ := x - 1

/-- A stand-in for the `Base` exponential on the rationals. -/
def exExp (x : ℚ) : ℚ := x + 1

/-- Multi-direction Taylor buffer (`cap_order = 4`, `r = 2`, seven entries per
variable) whose entry `n` holds `n + 1`. -/
def exTaylorDir : Nat → ℚ := fun n => (n : ℚ) + 1

/-- Single-direction data of direction `ell = 1` of `exTaylorDir` for `x` in
slot `0` and `z` in slot `1` (`cap_order = 4`): `x~ = (1, 3, 5)`, `z~ = (8, 10)`. -/
def exSingle : Nat → ℚ := fun n =>
  if n = 0 then 1 else if n = 1 then 3 else if n = 2 then 5
  else if n = 4 then 8 else if n = 5 then 10 else 0

/-- Partial buffer with `nc_partial = 1`: `px[0] = 0` in slot `0` and
`pz[0] = 1` in slot `1`. -/
def exPartial : Nat → ℚ := fun n => if n = 1 then 1 else 0

/-- Partial buffer with `nc_partial = 2`: `px = (0, 0)` in slot `0` and
`pz = (1, 10)` in slot `1`. -/
def exPartialTwo : Nat → ℚ := fun n => if n = 2 then 1 else if n = 3 then 10 else 0

/-- Partial buffer with `nc_partial = 1`: `px[0] = 5` in slot `0` and
`pz[0] = 1` in slot `1`. -/
def exPartialFive : Nat → ℚ := fun n => if n = 0 then 5 else if n = 1 then 1 else 0

/-- Partial buffer with `nc_partial = 1`: `px[0] = 7` in slot `0` and
`pz[0] = 1` in slot `1`. -/
def exPartialSeven : Nat → ℚ := fun n => if n = 0 then 7 else if n = 1 then 1 else 0

/-- Scratch vector `work`, all zero. -/
def exWork : Nat → ℚ := fun _ => 0

/-- Taylor buffer with `cap_order = 4` whose slot `0` holds `x = (0, 1, 0, 0)`. -/
def exTaylorZero : Nat → ℚ := fun n => if n = 1 then 1 else 0

/-- Argument vector with `arg[0] = 0` and `arg[1] = 1`: `x` in slot 0 and `y`
in slot 1. -/
def exArgTwo : Nat → Nat := fun i => i

/-- Taylor buffer with `cap_order = 1`: `x = 2` in slot 0, `y = 3` in slot 1. -/
def exTaylorTwo : Nat → ℚ := fun n => if n = 0 then 2 else if n = 1 then 3 else 0

/-- Partial buffer with `nc_partial = 1`: the partial of slot 4 is `1`, all
others are `0`. -/
def exPartialFour : Nat → ℚ := fun n => if n = 4 then 1 else 0
/-- Taylor buffer that agrees with `exTaylor` on entries 0 and 1 and holds `9`
elsewhere. -/
def exTaylorAlt : Nat → ℚ := fun n => if n = 0 then 2 else if n = 1 then 1 else 9

/-- Parameter vector holding the exponent `1`. -/
def exParOne : Nat → ℚ := fun _ => 1

/-- Parameter vector holding the exponent `2`. -/
def exParTwo : Nat → ℚ := fun _ => 2

/-! ### The base type `double`

The routines are templates over `Base`; the examples instantiate them with
`double`.  Its finite values and the correctly rounded operations `+`, `-`,
`*`, `/` (round to nearest, ties to even) are modelled on integers. -/

/-- A finite value of the C++ type `double` (IEEE binary64), the `Base` type of
the examples: every finite `double` is an integer multiple of `2^-1074`, and
`units` is that multiple. -/
structure double where
  /-- The value in units of `2^-1074`. -/
  units : Int
  deriving DecidableEq, Repr

/-- The position of the leading bit of `n`, that is `floor(log2 n)` for
`1 ≤ n < 2^4096` (and `0` for `n = 0`), found by halving the search range. -/
def double.ilog2 (n : Nat) : Nat :=
  ([2048, 1024, 512, 256, 128, 64, 32, 16, 8, 4, 2, 1].foldl
    (fun (s : Nat × Nat) (k : Nat) => if s.1 >>> k = 0 then s else (s.1 >>> k, s.2 + k))
    (n, 0)).2

/-- Rounding to nearest, ties to even, of the non-negative quotient `P / Q`
(in units of `2^-1074`) to a value with a 53 bit significand: the spacing of
representable values at magnitude `f` is `2^s` units with
`s = max(0, floor(log2 f) - 52)`, `f` being the integer part of the quotient. -/
def double.round_nat (P Q : Nat) : Nat :=
  let f : Nat := P / Q
  let s : Nat := double.ilog2 f - 52
  let u : Nat := Q <<< s
  let m : Nat := P / u
  let r : Nat := P % u
  if 2 * r < u then m <<< s
  else if u < 2 * r then (m + 1) <<< s
  else if m % 2 = 0 then m <<< s
  else (m + 1) <<< s

/-- The `double` nearest to the quotient `P / Q` of a number of units by a
positive number.  Results that are not finite (overflow, division by zero) are
outside this model and taken as zero. -/
def double.round (P : Int) (Q : Nat) : double :=
  if Q = 0 then { units := 0 }
  else { units := P.sign * (double.round_nat P.natAbs Q : Int) }

/-- The number of units in one: `2^1074`. -/
def double.one_units : Nat := 1 <<< 1074

/-- The value `0.0`. -/
instance : Zero double := ⟨{ units := 0 }⟩

/-- The sum, exactly computed and rounded once. -/
instance : Add double := ⟨fun a b => double.round (a.units + b.units) 1⟩

/-- The difference, exactly computed and rounded once. -/
instance : Sub double := ⟨fun a b => double.round (a.units - b.units) 1⟩

/-- The product, exactly computed and rounded once. -/
instance : Mul double := ⟨fun a b => double.round (a.units * b.units) double.one_units⟩

/-- The quotient, exactly computed and rounded once. -/
instance : Div double :=
  ⟨fun a b => double.round (a.units * b.units.sign * (double.one_units : Int)) b.units.natAbs⟩

/-- The conversion `Base(double(k))` of an index. -/
instance : NatCast double := ⟨fun n => double.round ((n : Int) * (double.one_units : Int)) 1⟩

/-- The `double` nearest to the rational `n / d`, as a decimal literal is read. -/
def double.of_quotient (n : Int) (d : Nat) : double :=
  double.round (n * (double.one_units : Int)) d

/-- A stand-in for `std::pow` on `double` at the exponent one, where
`pow(x, 1) = x`. -/
def exPowDouble : double → double → double := fun x _ => x

/-- Parameter vector holding the `double` exponent `1.0`. -/
def exParDouble : Nat → double := fun _ => ((1 : Nat) : double)

/-- Taylor buffer of `double` values with `cap_order = 2`: `x = (3.0, 0.1)` in
slot 0, zero elsewhere. -/
def exTaylorDouble : Nat → double := fun n =>
  if n = 0 then double.of_quotient 3 1 else if n = 1 then double.of_quotient 1 10 else 0

end Defs

end local_op

/-! ## The tagged value type and `Value` (`core/value.hpp`) -/

section CoreDefs

/-- Modelled from the spec: the classification of a tagged value (declared
outside `value.hpp`): a constant, a dynamic parameter, or a variable. -/
inductive ad_type_enum where
  | constant_enum
  | dynamic_enum
  | variable_enum
  deriving DecidableEq, Repr

/-- Modelled from the spec: the tagged value type `AD<Base>` (declared outside
`value.hpp`): the current numeric value `value_`, the tape and the address on
it (`tape_id_`, `taddr_`: a variable slot or a parameter index), and the
classification `ad_type_`. -/
structure AD (Base : Type) where
  /-- The current numeric value. -/
  value_ : Base
  /-- The tape the value is recorded on. -/
  tape_id_ : Nat
  /-- The variable slot or parameter index on that tape. -/
  taddr_ : Nat
  /-- The classification: constant, dynamic parameter or variable. -/
  ad_type_ : ad_type_enum

/-- Modelled from the spec: `Variable(x)` (declared outside `value.hpp`) holds
when `x` is classified as a variable. -/
def Variable {Base : Type} (x : AD Base) : Bool :=
  x.ad_type_ == ad_type_enum.variable_enum

/-- Modelled from the spec: `Dynamic(x)` (declared outside `value.hpp`) holds
when `x` is classified as a dynamic parameter. -/
def Dynamic {Base : Type} (x : AD Base) : Bool :=
  x.ad_type_ == ad_type_enum.dynamic_enum

/-- The message of the check in `Value`. -/
def value_error_msg : String := "Value: argument is a variable or dynamic parameter"

/-- The function `Value(x)` of `value.hpp`.  The macro `CPPAD_ASSERT_KNOWN` is
defined outside the sources; modelled from the spec, a failed check is an error
that carries the message.  Otherwise the result is `x.value_`. -/
def Value {Base : Type} (x : AD Base) : Except String Base :=
  if !(Variable x || Dynamic x) then
    let result : Base := x.value_
    Except.ok result
  else Except.error value_error_msg

end CoreDefs

/-! ## The call store of `atomic_lin_ode` (`atomic_four/lin_ode`) -/

section LinOdeDefs

/-- The record `call_struct` kept for each call of `atomic_lin_ode::set`
(declared in `lin_ode.hpp`; the fields are the ones `set` assigns). -/
structure call_struct (Base : Type) where
  /-- The final value of the variable the ODE is with respect to. -/
  r : Base
  /-- The number of steps used to approximate the solution. -/
  n_step : Nat
  /-- The thread that made the call. -/
  thread : Nat

/-- The routine `atomic_lin_ode<Base>::set(r, n_step)`.  The member `work_` maps
a thread number to its call vector, `none` standing for `nullptr`; `thread_num`
is the value of `thread_alloc::thread_num()`.  The result is the returned
`call_id` and `work_` after the call. -/
def atomic_lin_ode.set {Base : Type} (work_ : Nat → Option (List (call_struct Base)))
    (thread_num : Nat) (r : Base) (n_step : Nat) :
    Nat × (Nat → Option (List (call_struct Base))) :=
  -- thread
  let thread : Nat := thread_num
  -- if( work_[thread] == nullptr ) work_[thread] = new call_vector
  let work1 : Nat → Option (List (call_struct Base)) :=
    if (work_ thread).isNone then Function.update work_ thread (some []) else work_
  let call_vec : List (call_struct Base) := (work1 thread).getD []
  -- call_id
  let call_id : Nat := call_vec.length
  -- call
  let call : call_struct Base := { r := r, n_step := n_step, thread := thread }
  -- work_[thread]->push_back( call )
  (call_id, Function.update work1 thread (some (call_vec ++ [call])))

/-- Modelled from the spec: `atomic_lin_ode<Base>::get(call_id, r, n_step)`
(file `get.hpp`, not among the sources) retrieves the pair `(r, n_step)` stored
under `call_id` in the calling thread's call vector; there is no result when
nothing is stored there. -/
def atomic_lin_ode.get {Base : Type} (work_ : Nat → Option (List (call_struct Base)))
    (thread_num : Nat) (call_id : Nat) : Option (Base × Nat) :=
  match work_ thread_num with
  | none => none
  | some call_vec => (call_vec.get? call_id).map (fun call => (call.r, call.n_step))

/-- The routine `atomic_lin_ode<Base>::forward(call_id, select_y, order_low,
order_up, taylor_x, taylor_y)`.  The result is the returned flag and `taylor_y`
after the call; there is no result when the debugging assertion
`n == m * m + m` fails or `get` finds nothing under `call_id`.  The ODE solver
`base_lin_ode(r, n_step, taylor_x, taylor_y)` (not among the sources) is an
argument: it yields the new `taylor_y`. -/
def atomic_lin_ode.forward {Base : Type}
    (base_lin_ode : Base → Nat → List Base → List Base → List Base)
    (work_ : Nat → Option (List (call_struct Base))) (thread_num : Nat)
    (call_id : Nat) (_select_y : List Bool) (_order_low order_up : Nat)
    (taylor_x taylor_y : List Base) : Option (Bool × List Base) :=
  -- only order zero implemented so far
  if order_up > 0 then some (false, taylor_y)
  else
    let n : Nat := taylor_x.length
    let m : Nat := taylor_y.length
    if n = m * m + m then
      match atomic_lin_ode.get work_ thread_num call_id with
      | none => none
      | some (r, n_step) => some (true, base_lin_ode r n_step taylor_x taylor_y)
    else none

/-- A stand-in for the ODE solver on the rationals: every entry of `taylor_y`
becomes `r * n_step`. -/
def exLinOde (r : ℚ) (n_step : Nat) (_taylor_x taylor_y : List ℚ) : List ℚ :=
  taylor_y.map (fun _ => r * n_step)

/-- A call store in which no thread has stored a call. -/
def exWorkNull : Nat → Option (List (call_struct ℚ)) := fun _ => none

end LinOdeDefs

/-! ## The graph example `div_op.cpp` and the graph interchange of a tape -/

section GraphDefs

/-- Modelled from the spec: the operator enum `CppAD::graph::graph_op_enum`
(declared outside the sources).  `div_graph_op` is the value `div_op.cpp`
uses; the other three binary arithmetic operators are included so that the
operator vector of a graph carries information. -/
inductive graph_op_enum where
  | add_graph_op
  | sub_graph_op
  | mul_graph_op
  | div_graph_op
  deriving DecidableEq, Repr

/-- Modelled from the spec: the class `cpp_graph` (declared outside the
sources), the node-list representation of a function: its name, the number of
independent dynamic parameters, the number of independent variables, the
operators, their argument nodes (two per operator, in order), and the
dependent nodes.  The fields are the ones the setters called by `div_op.cpp`
assign. -/
structure cpp_graph where
  /-- The name of the function. -/
  function_name : String
  /-- The number of independent dynamic parameters. -/
  n_dynamic_ind : Nat
  /-- The number of independent variables. -/
  n_variable_ind : Nat
  /-- The operators, in node order. -/
  operator_vec : List graph_op_enum
  /-- The argument nodes of the operators, in order. -/
  operator_arg : List Nat
  /-- The dependent nodes. -/
  dependent_vec : List Nat
  deriving DecidableEq, Repr

/-- Modelled from the spec: a default constructed `cpp_graph` is empty. -/
def cpp_graph.empty : cpp_graph :=
  { function_name := "", n_dynamic_ind := 0, n_variable_ind := 0,
    operator_vec := [], operator_arg := [], dependent_vec := [] }

/-- Modelled from the spec: the setter `function_name_set`. -/
def cpp_graph.function_name_set (g : cpp_graph) (function_name : String) : cpp_graph :=
  { g with function_name := function_name }

/-- Modelled from the spec: the setter `n_dynamic_ind_set`. -/
def cpp_graph.n_dynamic_ind_set (g : cpp_graph) (n_dynamic_ind : Nat) : cpp_graph :=
  { g with n_dynamic_ind := n_dynamic_ind }

/-- Modelled from the spec: the setter `n_variable_ind_set`. -/
def cpp_graph.n_variable_ind_set (g : cpp_graph) (n_variable_ind : Nat) : cpp_graph :=
  { g with n_variable_ind := n_variable_ind }

/-- Modelled from the spec: `operator_vec_push_back` appends an operator. -/
def cpp_graph.operator_vec_push_back (g : cpp_graph) (op_enum : graph_op_enum) : cpp_graph :=
  { g with operator_vec := g.operator_vec ++ [op_enum] }

/-- Modelled from the spec: `operator_arg_push_back` appends an argument node. -/
def cpp_graph.operator_arg_push_back (g : cpp_graph) (node : Nat) : cpp_graph :=
  { g with operator_arg := g.operator_arg ++ [node] }

/-- Modelled from the spec: `dependent_vec_push_back` appends a dependent node. -/
def cpp_graph.dependent_vec_push_back (g : cpp_graph) (node : Nat) : cpp_graph :=
  { g with dependent_vec := g.dependent_vec ++ [node] }

/-- The graph object that `div_op.cpp` builds: two dynamic parameters
(nodes 1, 2), one independent variable (node 3), `node_4 = node_1 / node_2`,
`node_5 = node_3 / node_4`, dependents `node_4` and `node_5`. -/
def div_op_graph : cpp_graph :=
  let graph_obj : cpp_graph := cpp_graph.empty
  -- set scalars
  let graph_obj := graph_obj.function_name_set "div example"
  let n_dynamic_ind : Nat := 2
  let graph_obj := graph_obj.n_dynamic_ind_set n_dynamic_ind
  let n_variable_ind : Nat := 1
  let graph_obj := graph_obj.n_variable_ind_set n_variable_ind
  -- node_4 : p[0] / p[1]
  let op_enum : graph_op_enum := graph_op_enum.div_graph_op
  let graph_obj := graph_obj.operator_vec_push_back op_enum
  let graph_obj := graph_obj.operator_arg_push_back 1
  let graph_obj := graph_obj.operator_arg_push_back 2
  -- node_5
  let graph_obj := graph_obj.operator_vec_push_back op_enum
  let graph_obj := graph_obj.operator_arg_push_back 3
  let graph_obj := graph_obj.operator_arg_push_back 4
  -- y[0], y[1]
  let graph_obj := graph_obj.dependent_vec_push_back 4
  let graph_obj := graph_obj.dependent_vec_push_back 5
  graph_obj

/-- Modelled from the spec: the address of an operand on a tape (the tape
classes are outside the sources): an index into the parameter pool or a
variable slot. -/
inductive tape_arg where
  | par (i : Nat)
  | var (i : Nat)
  deriving DecidableEq, Repr

/-- Modelled from the spec: an opcode of a tape with its arguments: `ParOp`
puts the parameter with pool index `i` into a new variable slot, and a binary
arithmetic operator puts its result into a new variable slot. -/
inductive tape_op where
  | ParOp (i : Nat)
  | binary (op : graph_op_enum) (left right : tape_arg)
  deriving DecidableEq, Repr

/-- Modelled from the spec: the function object `ADFun<Base>` (declared
outside the sources) holding a sealed tape: the ordered opcodes, the
parameter pool (here the values of the dynamic parameters), the number of
dynamic parameters fixed at recording time, the number of independent
slots (the first variable slots), and the variable slots of the
dependents. -/
structure ADFun (Base : Type) where
  /-- The name of the function. -/
  function_name : String
  /-- The number of dynamic parameters fixed at recording time. -/
  num_dynamic : Nat
  /-- The values in the parameter pool. -/
  parameters : List Base
  /-- The number of independent variables. -/
  num_independent : Nat
  /-- The ordered sequence of opcodes. -/
  opcodes : List tape_op
  /-- The variable slots of the dependents. -/
  dependent : List Nat

/-- Modelled from the spec: `f.Domain()` is the number of independent variables. -/
def ADFun.Domain {Base : Type} (f : ADFun Base) : Nat := f.num_independent

/-- Modelled from the spec: `f.Range()` is the number of dependents. -/
def ADFun.Range {Base : Type} (f : ADFun Base) : Nat := f.dependent.length

/-- Modelled from the spec: `f.size_dyn_ind()` is the number of dynamic
parameters. -/
def ADFun.size_dyn_ind {Base : Type} (f : ADFun Base) : Nat := f.num_dynamic

variable {K : Type}

/-- Modelled from the spec: the address on the tape of graph node `node` when
`n_node` nodes are defined so far.  Nodes are numbered from one: the dynamic
parameters first (pool indices from zero), then the independent variables
and the operator results (variable slots from zero).  There is no address
for node zero or for a node that is not defined yet. -/
def graph_node (n_dynamic_ind n_node node : Nat) : Option tape_arg :=
  if node = 0 ∨ n_node < node then none
  else if node ≤ n_dynamic_ind then some (tape_arg.par (node - 1))
  else some (tape_arg.var (node - n_dynamic_ind - 1))

/-- Modelled from the spec: the part of `from_graph` that records the
operators: each operator takes its two argument nodes from `operator_arg`, in
order, and its result is the next node.  There is no result when an argument
node is not defined or the arguments do not match the operators. -/
def from_graph_ops (n_dynamic_ind : Nat) :
    Nat → List graph_op_enum → List Nat → Option (List tape_op)
  | _, [], [] => some []
  | n_node, op :: ops, a :: b :: args =>
    match graph_node n_dynamic_ind n_node a, graph_node n_dynamic_ind n_node b,
      from_graph_ops n_dynamic_ind (n_node + 1) ops args with
    | some left, some right, some rest => some (tape_op.binary op left right :: rest)
    | _, _, _ => none
  | _, _, _ => none

/-- Modelled from the spec: the part of `from_graph` that records the
dependents, `n_var` being the number of variable slots so far: a dependent
node that is a variable gives its slot, and one that is a parameter is put into
a new variable slot by a `ParOp`, so that every dependent index refers to a
variable slot. -/
def from_graph_dep (n_dynamic_ind n_node : Nat) :
    Nat → List Nat → Option (List tape_op × List Nat)
  | _, [] => some ([], [])
  | n_var, d :: ds =>
    match graph_node n_dynamic_ind n_node d with
    | none => none
    | some (tape_arg.par i) =>
      match from_graph_dep n_dynamic_ind n_node (n_var + 1) ds with
      | none => none
      | some rest => some (tape_op.ParOp i :: rest.1, n_var :: rest.2)
    | some (tape_arg.var v) =>
      match from_graph_dep n_dynamic_ind n_node n_var ds with
      | none => none
      | some rest => some (rest.1, v :: rest.2)

/-- Modelled from the spec: `f.from_graph(graph_obj)` (defined outside the
sources) records the graph on a new tape: the operators in order, then the
dependents.  The parameter pool has no values until `new_dynamic`. -/
def from_graph (Base : Type) (graph_obj : cpp_graph) : Option (ADFun Base) :=
  let n_dynamic_ind : Nat := graph_obj.n_dynamic_ind
  let n_variable_ind : Nat := graph_obj.n_variable_ind
  let n_usage : Nat := graph_obj.operator_vec.length
  match from_graph_ops n_dynamic_ind (n_dynamic_ind + n_variable_ind)
      graph_obj.operator_vec graph_obj.operator_arg with
  | none => none
  | some ops =>
    match from_graph_dep n_dynamic_ind (n_dynamic_ind + n_variable_ind + n_usage)
        (n_variable_ind + n_usage) graph_obj.dependent_vec with
    | none => none
    | some rest =>
      some { function_name := graph_obj.function_name, num_dynamic := n_dynamic_ind,
             parameters := [], num_independent := n_variable_ind,
             opcodes := ops ++ rest.1, dependent := rest.2 }

/-- Modelled from the spec: the graph node of an operand, given the nodes of
the variable slots so far. -/
def to_graph_node (var2node : List Nat) : tape_arg → Nat
  | tape_arg.par i => i + 1
  | tape_arg.var v => var2node.getD v 0

/-- Modelled from the spec: the part of `to_graph` that walks the opcodes,
given the nodes of the variable slots so far and the next free node: a binary
operator becomes a graph operator whose result is the next node, and the slot
of a `ParOp` stands for the node of its parameter.  The result is the nodes of
all variable slots, the operators and their arguments. -/
def to_graph_ops : List Nat → Nat → List tape_op → List Nat × List graph_op_enum × List Nat
  | var2node, _, [] => (var2node, [], [])
  | var2node, next, tape_op.ParOp i :: ops => to_graph_ops (var2node ++ [i + 1]) next ops
  | var2node, next, tape_op.binary op left right :: ops =>
    let rest := to_graph_ops (var2node ++ [next]) (next + 1) ops
    (rest.1, op :: rest.2.1,
      to_graph_node var2node left :: to_graph_node var2node right :: rest.2.2)

/-- Modelled from the spec: the nodes of the first `n` variable slots of a
tape recorded from a graph: they follow the `n_dynamic_ind` parameter nodes. -/
def slot_nodes (n_dynamic_ind n : Nat) : List Nat :=
  (List.range n).map (fun j => n_dynamic_ind + j + 1)

/-- Modelled from the spec: `f.to_graph(graph_obj)` (defined outside the
sources) writes the tape as a graph: the dynamic parameters are nodes
`1, ..., num_dynamic`, the independent variables the nodes after them, and the
operator results follow. -/
def to_graph {Base : Type} (f : ADFun Base) : cpp_graph :=
  let var2node : List Nat := slot_nodes f.num_dynamic f.num_independent
  let walk := to_graph_ops var2node (f.num_dynamic + f.num_independent + 1) f.opcodes
  { function_name := f.function_name, n_dynamic_ind := f.num_dynamic,
    n_variable_ind := f.num_independent, operator_vec := walk.2.1,
    operator_arg := walk.2.2, dependent_vec := f.dependent.map (fun d => walk.1.getD d 0) }

/-- Modelled from the spec: `f.new_dynamic(p)` replaces the values of the
dynamic parameters in the pool; it fails unless the number of values is the
number of dynamic parameters fixed at recording time. -/
def ADFun.new_dynamic {Base : Type} (f : ADFun Base) (p : List Base) : Option (ADFun Base) :=
  if p.length = f.num_dynamic then some { f with parameters := p } else none

/-- Modelled from the spec: the value of a binary arithmetic operator: the
first argument combined with the second, as in `left / right`. -/
def graph_op_enum.value [Add K] [Sub K] [Mul K] [Div K] : graph_op_enum → K → K → K
  | graph_op_enum.add_graph_op, left, right => left + right
  | graph_op_enum.sub_graph_op, left, right => left - right
  | graph_op_enum.mul_graph_op, left, right => left * right
  | graph_op_enum.div_graph_op, left, right => left / right

/-- Modelled from the spec: the value of an operand, from the parameter pool
or from the variable slots computed so far. -/
def tape_arg.value (parameters slots : List K) : tape_arg → Option K
  | tape_arg.par i => parameters.get? i
  | tape_arg.var v => slots.get? v

/-- Modelled from the spec: the zero order forward sweep over the opcodes,
each opcode appending the value of its result to the variable slots. -/
def forward_sweep [Add K] [Sub K] [Mul K] [Div K] (parameters : List K) :
    List K → List tape_op → Option (List K)
  | slots, [] => some slots
  | slots, tape_op.ParOp i :: ops =>
    match parameters.get? i with
    | none => none
    | some v => forward_sweep parameters (slots ++ [v]) ops
  | slots, tape_op.binary op left right :: ops =>
    match tape_arg.value parameters slots left,
      tape_arg.value parameters slots right with
    | some a, some b => forward_sweep parameters (slots ++ [op.value a b]) ops
    | _, _ => none

/-- Modelled from the spec: the values in the given variable slots. -/
def dependent_values (slots : List K) : List Nat → Option (List K)
  | [] => some []
  | d :: ds =>
    match slots.get? d, dependent_values slots ds with
    | some v, some rest => some (v :: rest)
    | _, _ => none

/-- Modelled from the spec: `f.Forward(q, xq)` (defined outside the sources)
for order `q = 0`, the order `div_op.cpp` uses: the sweep starts from the
independent variables `xq` and the result is the values of the dependents.
There is no result for another order or when the size of `xq` is not the number
of independent variables. -/
def ADFun.Forward [Add K] [Sub K] [Mul K] [Div K] (f : ADFun K) (q : Nat) (xq : List K) :
    Option (List K) :=
  if q = 0 ∧ xq.length = f.num_independent then
    match forward_sweep f.parameters xq f.opcodes with
    | none => none
    | some slots => dependent_values slots f.dependent
  else none

/-- The computation of `y = f(x, p)` in `div_op.cpp`: `f.from_graph(graph_obj)`,
`f.new_dynamic(p)` and `y = f.Forward(0, x)`. -/
def div_op_y [Add K] [Sub K] [Mul K] [Div K] (p x : List K) : Option (List K) :=
  match from_graph K div_op_graph with
  | none => none
  | some f =>
    match f.new_dynamic p with
    | none => none
    | some f => f.Forward 0 x

/-- The second computation of `y` in `div_op.cpp`, after the conversion to a
graph and back: `f.to_graph(graph_obj)`, `f.from_graph(graph_obj)`,
`f.new_dynamic(p)` and `y = f.Forward(0, x)`. -/
def div_op_y_again [Add K] [Sub K] [Mul K] [Div K] (p x : List K) : Option (List K) :=
  match from_graph K div_op_graph with
  | none => none
  | some f =>
    match f.new_dynamic p with
    | none => none
    | some f =>
      match from_graph K (to_graph f) with
      | none => none
      | some f =>
        match f.new_dynamic p with
        | none => none
        | some f => f.Forward 0 x

/-- The tape recorded from the graph of `div_op.cpp`: the two divisions, and
the dependents in variable slots 1 and 2 (slot 0 is `x[0]`). -/
def div_op_tape : ADFun ℚ :=
  { function_name := "div example", num_dynamic := 2, parameters := [], num_independent := 1,
    opcodes := [tape_op.binary graph_op_enum.div_graph_op (tape_arg.par 0) (tape_arg.par 1),
                tape_op.binary graph_op_enum.div_graph_op (tape_arg.var 0) (tape_arg.var 1)],
    dependent := [1, 2] }

end GraphDefs

namespace local_op

/-! ## Loops over an index range -/

section Loops

variable {K : Type}

/-- A loop whose pass `j` stores only at offset `base + j` leaves every other
offset as it was. -/
theorem foldl_range'_frame (step : (Nat → K) → Nat → (Nat → K)) (base : Nat)
    (hstep : ∀ t j n, n ≠ base + j → step t j n = t n) :
    ∀ (len s : Nat) (t : Nat → K) (n : Nat),
      (∀ j, s ≤ j → j < s + len → n ≠ base + j) →
      (List.range' s len).foldl step t n = t n := by
  intro len
  induction len with
  | zero => intro s t n _; rfl
  | succ len ih =>
    intro s t n h
    rw [List.range'_succ, List.foldl_cons, ih (s + 1) (step t s) n]
    · exact hstep t s n (h s (le_refl s) (by omega))
    · intro j h1 h2
      exact h j (by omega) (by omega)

/-- The value a loop leaves at offset `base + j` is the one pass `j` stored,
computed from the buffer the earlier passes produced. -/
theorem foldl_range'_value (step : (Nat → K) → Nat → (Nat → K)) (base : Nat)
    (hstep : ∀ t j n, n ≠ base + j → step t j n = t n)
    (len s : Nat) (t : Nat → K) (j : Nat) (h1 : s ≤ j) (h2 : j < s + len) :
    (List.range' s len).foldl step t (base + j) =
      step ((List.range' s (j - s)).foldl step t) j (base + j) := by
  have hsplit : List.range' s len
      = List.range' s (j - s) ++ j :: List.range' (j + 1) (len - (j - s) - 1) := by
    have e1 : len = ((len - (j - s) - 1) + 1) + (j - s) := by omega
    have e2 : s + (j - s) = j := by omega
    conv_lhs => rw [e1, ← List.range'_append_1, List.range'_succ, e2]
  rw [hsplit, List.foldl_append, List.foldl_cons]
  apply foldl_range'_frame step base hstep
  intro j' h3 _
  omega

/-- Passes before `j` do not touch offset `base + k` when `j ≤ k`. -/
theorem foldl_range'_before (step : (Nat → K) → Nat → (Nat → K)) (base : Nat)
    (hstep : ∀ t j n, n ≠ base + j → step t j n = t n)
    (len s : Nat) (t : Nat → K) (k : Nat) (h : s + len ≤ k ∨ k < s) :
    (List.range' s len).foldl step t (base + k) = t (base + k) := by
  apply foldl_range'_frame step base hstep
  intro j h1 h2
  omega

/-- Splitting a loop over `s .. s + m + n - 1` after `m` passes. -/
theorem foldl_range'_split (step : (Nat → K) → Nat → (Nat → K)) (s m n : Nat) (t : Nat → K) :
    (List.range' s (m + n)).foldl step t =
      (List.range' (s + m) n).foldl step ((List.range' s m).foldl step t) := by
  rw [Nat.add_comm m n, ← List.range'_append_1, List.foldl_append]

/-- Distinct slots of width `c` do not overlap. -/
theorem slot_offset_ne {a b c k j : Nat} (hab : a ≠ b) (hk : k < c) (hj : j < c) :
    a * c + k ≠ b * c + j := by
  intro h
  rcases Nat.lt_or_gt_of_ne hab with hlt | hgt
  · have : (a + 1) * c ≤ b * c := Nat.mul_le_mul_right c hlt
    rw [Nat.add_mul, Nat.one_mul] at this
    omega
  · have : (b + 1) * c ≤ a * c := Nat.mul_le_mul_right c hgt
    rw [Nat.add_mul, Nat.one_mul] at this
    omega

end Loops

/-! ## The recurrence of `forward_powvp_op` -/

section Powvp

variable {K : Type}

/-- The sum loop reads `x[k]`, `z[k]` only for `1 ≤ k < j`. -/
theorem powvp_sum_congr [Zero K] [Add K] [Sub K] [Mul K] [NatCast K]
    (y : K) (x z x' z' : Nat → K) (j : Nat)
    (hx : ∀ k, 1 ≤ k → k < j → x k = x' k) (hz : ∀ k, 1 ≤ k → k < j → z k = z' k) :
    powvp_sum y x z j = powvp_sum y x' z' j := by
  unfold powvp_sum
  apply List.foldl_ext
  intro a k hk
  rw [List.mem_range'_1] at hk
  rw [hx k (by omega) (by omega), hx (j - k) (by omega) (by omega),
    hz k (by omega) (by omega), hz (j - k) (by omega) (by omega)]

/-- An accumulation loop over a range is a finite sum. -/
theorem foldl_add_range' [AddCommMonoid K] (f : Nat → K) (s : Nat) :
    ∀ n : Nat, (List.range' s n).foldl (fun (acc : K) (k : Nat) => acc + f k) 0
      = ∑ i ∈ Finset.range n, f (s + i) := by
  intro n
  induction n with
  | zero => simp
  | succ n ih => rw [List.range'_1_concat, List.foldl_append, ih, Finset.sum_range_succ]; rfl

/-- The sum loop of `forward_powvp_op` as a finite sum over `1 ≤ k < j`. -/
theorem powvp_sum_eq [Field K] (y : K) (x z : Nat → K) (j : Nat) :
    powvp_sum y x z j
      = ∑ k ∈ Finset.Ico 1 j, (k : K) * (y * x k * z (j - k) - z k * x (j - k)) := by
  unfold powvp_sum
  rw [foldl_add_range' (fun k => (k : K) * (y * x k * z (j - k) - z k * x (j - k))) 1 (j - 1),
    Finset.sum_Ico_eq_sum_range]

variable [Zero K] [Add K] [Sub K] [Mul K] [Div K] [NatCast K] [DecidableEq K]

/-- Order `j` stores only `z[j]`. -/
theorem forward_powvp_order_ne (i_z : Nat) (arg : Nat → Nat) (parameter : Nat → K)
    (cap_order : Nat) (t : Nat → K) (j n : Nat) (h : n ≠ i_z * cap_order + j) :
    forward_powvp_order i_z arg parameter cap_order t j n = t n := by
  unfold forward_powvp_order
  exact Function.update_noteq h _ _

/-- The value order `j` stores in `z[j]`. -/
theorem forward_powvp_order_self (i_z : Nat) (arg : Nat → Nat) (parameter : Nat → K)
    (cap_order : Nat) (t : Nat → K) (j : Nat) :
    forward_powvp_order i_z arg parameter cap_order t j (i_z * cap_order + j) =
      CondExpEq (t (arg 0 * cap_order + 0)) 0 0
        ((parameter (arg 1) * t (i_z * cap_order + 0) * t (arg 0 * cap_order + j)
          + powvp_sum (parameter (arg 1)) (fun k => t (arg 0 * cap_order + k))
              (fun k => t (i_z * cap_order + k)) j / (j : K))
          / t (arg 0 * cap_order + 0)) := by
  unfold forward_powvp_order
  exact Function.update_same _ _ _

/-- A call with `p = 0` is the order zero store followed by the loop over `1..q`. -/
theorem forward_powvp_op_zero_eq (pow : K → K → K) (q i_z : Nat) (arg : Nat → Nat)
    (parameter : Nat → K) (cap_order : Nat) (t : Nat → K) :
    forward_powvp_op pow 0 q i_z arg parameter cap_order t =
      (List.range' 1 q).foldl (forward_powvp_order i_z arg parameter cap_order)
        (Function.update t (i_z * cap_order)
          (pow (t (arg 0 * cap_order)) (parameter (arg 1)))) := by
  simp [forward_powvp_op]

/-- A call with `p ≥ 1` is the loop over `p..q`. -/
theorem forward_powvp_op_pos_eq (pow : K → K → K) (p q i_z : Nat) (arg : Nat → Nat)
    (parameter : Nat → K) (cap_order : Nat) (t : Nat → K) (hp : 1 ≤ p) :
    forward_powvp_op pow p q i_z arg parameter cap_order t =
      (List.range' p (q + 1 - p)).foldl (forward_powvp_order i_z arg parameter cap_order) t := by
  have hp0 : p ≠ 0 := by omega
  simp [forward_powvp_op, hp0]

/-- The loop of `forward_powvp_op` stores only at `z[s], ..., z[s + len - 1]`. -/
theorem powvp_loop_frame (i_z : Nat) (arg : Nat → Nat) (parameter : Nat → K)
    (cap_order : Nat) (len s : Nat) (t : Nat → K) (n : Nat)
    (h : ∀ j, s ≤ j → j < s + len → n ≠ i_z * cap_order + j) :
    (List.range' s len).foldl (forward_powvp_order i_z arg parameter cap_order) t n = t n :=
  foldl_range'_frame _ (i_z * cap_order)
    (fun t j n hn => forward_powvp_order_ne i_z arg parameter cap_order t j n hn) len s t n h

/-- The order zero coefficient of `x` survives the loop: the stores `z[j]` with
`1 ≤ j < cap_order` never hit `x[0]`, also when `x` and `z` are one slot. -/
theorem powvp_loop_x0 (i_z : Nat) (arg : Nat → Nat) (parameter : Nat → K)
    (cap_order : Nat) (len s : Nat) (t : Nat → K) (hs : 1 ≤ s) (hcap : s + len ≤ cap_order) :
    (List.range' s len).foldl (forward_powvp_order i_z arg parameter cap_order) t
      (arg 0 * cap_order + 0) = t (arg 0 * cap_order + 0) := by
  apply powvp_loop_frame
  intro j h1 h2
  by_cases hne : arg 0 = i_z
  · rw [hne]; omega
  · exact slot_offset_ne hne (by omega) (by omega)

/-- The coefficients of a slot other than `z` survive the loop. -/
theorem powvp_loop_x (i_z : Nat) (arg : Nat → Nat) (parameter : Nat → K)
    (cap_order : Nat) (len s : Nat) (t : Nat → K) (k : Nat) (hne : arg 0 ≠ i_z)
    (hk : k < cap_order) (hcap : s + len ≤ cap_order) :
    (List.range' s len).foldl (forward_powvp_order i_z arg parameter cap_order) t
      (arg 0 * cap_order + k) = t (arg 0 * cap_order + k) := by
  apply powvp_loop_frame
  intro j h1 h2
  exact slot_offset_ne hne hk (by omega)

/-- The guard: with `x[0] = 0` every order the loop computes is stored as zero. -/
theorem powvp_loop_guard (i_z : Nat) (arg : Nat → Nat) (parameter : Nat → K)
    (cap_order : Nat) (len s : Nat) (t : Nat → K) (j : Nat)
    (hs : 1 ≤ s) (hcap : s + len ≤ cap_order) (h1 : s ≤ j) (h2 : j < s + len)
    (hx : t (arg 0 * cap_order + 0) = 0) :
    (List.range' s len).foldl (forward_powvp_order i_z arg parameter cap_order) t
      (i_z * cap_order + j) = 0 := by
  rw [foldl_range'_value _ (i_z * cap_order)
    (fun t j n hn => forward_powvp_order_ne i_z arg parameter cap_order t j n hn) len s t j h1 h2,
    forward_powvp_order_self,
    powvp_loop_x0 i_z arg parameter cap_order (j - s) s t hs (by omega), hx]
  simp [CondExpEq]

/-- The recurrence: the coefficient the loop leaves in `z[j]`, in terms of the
coefficients of `x` before the loop and the coefficients of `z` after it. -/
theorem powvp_loop_coef (i_z : Nat) (arg : Nat → Nat) (parameter : Nat → K)
    (cap_order : Nat) (len s : Nat) (t : Nat → K) (j : Nat)
    (hne : arg 0 ≠ i_z) (hs : 1 ≤ s) (hcap : s + len ≤ cap_order)
    (h1 : s ≤ j) (h2 : j < s + len) :
    (List.range' s len).foldl (forward_powvp_order i_z arg parameter cap_order) t
        (i_z * cap_order + j) =
      CondExpEq (t (arg 0 * cap_order + 0)) 0 0
        ((parameter (arg 1)
            * (List.range' s len).foldl (forward_powvp_order i_z arg parameter cap_order) t
                (i_z * cap_order + 0)
            * t (arg 0 * cap_order + j)
          + powvp_sum (parameter (arg 1)) (fun k => t (arg 0 * cap_order + k))
              (fun k => (List.range' s len).foldl
                (forward_powvp_order i_z arg parameter cap_order) t (i_z * cap_order + k)) j
            / (j : K))
          / t (arg 0 * cap_order + 0)) := by
  have hstep : ∀ (t : Nat → K) (j n : Nat), n ≠ i_z * cap_order + j →
      forward_powvp_order i_z arg parameter cap_order t j n = t n :=
    fun t j n hn => forward_powvp_order_ne i_z arg parameter cap_order t j n hn
  -- the buffer before order `j`
  have hsplit : (List.range' s len).foldl (forward_powvp_order i_z arg parameter cap_order) t
      = (List.range' (s + (j - s)) (len - (j - s))).foldl
          (forward_powvp_order i_z arg parameter cap_order)
          ((List.range' s (j - s)).foldl (forward_powvp_order i_z arg parameter cap_order) t) := by
    rw [← foldl_range'_split]
    congr 2
    omega
  have hz : ∀ k, k < j →
      (List.range' s len).foldl (forward_powvp_order i_z arg parameter cap_order) t
        (i_z * cap_order + k)
      = (List.range' s (j - s)).foldl (forward_powvp_order i_z arg parameter cap_order) t
        (i_z * cap_order + k) := by
    intro k hk
    rw [hsplit]
    exact foldl_range'_before _ (i_z * cap_order) hstep _ _ _ k (Or.inr (by omega))
  have hxk : ∀ k, k < cap_order →
      (List.range' s (j - s)).foldl (forward_powvp_order i_z arg parameter cap_order) t
        (arg 0 * cap_order + k) = t (arg 0 * cap_order + k) :=
    fun k hk => powvp_loop_x i_z arg parameter cap_order (j - s) s t k hne hk (by omega)
  have hsum : powvp_sum (parameter (arg 1))
      (fun k => (List.range' s (j - s)).foldl
        (forward_powvp_order i_z arg parameter cap_order) t (arg 0 * cap_order + k))
      (fun k => (List.range' s (j - s)).foldl
        (forward_powvp_order i_z arg parameter cap_order) t (i_z * cap_order + k)) j
      = powvp_sum (parameter (arg 1)) (fun k => t (arg 0 * cap_order + k))
      (fun k => (List.range' s len).foldl
        (forward_powvp_order i_z arg parameter cap_order) t (i_z * cap_order + k)) j := by
    apply powvp_sum_congr
    · intro k _ hk; exact hxk k (by omega)
    · intro k _ hk; exact (hz k hk).symm
  rw [foldl_range'_value _ (i_z * cap_order) hstep len s t j h1 h2, forward_powvp_order_self,
    hxk 0 (by omega), hxk j (by omega), hsum, hz 0 (by omega)]

end Powvp

/-! ## Results of a call `forward_powvp_op(0, q, ...)` -/

section PowvpCall

variable {K : Type} [Zero K] [Add K] [Sub K] [Mul K] [Div K] [NatCast K] [DecidableEq K]

/-- After a call with `p = 0` the order zero coefficient is `pow(x[0], y)`. -/
theorem forward_powvp_op_z0 (pow : K → K → K) (q i_z : Nat) (arg : Nat → Nat)
    (parameter : Nat → K) (cap_order : Nat) (t : Nat → K) :
    forward_powvp_op pow 0 q i_z arg parameter cap_order t (i_z * cap_order) =
      pow (t (arg 0 * cap_order)) (parameter (arg 1)) := by
  rw [forward_powvp_op_zero_eq, powvp_loop_frame, Function.update_same]
  intro j h1 _
  omega

/-- After a call with `p = 0` the coefficient of order `j ≥ 1` obeys the
recurrence, read with the input coefficients of `x` and the final ones of `z`. -/
theorem forward_powvp_op_coef (pow : K → K → K) (q i_z : Nat) (arg : Nat → Nat)
    (parameter : Nat → K) (cap_order : Nat) (t : Nat → K) (j : Nat)
    (hq : q < cap_order) (hne : arg 0 ≠ i_z) (h1 : 1 ≤ j) (h2 : j ≤ q) :
    forward_powvp_op pow 0 q i_z arg parameter cap_order t (i_z * cap_order + j) =
      CondExpEq (t (arg 0 * cap_order)) 0 0
        ((parameter (arg 1)
            * forward_powvp_op pow 0 q i_z arg parameter cap_order t (i_z * cap_order)
            * t (arg 0 * cap_order + j)
          + powvp_sum (parameter (arg 1)) (fun k => t (arg 0 * cap_order + k))
              (fun k => forward_powvp_op pow 0 q i_z arg parameter cap_order t
                (i_z * cap_order + k)) j
            / (j : K))
          / t (arg 0 * cap_order)) := by
  have hx : ∀ k, k < cap_order →
      Function.update t (i_z * cap_order) (pow (t (arg 0 * cap_order)) (parameter (arg 1)))
        (arg 0 * cap_order + k) = t (arg 0 * cap_order + k) := by
    intro k hk
    apply Function.update_noteq
    have := slot_offset_ne (c := cap_order) (k := k) (j := 0) hne hk (by omega)
    simpa using this
  have h := powvp_loop_coef i_z arg parameter cap_order q 1
    (Function.update t (i_z * cap_order) (pow (t (arg 0 * cap_order)) (parameter (arg 1))))
    j hne (le_refl 1) (by omega) h1 (by omega)
  rw [hx 0 (by omega), hx j (by omega)] at h
  rw [forward_powvp_op_zero_eq]
  rw [h]
  have hsum := powvp_sum_congr (parameter (arg 1))
    (fun k => Function.update t (i_z * cap_order)
      (pow (t (arg 0 * cap_order)) (parameter (arg 1))) (arg 0 * cap_order + k))
    (fun k => (List.range' 1 q).foldl (forward_powvp_order i_z arg parameter cap_order)
      (Function.update t (i_z * cap_order) (pow (t (arg 0 * cap_order)) (parameter (arg 1))))
      (i_z * cap_order + k))
    (fun k => t (arg 0 * cap_order + k))
    (fun k => (List.range' 1 q).foldl (forward_powvp_order i_z arg parameter cap_order)
      (Function.update t (i_z * cap_order) (pow (t (arg 0 * cap_order)) (parameter (arg 1))))
      (i_z * cap_order + k)) j
    (fun k _ hk => hx k (by omega)) (fun k _ _ => rfl)
  rw [hsum]
  rfl

end PowvpCall

/-! ## The loop over directions of `forward_powvp_op_dir` -/

section PowvpDir

variable {K : Type} [Zero K] [Add K] [Sub K] [Mul K] [Div K] [NatCast K] [DecidableEq K]

/-- The entry `m + ell` of a direction lies inside the variable's block of
`(cap_order - 1) * r + 1` entries, past its order zero entry. -/
theorem dir_index_lt {q r cap_order ell : Nat} (h0 : 0 < q) (hq : q < cap_order)
    (hell : ell < r) : (q - 1) * r + 1 + ell < (cap_order - 1) * r + 1 := by
  obtain ⟨q', rfl⟩ : ∃ q', q = q' + 1 := ⟨q - 1, by omega⟩
  obtain ⟨c, rfl⟩ : ∃ c, cap_order = c + 1 := ⟨cap_order - 1, by omega⟩
  have h : (q' + 1) * r ≤ c * r := Nat.mul_le_mul_right r (by omega)
  rw [Nat.add_mul, Nat.one_mul] at h
  simp only [Nat.add_sub_cancel]
  omega

/-- The entries of orders below `q` of a direction precede the order `q` block. -/
theorem dir_index_lt_m {q r k ell : Nat} (h1 : 1 ≤ k) (hk : k < q) (hell : ell < r) :
    (k - 1) * r + ell + 1 < (q - 1) * r + 1 := by
  have h : (k - 1 + 1) * r ≤ (q - 1) * r := Nat.mul_le_mul_right r (by omega)
  rw [Nat.add_mul, Nat.one_mul] at h
  omega

/-- Direction `ell` stores only `z[m + ell]`. -/
theorem forward_powvp_dir_ell_ne (q r i_z : Nat) (arg : Nat → Nat) (parameter : Nat → K)
    (cap_order : Nat) (t : Nat → K) (ell n : Nat)
    (h : n ≠ i_z * ((cap_order - 1) * r + 1) + ((q - 1) * r + 1) + ell) :
    forward_powvp_dir_ell q r i_z arg parameter cap_order t ell n = t n := by
  unfold forward_powvp_dir_ell
  apply Function.update_noteq
  rw [← Nat.add_assoc]
  exact h

/-- The value direction `ell` stores in `z[m + ell]`. -/
theorem forward_powvp_dir_ell_self (q r i_z : Nat) (arg : Nat → Nat) (parameter : Nat → K)
    (cap_order : Nat) (t : Nat → K) (ell : Nat) :
    forward_powvp_dir_ell q r i_z arg parameter cap_order t ell
        (i_z * ((cap_order - 1) * r + 1) + ((q - 1) * r + 1) + ell) =
      CondExpEq (t (arg 0 * ((cap_order - 1) * r + 1) + 0)) 0 0
        ((parameter (arg 1) * t (i_z * ((cap_order - 1) * r + 1) + 0)
              * t (arg 0 * ((cap_order - 1) * r + 1) + ((q - 1) * r + ell + 1))
          + (List.range' 1 (q - 1)).foldl
              (fun (sum : K) (k : Nat) =>
                sum + (k : K) *
                  (parameter (arg 1)
                      * t (arg 0 * ((cap_order - 1) * r + 1) + ((k - 1) * r + ell + 1))
                      * t (i_z * ((cap_order - 1) * r + 1) + ((q - k - 1) * r + ell + 1))
                    - t (i_z * ((cap_order - 1) * r + 1) + ((k - 1) * r + ell + 1))
                      * t (arg 0 * ((cap_order - 1) * r + 1) + ((q - k - 1) * r + ell + 1)))) 0
            / (q : K))
          / t (arg 0 * ((cap_order - 1) * r + 1) + 0)) := by
  unfold forward_powvp_dir_ell
  rw [Nat.add_assoc (i_z * ((cap_order - 1) * r + 1)) ((q - 1) * r + 1) ell]
  simp only [Function.update_same]

/-- The directions before `ell` leave alone every entry direction `ell` reads:
an entry `k` of the block of `x`, or an entry of `z` below the order `q` block. -/
theorem powvp_dir_loop_read (q r i_z : Nat) (arg : Nat → Nat) (parameter : Nat → K)
    (cap_order : Nat) (t : Nat → K) (ell : Nat)
    (h0 : 0 < q) (hq : q < cap_order) (hell : ell < r) :
    (∀ k, k < (cap_order - 1) * r + 1 → (arg 0 = i_z →
        k < (q - 1) * r + 1 ∨ (q - 1) * r + 1 + ell ≤ k) →
      (List.range' 0 ell).foldl (forward_powvp_dir_ell q r i_z arg parameter cap_order) t
        (arg 0 * ((cap_order - 1) * r + 1) + k) = t (arg 0 * ((cap_order - 1) * r + 1) + k)) ∧
    (∀ k, k < (q - 1) * r + 1 →
      (List.range' 0 ell).foldl (forward_powvp_dir_ell q r i_z arg parameter cap_order) t
        (i_z * ((cap_order - 1) * r + 1) + k) = t (i_z * ((cap_order - 1) * r + 1) + k)) := by
  have hstep : ∀ (t : Nat → K) (j n : Nat),
      n ≠ i_z * ((cap_order - 1) * r + 1) + ((q - 1) * r + 1) + j →
      forward_powvp_dir_ell q r i_z arg parameter cap_order t j n = t n :=
    fun t j n hn => forward_powvp_dir_ell_ne q r i_z arg parameter cap_order t j n hn
  constructor
  · intro k hk hsame
    apply foldl_range'_frame _ _ hstep
    intro j _ hj
    by_cases hne : arg 0 = i_z
    · rw [hne]
      have := hsame hne
      omega
    · have hlt := dir_index_lt h0 hq (show j < r by omega)
      rw [Nat.add_assoc]
      exact slot_offset_ne hne hk (by omega)
  · intro k hk
    apply foldl_range'_frame _ _ hstep
    intro j _ _
    omega

/-- The guard in every direction: with `x[0] = 0` the order `q` coefficient of
each direction is stored as zero. -/
theorem powvp_dir_guard (q r i_z : Nat) (arg : Nat → Nat) (parameter : Nat → K)
    (cap_order : Nat) (t : Nat → K) (ell : Nat)
    (h0 : 0 < q) (hq : q < cap_order) (hell : ell < r)
    (hx : t (arg 0 * ((cap_order - 1) * r + 1)) = 0) :
    forward_powvp_op_dir q r i_z arg parameter cap_order t
      (i_z * ((cap_order - 1) * r + 1) + ((q - 1) * r + 1 + ell)) = 0 := by
  have hstep : ∀ (t : Nat → K) (j n : Nat),
      n ≠ i_z * ((cap_order - 1) * r + 1) + ((q - 1) * r + 1) + j →
      forward_powvp_dir_ell q r i_z arg parameter cap_order t j n = t n :=
    fun t j n hn => forward_powvp_dir_ell_ne q r i_z arg parameter cap_order t j n hn
  unfold forward_powvp_op_dir
  rw [← Nat.add_assoc, foldl_range'_value _ _ hstep r 0 t ell (Nat.zero_le _) (by omega),
    forward_powvp_dir_ell_self, Nat.sub_zero,
    (powvp_dir_loop_read q r i_z arg parameter cap_order t ell h0 hq hell).1 0 (by omega)
      (fun _ => Or.inl (by omega)), Nat.add_zero, hx]
  simp [CondExpEq]

end PowvpDir

/-! ## Claims about `forward_powvp_op` -/

section PowvpClaims

/-- C1. Power rule for `forward_powvp_op` with `p = 0` over a field of
characteristic zero: for `q < cap_order`, distinct slots for `x` and `z` and
`x[0] ≠ 0`, the computed coefficients satisfy `z[0] = pow(x[0], y)` and, for
every order `1 ≤ j ≤ q`, the convolution identity
`sum_{k=1..j} k * z[k] * x[j-k] = y * sum_{k=1..j} k * x[k] * z[j-k]`. -/
theorem forward_powvp_op_power_rule {K : Type} [Field K] [CharZero K] [DecidableEq K]
    (pow : K → K → K) (q i_z : Nat) (arg : Nat → Nat) (parameter : Nat → K)
    (cap_order : Nat) (taylor : Nat → K)
    (hq : q < cap_order) (hne : arg 0 ≠ i_z) (hx0 : taylor (arg 0 * cap_order) ≠ 0) :
    forward_powvp_op pow 0 q i_z arg parameter cap_order taylor (i_z * cap_order)
        = pow (taylor (arg 0 * cap_order)) (parameter (arg 1)) ∧
    ∀ j, 1 ≤ j → j ≤ q →
      ∑ k ∈ Finset.Icc 1 j,
          (k : K) * forward_powvp_op pow 0 q i_z arg parameter cap_order taylor
                      (i_z * cap_order + k)
            * taylor (arg 0 * cap_order + (j - k))
        = parameter (arg 1) *
          ∑ k ∈ Finset.Icc 1 j,
            (k : K) * taylor (arg 0 * cap_order + k)
              * forward_powvp_op pow 0 q i_z arg parameter cap_order taylor
                  (i_z * cap_order + (j - k)) := by
  refine ⟨forward_powvp_op_z0 pow q i_z arg parameter cap_order taylor, ?_⟩
  intro j h1 h2
  have hc := forward_powvp_op_coef pow q i_z arg parameter cap_order taylor j hq hne h1 h2
  obtain ⟨i, rfl⟩ : ∃ i, j = i + 1 := ⟨j - 1, by omega⟩
  rw [powvp_sum_eq, Nat.Ico_succ_right] at hc
  simp only [CondExpEq, if_neg hx0] at hc
  have hS : ∑ k ∈ Finset.Icc 1 i,
        (k : K) * (parameter (arg 1) * taylor (arg 0 * cap_order + k)
            * forward_powvp_op pow 0 q i_z arg parameter cap_order taylor
                (i_z * cap_order + (i + 1 - k))
          - forward_powvp_op pow 0 q i_z arg parameter cap_order taylor (i_z * cap_order + k)
            * taylor (arg 0 * cap_order + (i + 1 - k)))
      = parameter (arg 1) *
          (∑ k ∈ Finset.Icc 1 i, (k : K) * taylor (arg 0 * cap_order + k)
            * forward_powvp_op pow 0 q i_z arg parameter cap_order taylor
                (i_z * cap_order + (i + 1 - k)))
        - ∑ k ∈ Finset.Icc 1 i,
            (k : K) * forward_powvp_op pow 0 q i_z arg parameter cap_order taylor
                (i_z * cap_order + k)
              * taylor (arg 0 * cap_order + (i + 1 - k)) := by
    rw [Finset.mul_sum, ← Finset.sum_sub_distrib]
    exact Finset.sum_congr rfl (fun k _ => by ring)
  rw [hS] at hc
  rw [Finset.sum_Icc_succ_top (by omega), Finset.sum_Icc_succ_top (by omega), hc]
  simp only [Nat.sub_self, Nat.add_zero]
  have hi : ((i + 1 : Nat) : K) ≠ 0 := Nat.cast_ne_zero.mpr (by omega)
  generalize (∑ k ∈ Finset.Icc 1 i, (k : K) * taylor (arg 0 * cap_order + k)
            * forward_powvp_op pow 0 q i_z arg parameter cap_order taylor
                (i_z * cap_order + (i + 1 - k))) = B
  generalize (∑ k ∈ Finset.Icc 1 i,
            (k : K) * forward_powvp_op pow 0 q i_z arg parameter cap_order taylor
                (i_z * cap_order + k)
              * taylor (arg 0 * cap_order + (i + 1 - k))) = A
  generalize ((i + 1 : Nat) : K) = c at hi ⊢
  field_simp
  ring

/-- Witness for C1 on `x = (2, 1, 0, 0)`, `y = 3`, `q = 3`, at order `j = 2`. -/
theorem forward_powvp_op_power_rule_witness :
    (3 < 4 ∧ exArg 0 ≠ 1 ∧ exTaylor (exArg 0 * 4) ≠ 0) ∧
    forward_powvp_op ratPow 0 3 1 exArg exPar 4 exTaylor (1 * 4)
        = ratPow (exTaylor (exArg 0 * 4)) (exPar (exArg 1)) ∧
    ∑ k ∈ Finset.Icc (1 : Nat) 2,
        ((k : Nat) : ℚ) * forward_powvp_op ratPow 0 3 1 exArg exPar 4 exTaylor (1 * 4 + k)
          * exTaylor (exArg 0 * 4 + (2 - k))
      = exPar (exArg 1) *
        ∑ k ∈ Finset.Icc (1 : Nat) 2,
          ((k : Nat) : ℚ) * exTaylor (exArg 0 * 4 + k)
            * forward_powvp_op ratPow 0 3 1 exArg exPar 4 exTaylor (1 * 4 + (2 - k)) :=
  have h1 : 3 < 4 := by decide
  have h2 : exArg 0 ≠ 1 := by decide
  have h3 : exTaylor (exArg 0 * 4) ≠ 0 := by norm_num [exTaylor, exArg]
  ⟨⟨h1, h2, h3⟩,
    (forward_powvp_op_power_rule ratPow 3 1 exArg exPar 4 exTaylor h1 h2 h3).1,
    (forward_powvp_op_power_rule ratPow 3 1 exArg exPar 4 exTaylor h1 h2 h3).2 2
      (by decide) (by decide)⟩

/-- C2. Guarded division in `forward_powvp_op` and `forward_powvp_op_dir`, for
any `Base` (division by zero may yield anything): when `x[0] = 0` and
`q < cap_order`, every coefficient `z[j]` with `max(p,1) ≤ j ≤ q` that
`forward_powvp_op(p, q)` computes is exactly `0` (when the call also stores
order zero, `p = 0`, the slots of `x` and `z` are taken distinct); and for
`0 < q < cap_order` the coefficient `forward_powvp_op_dir` stores for every
direction `ell < r` is exactly `0`. -/
theorem forward_powvp_op_guard {K : Type}
    [Zero K] [Add K] [Sub K] [Mul K] [Div K] [NatCast K] [DecidableEq K]
    (pow : K → K → K) (i_z : Nat) (arg : Nat → Nat) (parameter : Nat → K)
    (cap_order : Nat) :
    (∀ (p q : Nat) (taylor : Nat → K),
      q < cap_order → (p = 0 → arg 0 ≠ i_z) → taylor (arg 0 * cap_order) = 0 →
      ∀ j, max p 1 ≤ j → j ≤ q →
        forward_powvp_op pow p q i_z arg parameter cap_order taylor (i_z * cap_order + j)
          = 0) ∧
    (∀ (q r : Nat) (taylor : Nat → K),
      0 < q → q < cap_order → taylor (arg 0 * ((cap_order - 1) * r + 1)) = 0 →
      ∀ ell, ell < r →
        forward_powvp_op_dir q r i_z arg parameter cap_order taylor
          (i_z * ((cap_order - 1) * r + 1) + ((q - 1) * r + 1 + ell)) = 0) := by
  constructor
  · intro p q taylor hq hne hx j h1 h2
    rcases Nat.eq_zero_or_pos p with hp | hp
    · subst hp
      rw [forward_powvp_op_zero_eq]
      apply powvp_loop_guard i_z arg parameter cap_order q 1 _ j (le_refl 1) (by omega)
        (by omega) (by omega)
      rw [Nat.add_zero, Function.update_noteq, hx]
      have := slot_offset_ne (c := cap_order) (k := 0) (j := 0) (hne rfl) (by omega) (by omega)
      simpa using this
    · rw [forward_powvp_op_pos_eq pow p q i_z arg parameter cap_order taylor hp]
      exact powvp_loop_guard i_z arg parameter cap_order (q + 1 - p) p taylor j hp (by omega)
        (by omega) (by omega) (by rw [Nat.add_zero]; exact hx)
  · intro q r taylor h0 hq hx ell hell
    exact powvp_dir_guard q r i_z arg parameter cap_order taylor ell h0 hq hell hx

/-- Witness for C2 on `x = (0, 1, 0, 0)`, `y = 3`: orders `1..3` of a call with
`p = 0`, and two directions at order `1`. -/
theorem forward_powvp_op_guard_witness :
    (3 < 4 ∧ ((0 : Nat) = 0 → exArg 0 ≠ 1) ∧ exTaylorZero (exArg 0 * 4) = 0 ∧
      0 < 1 ∧ 1 < 4 ∧ exTaylorZero (exArg 0 * ((4 - 1) * 2 + 1)) = 0) ∧
    (∀ j, max 0 1 ≤ j → j ≤ 3 →
      forward_powvp_op ratPow 0 3 1 exArg exPar 4 exTaylorZero (1 * 4 + j) = 0) ∧
    (∀ ell, ell < 2 →
      forward_powvp_op_dir 1 2 1 exArg exPar 4 exTaylorZero
        (1 * ((4 - 1) * 2 + 1) + ((1 - 1) * 2 + 1 + ell)) = 0) :=
  have h1 : 3 < 4 := by decide
  have h2 : (0 : Nat) = 0 → exArg 0 ≠ 1 := fun _ => by decide
  have h3 : exTaylorZero (exArg 0 * 4) = 0 := by simp [exTaylorZero, exArg]
  have h4 : 0 < 1 := by decide
  have h5 : 1 < 4 := by decide
  have h6 : exTaylorZero (exArg 0 * ((4 - 1) * 2 + 1)) = 0 := by simp [exTaylorZero, exArg]
  ⟨⟨h1, h2, h3, h4, h5, h6⟩,
    (forward_powvp_op_guard ratPow 1 exArg exPar 4).1 0 3 exTaylorZero h1 h2 h3,
    (forward_powvp_op_guard ratPow 1 exArg exPar 4).2 1 2 exTaylorZero h4 h5 h6⟩

/-- C3, counterexample. With `x[0] = 0` and exponent `y = 0`, a call with `p = 0`
and `q = 1 < cap_order = 4` leaves `z[0] = pow(0, 0) = 1`, so not every
coefficient of order `0 ≤ j ≤ q` is zero. -/
theorem forward_powvp_op_zero_base_order_zero_counterexample :
    exTaylorZero (exArg 0 * 4) = 0 ∧ 1 < 4 ∧
    forward_powvp_op ratPow 0 1 1 exArg exParZero 4 exTaylorZero (1 * 4 + 0) = 1 ∧
    ¬ (∀ j, j ≤ 1 →
        forward_powvp_op ratPow 0 1 1 exArg exParZero 4 exTaylorZero (1 * 4 + j) = 0) := by
  have hz : forward_powvp_op ratPow 0 1 1 exArg exParZero 4 exTaylorZero (1 * 4 + 0) = 1 := by
    rw [Nat.add_zero, forward_powvp_op_z0]
    simp [ratPow, exParZero]
  refine ⟨by simp [exTaylorZero, exArg], by decide, hz, ?_⟩
  intro h
  have h0 := h 0 (by decide)
  rw [hz] at h0
  exact one_ne_zero h0

/-- C3, amended. With `x[0] = 0`, `q < cap_order` and distinct slots for `x`
and `z`, a call of `forward_powvp_op` with `p = 0` leaves
`z[0] = pow(x[0], y)`, the `Base` power of zero, and `z[j] = 0` for every
`1 ≤ j ≤ q`; this holds for any `Base`. -/
theorem forward_powvp_op_zero_base {K : Type}
    [Zero K] [Add K] [Sub K] [Mul K] [Div K] [NatCast K] [DecidableEq K]
    (pow : K → K → K) (q i_z : Nat) (arg : Nat → Nat) (parameter : Nat → K)
    (cap_order : Nat) (taylor : Nat → K)
    (hq : q < cap_order) (hne : arg 0 ≠ i_z) (hx : taylor (arg 0 * cap_order) = 0) :
    forward_powvp_op pow 0 q i_z arg parameter cap_order taylor (i_z * cap_order + 0)
        = pow 0 (parameter (arg 1)) ∧
    ∀ j, 1 ≤ j → j ≤ q →
      forward_powvp_op pow 0 q i_z arg parameter cap_order taylor (i_z * cap_order + j) = 0 := by
  constructor
  · rw [Nat.add_zero, forward_powvp_op_z0, hx]
  · intro j h1 h2
    rw [forward_powvp_op_zero_eq]
    apply powvp_loop_guard i_z arg parameter cap_order q 1 _ j (le_refl 1) (by omega)
      (by omega) (by omega)
    rw [Nat.add_zero, Function.update_noteq, hx]
    have := slot_offset_ne (c := cap_order) (k := 0) (j := 0) hne (by omega) (by omega)
    simpa using this

/-- Witness for the amended C3 on `x = (0, 1, 0, 0)`, `y = 3`, `q = 3`. -/
theorem forward_powvp_op_zero_base_witness :
    (3 < 4 ∧ exArg 0 ≠ 1 ∧ exTaylorZero (exArg 0 * 4) = 0) ∧
    forward_powvp_op ratPow 0 3 1 exArg exPar 4 exTaylorZero (1 * 4 + 0)
        = ratPow 0 (exPar (exArg 1)) ∧
    ∀ j, 1 ≤ j → j ≤ 3 →
      forward_powvp_op ratPow 0 3 1 exArg exPar 4 exTaylorZero (1 * 4 + j) = 0 :=
  have h1 : 3 < 4 := by decide
  have h2 : exArg 0 ≠ 1 := by decide
  have h3 : exTaylorZero (exArg 0 * 4) = 0 := by simp [exTaylorZero, exArg]
  ⟨⟨h1, h2, h3⟩, forward_powvp_op_zero_base ratPow 3 1 exArg exPar 4 exTaylorZero h1 h2 h3⟩

end PowvpClaims

/-! ## Zero order routines -/

section ZeroOrder

/-- C4. The zero order value is the plain `Base` power for all three variants
(operand slots preceding the result slots, `cap_order > 0`):
`forward_powvv_op_0` leaves `pow(x[0], y[0])` in the order zero entry of slot
`i_z`, `forward_powpv_op_0` leaves `pow(parameter[arg[0]], y[0])` and
`forward_powvp_op_0` leaves `pow(x[0], parameter[arg[1]])`; `pow` is applied to
the operand values themselves, whatever `log` is. -/
theorem forward_pow_op_0_value {K : Type} [Mul K]
    (pow : K → K → K) (log : K → K) :
    (∀ (i_z : Nat) (arg : Nat → Nat) (parameter : Nat → K) (cap_order : Nat)
        (taylor : Nat → K),
        0 < cap_order → arg 0 < i_z - 2 → arg 1 < i_z - 2 →
        forward_powvv_op_0 pow log i_z arg parameter cap_order taylor (i_z * cap_order)
          = pow (taylor (arg 0 * cap_order)) (taylor (arg 1 * cap_order))) ∧
    (∀ (i_z : Nat) (arg : Nat → Nat) (parameter : Nat → K) (cap_order : Nat)
        (taylor : Nat → K),
        0 < cap_order → arg 1 < i_z - 2 →
        forward_powpv_op_0 pow log i_z arg parameter cap_order taylor (i_z * cap_order)
          = pow (parameter (arg 0)) (taylor (arg 1 * cap_order))) ∧
    (∀ (i_z : Nat) (arg : Nat → Nat) (parameter : Nat → K) (cap_order : Nat)
        (taylor : Nat → K),
        forward_powvp_op_0 pow i_z arg parameter cap_order taylor (i_z * cap_order)
          = pow (taylor (arg 0 * cap_order)) (parameter (arg 1))) := by
  refine ⟨?_, ?_, ?_⟩
  · intro i_z arg parameter cap_order taylor hcap h0 h1
    obtain ⟨i, rfl⟩ : ∃ i, i_z = i + 2 := ⟨i_z - 2, by omega⟩
    simp only [Nat.add_sub_cancel] at h0 h1
    have e2 : (i + 2) * cap_order = i * cap_order + cap_order + cap_order := by ring
    have a0 : arg 0 * cap_order ≠ i * cap_order := by
      simpa using slot_offset_ne (c := cap_order) (k := 0) (j := 0) (Nat.ne_of_lt h0) hcap hcap
    have a1 : arg 1 * cap_order ≠ i * cap_order := by
      simpa using slot_offset_ne (c := cap_order) (k := 0) (j := 0) (Nat.ne_of_lt h1) hcap hcap
    have b0 : arg 0 * cap_order ≠ i * cap_order + cap_order := by
      have := slot_offset_ne (c := cap_order) (k := 0) (j := 0)
        (show arg 0 ≠ i + 1 by omega) hcap hcap
      rw [Nat.add_mul, Nat.one_mul] at this
      simpa using this
    have b1 : arg 1 * cap_order ≠ i * cap_order + cap_order := by
      have := slot_offset_ne (c := cap_order) (k := 0) (j := 0)
        (show arg 1 ≠ i + 1 by omega) hcap hcap
      rw [Nat.add_mul, Nat.one_mul] at this
      simpa using this
    unfold forward_powvv_op_0
    rw [Nat.add_sub_cancel]
    simp only [Nat.add_zero, Function.update_same,
      Function.update_noteq a0, Function.update_noteq a1, Function.update_noteq b0,
      Function.update_noteq b1]
    rw [e2, Function.update_same]
  · intro i_z arg parameter cap_order taylor hcap h1
    obtain ⟨i, rfl⟩ : ∃ i, i_z = i + 2 := ⟨i_z - 2, by omega⟩
    simp only [Nat.add_sub_cancel] at h1
    have e2 : (i + 2) * cap_order = i * cap_order + cap_order + cap_order := by ring
    have a1 : arg 1 * cap_order ≠ i * cap_order := by
      simpa using slot_offset_ne (c := cap_order) (k := 0) (j := 0) (Nat.ne_of_lt h1) hcap hcap
    have b1 : arg 1 * cap_order ≠ i * cap_order + cap_order := by
      have := slot_offset_ne (c := cap_order) (k := 0) (j := 0)
        (show arg 1 ≠ i + 1 by omega) hcap hcap
      rw [Nat.add_mul, Nat.one_mul] at this
      simpa using this
    unfold forward_powpv_op_0
    rw [Nat.add_sub_cancel]
    simp only [Nat.add_zero, Function.update_same,
      Function.update_noteq a1, Function.update_noteq b1]
    rw [e2, Function.update_same]
  · intro i_z arg parameter cap_order taylor
    simp only [forward_powvp_op_0, Nat.add_zero, Function.update_same]

/-- Witness for C4 with `i_z = 3`, operands in slot `0`, `cap_order = 4`. -/
theorem forward_pow_op_0_value_witness :
    (0 < 4 ∧ exArg 0 < 3 - 2 ∧ exArg 1 < 3 - 2) ∧
    forward_powvv_op_0 ratPow exLog 3 exArg exPar 4 exTaylor (3 * 4)
      = ratPow (exTaylor (exArg 0 * 4)) (exTaylor (exArg 1 * 4)) ∧
    forward_powpv_op_0 ratPow exLog 3 exArg exPar 4 exTaylor (3 * 4)
      = ratPow (exPar (exArg 0)) (exTaylor (exArg 1 * 4)) ∧
    forward_powvp_op_0 ratPow 3 exArg exPar 4 exTaylor (3 * 4)
      = ratPow (exTaylor (exArg 0 * 4)) (exPar (exArg 1)) :=
  have h1 : 0 < 4 := by decide
  have h2 : exArg 0 < 3 - 2 := by decide
  have h3 : exArg 1 < 3 - 2 := by decide
  ⟨⟨h1, h2, h3⟩,
    (forward_pow_op_0_value ratPow exLog).1 3 exArg exPar 4 exTaylor h1 h2 h3,
    (forward_pow_op_0_value ratPow exLog).2.1 3 exArg exPar 4 exTaylor h1 h3,
    (forward_pow_op_0_value ratPow exLog).2.2 3 exArg exPar 4 exTaylor⟩

/-- C5. `forward_powvv_op_0` occupies exactly three contiguous result slots:
for `i_z ≥ 2` it changes no entry of the buffer other than the order zero
entries of slots `i_z-2`, `i_z-1`, `i_z`; with operands in earlier slots and
`cap_order > 0` these hold `log(x[0])`, `log(x[0]) * y[0]` and
`pow(x[0], y[0])`.  `forward_powvp_op_0` changes only the order zero entry of
the single slot `i_z`. -/
theorem forward_powvv_op_0_three_slots {K : Type} [Mul K]
    (pow : K → K → K) (log : K → K)
    (i_z : Nat) (arg : Nat → Nat) (parameter : Nat → K) (cap_order : Nat) (taylor : Nat → K)
    (hiz : 2 ≤ i_z) :
    (∀ n, n ≠ (i_z - 2) * cap_order → n ≠ (i_z - 1) * cap_order → n ≠ i_z * cap_order →
      forward_powvv_op_0 pow log i_z arg parameter cap_order taylor n = taylor n) ∧
    (0 < cap_order → arg 0 < i_z - 2 → arg 1 < i_z - 2 →
      forward_powvv_op_0 pow log i_z arg parameter cap_order taylor ((i_z - 2) * cap_order)
          = log (taylor (arg 0 * cap_order)) ∧
      forward_powvv_op_0 pow log i_z arg parameter cap_order taylor ((i_z - 1) * cap_order)
          = log (taylor (arg 0 * cap_order)) * taylor (arg 1 * cap_order) ∧
      forward_powvv_op_0 pow log i_z arg parameter cap_order taylor (i_z * cap_order)
          = pow (taylor (arg 0 * cap_order)) (taylor (arg 1 * cap_order))) ∧
    (∀ (i_r : Nat) (n : Nat), n ≠ i_r * cap_order →
      forward_powvp_op_0 pow i_r arg parameter cap_order taylor n = taylor n) := by
  obtain ⟨i, rfl⟩ : ∃ i, i_z = i + 2 := ⟨i_z - 2, by omega⟩
  have e1 : (i + 2 - 1) * cap_order = i * cap_order + cap_order := by
    rw [show i + 2 - 1 = i + 1 by omega, Nat.add_mul, Nat.one_mul]
  have e2 : (i + 2) * cap_order = i * cap_order + cap_order + cap_order := by ring
  rw [e1, e2, Nat.add_sub_cancel]
  refine ⟨?_, ?_, ?_⟩
  · intro n n0 n1 n2
    unfold forward_powvv_op_0
    rw [Nat.add_sub_cancel]
    simp only [Nat.add_zero]
    rw [Function.update_noteq n2, Function.update_noteq n1, Function.update_noteq n0]
  · intro hcap h0 h1
    have a0 : arg 0 * cap_order ≠ i * cap_order := by
      simpa using slot_offset_ne (c := cap_order) (k := 0) (j := 0) (Nat.ne_of_lt h0) hcap hcap
    have a1 : arg 1 * cap_order ≠ i * cap_order := by
      simpa using slot_offset_ne (c := cap_order) (k := 0) (j := 0) (Nat.ne_of_lt h1) hcap hcap
    have b0 : arg 0 * cap_order ≠ i * cap_order + cap_order := by
      have := slot_offset_ne (c := cap_order) (k := 0) (j := 0)
        (show arg 0 ≠ i + 1 by omega) hcap hcap
      rw [Nat.add_mul, Nat.one_mul] at this
      simpa using this
    have b1 : arg 1 * cap_order ≠ i * cap_order + cap_order := by
      have := slot_offset_ne (c := cap_order) (k := 0) (j := 0)
        (show arg 1 ≠ i + 1 by omega) hcap hcap
      rw [Nat.add_mul, Nat.one_mul] at this
      simpa using this
    have c0 : i * cap_order ≠ i * cap_order + cap_order := by omega
    have c1 : i * cap_order ≠ i * cap_order + cap_order + cap_order := by omega
    have c2 : i * cap_order + cap_order ≠ i * cap_order + cap_order + cap_order := by omega
    unfold forward_powvv_op_0
    rw [Nat.add_sub_cancel]
    simp only [Nat.add_zero, Function.update_same, Function.update_noteq a0,
      Function.update_noteq a1, Function.update_noteq b0, Function.update_noteq b1,
      Function.update_noteq c0, Function.update_noteq c1, Function.update_noteq c2,
      and_self]
  · intro i_r n hn
    unfold forward_powvp_op_0
    rw [Nat.add_zero, Function.update_noteq hn]

/-- Witness for C5 with `i_z = 3`, operands in slot `0`, `cap_order = 4`. -/
theorem forward_powvv_op_0_three_slots_witness :
    (2 ≤ 3 ∧ 0 < 4 ∧ exArg 0 < 3 - 2 ∧ exArg 1 < 3 - 2) ∧
    (∀ n, n ≠ (3 - 2) * 4 → n ≠ (3 - 1) * 4 → n ≠ 3 * 4 →
      forward_powvv_op_0 ratPow exLog 3 exArg exPar 4 exTaylor n = exTaylor n) ∧
    (forward_powvv_op_0 ratPow exLog 3 exArg exPar 4 exTaylor ((3 - 2) * 4)
          = exLog (exTaylor (exArg 0 * 4)) ∧
      forward_powvv_op_0 ratPow exLog 3 exArg exPar 4 exTaylor ((3 - 1) * 4)
          = exLog (exTaylor (exArg 0 * 4)) * exTaylor (exArg 1 * 4) ∧
      forward_powvv_op_0 ratPow exLog 3 exArg exPar 4 exTaylor (3 * 4)
          = ratPow (exTaylor (exArg 0 * 4)) (exTaylor (exArg 1 * 4))) ∧
    (∀ (i_r : Nat) (n : Nat), n ≠ i_r * 4 →
      forward_powvp_op_0 ratPow i_r exArg exPar 4 exTaylor n = exTaylor n) :=
  have h0 : 2 ≤ 3 := by decide
  have h1 : 0 < 4 := by decide
  have h2 : exArg 0 < 3 - 2 := by decide
  have h3 : exArg 1 < 3 - 2 := by decide
  ⟨⟨h0, h1, h2, h3⟩,
    (forward_powvv_op_0_three_slots ratPow exLog 3 exArg exPar 4 exTaylor h0).1,
    (forward_powvv_op_0_three_slots ratPow exLog 3 exArg exPar 4 exTaylor h0).2.1 h1 h2 h3,
    (forward_powvv_op_0_three_slots ratPow exLog 3 exArg exPar 4 exTaylor h0).2.2⟩

end ZeroOrder

/-! ## The general routines at order zero -/

section OrderZero

variable {K : Type}

/-- The order zero step of `forward_log_op`. -/
theorem forward_log_op_zero [Neg K] [Sub K] [Add K] [Mul K] [Div K] [NatCast K]
    (log : K → K) (i_z i_x cap_order : Nat) (t : Nat → K) :
    forward_log_op log 0 0 i_z i_x cap_order t =
      Function.update t (i_z * cap_order) (log (t (i_x * cap_order))) := by
  simp [forward_log_op]

/-- The order zero step of `forward_mulvv_op`, for operands outside the result slot. -/
theorem forward_mulvv_op_zero [Field K] (i_z : Nat) (arg : Nat → Nat) (parameter : Nat → K)
    (cap_order : Nat) (t : Nat → K)
    (hx : arg 0 * cap_order ≠ i_z * cap_order) (hy : arg 1 * cap_order ≠ i_z * cap_order) :
    forward_mulvv_op 0 0 i_z arg parameter cap_order t =
      Function.update t (i_z * cap_order) (t (arg 0 * cap_order) * t (arg 1 * cap_order)) := by
  simp [forward_mulvv_op, forward_mulvv_order, Function.update_noteq hx, Function.update_noteq hy]

/-- The order zero step of `forward_mulpv_op`. -/
theorem forward_mulpv_op_zero [Mul K] (i_z : Nat) (arg : Nat → Nat) (parameter : Nat → K)
    (cap_order : Nat) (t : Nat → K) :
    forward_mulpv_op 0 0 i_z arg parameter cap_order t =
      Function.update t (i_z * cap_order) (parameter (arg 0) * t (arg 1 * cap_order)) := by
  simp [forward_mulpv_op]

/-- C6. Restricted to order zero (`p = q = 0`) the general forward routine leaves
the buffer exactly as the dedicated zero order routine does, for `vv` (operand
`y` in an earlier slot, `cap_order > 0`), for `pv` (when the capacity check
passes) and for `vp`; the helpers' order zero steps are `z[0] = log(x[0])` and
`z[0] = x[0] * y[0]`.  The final result is set by `pow`, whatever `exp` is. -/
theorem forward_pow_op_order_zero_eq [Field K] [DecidableEq K]
    (pow : K → K → K) (log exp : K → K) (addr_max : Nat)
    (i_z : Nat) (arg : Nat → Nat) (parameter : Nat → K) (cap_order : Nat) (taylor : Nat → K) :
    (0 < cap_order → arg 1 < i_z - 2 →
      forward_powvv_op pow log exp 0 0 i_z arg parameter cap_order taylor =
        forward_powvv_op_0 pow log i_z arg parameter cap_order taylor) ∧
    ((i_z - 2) * cap_order ≤ addr_max →
      forward_powpv_op pow log exp addr_max 0 0 i_z arg parameter cap_order taylor =
        Except.ok (forward_powpv_op_0 pow log i_z arg parameter cap_order taylor)) ∧
    forward_powvp_op pow 0 0 i_z arg parameter cap_order taylor =
      forward_powvp_op_0 pow i_z arg parameter cap_order taylor := by
  refine ⟨?_, ?_, ?_⟩
  · intro hcap h1
    have hx : (i_z - 2) * cap_order ≠ (i_z - 2 + 1) * cap_order := by
      rw [Nat.add_mul, Nat.one_mul]; omega
    have hy : arg 1 * cap_order ≠ (i_z - 2 + 1) * cap_order := by
      simpa using slot_offset_ne (c := cap_order) (k := 0) (j := 0)
        (show arg 1 ≠ i_z - 2 + 1 by omega) hcap hcap
    have e1 : (i_z - 2 + 1) * cap_order = (i_z - 2) * cap_order + cap_order := by ring
    have e2 : (i_z - 2 + 2) * cap_order = (i_z - 2) * cap_order + cap_order + cap_order := by
      ring
    unfold forward_powvv_op forward_powvv_op_0
    simp only [forward_log_op_zero]
    rw [forward_mulvv_op_zero _ _ _ _ _ (by simpa using hx) (by simpa using hy)]
    simp [e1, e2]
    rw [e1]
  · intro hcap
    have e1 : (i_z - 2 + 1) * cap_order = (i_z - 2) * cap_order + cap_order := by ring
    have e2 : (i_z - 2 + 2) * cap_order = (i_z - 2) * cap_order + cap_order + cap_order := by
      ring
    have hadr : addr_t addr_max ((i_z - 2) * cap_order) = (i_z - 2) * cap_order :=
      Nat.mod_eq_of_lt (by omega)
    unfold forward_powpv_op forward_powpv_op_0
    simp only [forward_mulpv_op_zero]
    simp [hcap, e1, e2, hadr]
    rw [e1]
  · simp [forward_powvp_op, forward_powvp_op_0]

/-- Witness for C6 with `i_z = 3`, operands in slot `0`, `cap_order = 4` and a
31 bit `addr_t`. -/
theorem forward_pow_op_order_zero_eq_witness :
    (0 < 4 ∧ exArg 1 < 3 - 2 ∧ (3 - 2) * 4 ≤ 2147483647) ∧
    forward_powvv_op ratPow exLog exExp 0 0 3 exArg exPar 4 exTaylor =
      forward_powvv_op_0 ratPow exLog 3 exArg exPar 4 exTaylor ∧
    forward_powpv_op ratPow exLog exExp 2147483647 0 0 3 exArg exPar 4 exTaylor =
      Except.ok (forward_powpv_op_0 ratPow exLog 3 exArg exPar 4 exTaylor) ∧
    forward_powvp_op ratPow 0 0 3 exArg exPar 4 exTaylor =
      forward_powvp_op_0 ratPow 3 exArg exPar 4 exTaylor :=
  have h1 : 0 < 4 := by decide
  have h2 : exArg 1 < 3 - 2 := by decide
  have h3 : (3 - 2) * 4 ≤ 2147483647 := by decide
  ⟨⟨h1, h2, h3⟩,
    (forward_pow_op_order_zero_eq ratPow exLog exExp 2147483647 3 exArg exPar 4 exTaylor).1 h1 h2,
    (forward_pow_op_order_zero_eq ratPow exLog exExp 2147483647 3 exArg exPar 4 exTaylor).2.1 h3,
    (forward_pow_op_order_zero_eq ratPow exLog exExp 2147483647 3 exArg exPar 4 exTaylor).2.2⟩

/-- C7. Order by order evaluation of `forward_powvp_op` is consistent: for
`k < q` one call with `(p, q) = (0, q)` leaves exactly the buffer that a call
with `(0, k)` followed by a call with `(k+1, q)` leaves, for every input buffer
and any `Base`. -/
theorem forward_powvp_op_split
    [Zero K] [Add K] [Sub K] [Mul K] [Div K] [NatCast K] [DecidableEq K]
    (pow : K → K → K) (k q i_z : Nat) (arg : Nat → Nat) (parameter : Nat → K)
    (cap_order : Nat) (taylor : Nat → K) (hkq : k < q) :
    forward_powvp_op pow 0 q i_z arg parameter cap_order taylor =
      forward_powvp_op pow (k + 1) q i_z arg parameter cap_order
        (forward_powvp_op pow 0 k i_z arg parameter cap_order taylor) := by
  rw [forward_powvp_op_pos_eq pow (k + 1) q i_z arg parameter cap_order _ (by omega),
    forward_powvp_op_zero_eq, forward_powvp_op_zero_eq,
    show q = k + (q + 1 - (k + 1)) by omega, foldl_range'_split,
    show k + (q + 1 - (k + 1)) = q by omega, Nat.add_comm 1 k]

/-- Witness for C7 on `x = (2, 1, 0, 0)`, `y = 3`, with `k = 1` and `q = 3`. -/
theorem forward_powvp_op_split_witness :
    1 < 3 ∧
    forward_powvp_op ratPow 0 3 1 exArg exPar 4 exTaylor =
      forward_powvp_op ratPow (1 + 1) 3 1 exArg exPar 4
        (forward_powvp_op ratPow 0 1 1 exArg exPar 4 exTaylor) :=
  ⟨by decide, forward_powvp_op_split ratPow 1 3 1 exArg exPar 4 exTaylor (by decide)⟩

end OrderZero

/-! ## Several directions against one direction -/

section DirSingle

variable {K : Type} [Zero K] [Add K] [Sub K] [Mul K] [Div K] [NatCast K] [DecidableEq K]

/-- A call `forward_powvp_op(q, q, ...)` with `q ≥ 1` is the single pass of order `q`. -/
theorem forward_powvp_op_single_order (pow : K → K → K) (q i_z : Nat) (arg : Nat → Nat)
    (parameter : Nat → K) (cap_order : Nat) (t : Nat → K) (hq : 1 ≤ q) :
    forward_powvp_op pow q q i_z arg parameter cap_order t =
      forward_powvp_order i_z arg parameter cap_order t q := by
  rw [forward_powvp_op_pos_eq pow q q i_z arg parameter cap_order t hq,
    show q + 1 - q = 1 by omega]
  rfl

/-- C8. The multi-directional routine is the single-direction recurrence applied
per direction: for `1 ≤ q < cap_order` and `ell < r`, the value
`forward_powvp_op_dir` stores at entry `(q-1)*r + 1 + ell` of the result equals
the order `q` coefficient `forward_powvp_op(p = q, q)` computes on any buffer
`single` holding the data of direction `ell`
(`x~[0] = x[0]`, `x~[k] = x[(k-1)*r + ell + 1]` for `1 ≤ k ≤ q`,
`z~[0] = z[0]`, `z~[k] = z[(k-1)*r + ell + 1]` for `1 ≤ k < q`);
and for `r = 1` the two routines leave the same buffer. -/
theorem forward_powvp_op_dir_eq_single (pow : K → K → K)
    (q i_z : Nat) (arg : Nat → Nat) (parameter : Nat → K) (cap_order : Nat)
    (taylor : Nat → K) (h0 : 1 ≤ q) (hq : q < cap_order) :
    (∀ (r ell : Nat) (single : Nat → K), ell < r →
      single (arg 0 * cap_order) = taylor (arg 0 * ((cap_order - 1) * r + 1)) →
      single (i_z * cap_order) = taylor (i_z * ((cap_order - 1) * r + 1)) →
      (∀ k, 1 ≤ k → k ≤ q → single (arg 0 * cap_order + k)
        = taylor (arg 0 * ((cap_order - 1) * r + 1) + ((k - 1) * r + ell + 1))) →
      (∀ k, 1 ≤ k → k < q → single (i_z * cap_order + k)
        = taylor (i_z * ((cap_order - 1) * r + 1) + ((k - 1) * r + ell + 1))) →
      forward_powvp_op_dir q r i_z arg parameter cap_order taylor
          (i_z * ((cap_order - 1) * r + 1) + ((q - 1) * r + 1 + ell))
        = forward_powvp_op pow q q i_z arg parameter cap_order single (i_z * cap_order + q)) ∧
    forward_powvp_op_dir q 1 i_z arg parameter cap_order taylor
      = forward_powvp_op pow q q i_z arg parameter cap_order taylor := by
  constructor
  · intro r ell single hell hx0 hz0 hx hz
    have hstep : ∀ (t : Nat → K) (j n : Nat),
        n ≠ i_z * ((cap_order - 1) * r + 1) + ((q - 1) * r + 1) + j →
        forward_powvp_dir_ell q r i_z arg parameter cap_order t j n = t n :=
      fun t j n hn => forward_powvp_dir_ell_ne q r i_z arg parameter cap_order t j n hn
    obtain ⟨hX, hZ⟩ := powvp_dir_loop_read q r i_z arg parameter cap_order taylor ell
      (by omega) hq hell
    have hlt := @dir_index_lt q r cap_order ell (by omega) hq hell
    rw [forward_powvp_op_single_order pow q i_z arg parameter cap_order single h0,
      forward_powvp_order_self]
    unfold forward_powvp_op_dir
    rw [← Nat.add_assoc, foldl_range'_value _ _ hstep r 0 taylor ell (Nat.zero_le _) (by omega),
      forward_powvp_dir_ell_self, Nat.sub_zero]
    -- the sum loops agree pass by pass
    have hsum : (List.range' 1 (q - 1)).foldl
        (fun (sum : K) (k : Nat) =>
          sum + (k : K) *
            (parameter (arg 1)
                * (List.range' 0 ell).foldl
                    (forward_powvp_dir_ell q r i_z arg parameter cap_order) taylor
                    (arg 0 * ((cap_order - 1) * r + 1) + ((k - 1) * r + ell + 1))
                * (List.range' 0 ell).foldl
                    (forward_powvp_dir_ell q r i_z arg parameter cap_order) taylor
                    (i_z * ((cap_order - 1) * r + 1) + ((q - k - 1) * r + ell + 1))
              - (List.range' 0 ell).foldl
                    (forward_powvp_dir_ell q r i_z arg parameter cap_order) taylor
                    (i_z * ((cap_order - 1) * r + 1) + ((k - 1) * r + ell + 1))
                * (List.range' 0 ell).foldl
                    (forward_powvp_dir_ell q r i_z arg parameter cap_order) taylor
                    (arg 0 * ((cap_order - 1) * r + 1) + ((q - k - 1) * r + ell + 1)))) 0
        = powvp_sum (parameter (arg 1)) (fun k => single (arg 0 * cap_order + k))
            (fun k => single (i_z * cap_order + k)) q := by
      unfold powvp_sum
      apply List.foldl_ext
      intro a k hk
      rw [List.mem_range'_1] at hk
      have hk1 := @dir_index_lt_m q r k ell (by omega) (by omega) hell
      have hk2 := @dir_index_lt_m q r (q - k) ell (by omega) (by omega) hell
      rw [hX _ (by omega) (fun _ => Or.inl hk1), hZ _ hk1,
        hX _ (by omega) (fun _ => Or.inl hk2), hZ _ hk2]
      beta_reduce
      rw [hx k (by omega) (by omega), hz k (by omega) (by omega),
        hx (q - k) (by omega) (by omega), hz (q - k) (by omega) (by omega)]
    rw [hsum, hX 0 (by omega) (fun _ => Or.inl (by omega)), hZ 0 (by omega),
      hX ((q - 1) * r + ell + 1) (by omega) (fun _ => Or.inr (by omega))]
    simp only [Nat.add_zero]
    rw [hx0, hz0, hx q h0 (le_refl q)]
  · rw [forward_powvp_op_single_order pow q i_z arg parameter cap_order taylor h0]
    unfold forward_powvp_op_dir
    have hc : (cap_order - 1) * 1 + 1 = cap_order := by omega
    show forward_powvp_dir_ell q 1 i_z arg parameter cap_order taylor 0 = _
    have hsum : (List.range' 1 (q - 1)).foldl
        (fun (sum : K) (k : Nat) =>
          sum + (k : K) *
            (parameter (arg 1) * taylor (arg 0 * cap_order + ((k - 1) * 1 + 0 + 1))
                * taylor (i_z * cap_order + ((q - k - 1) * 1 + 0 + 1))
              - taylor (i_z * cap_order + ((k - 1) * 1 + 0 + 1))
                * taylor (arg 0 * cap_order + ((q - k - 1) * 1 + 0 + 1)))) 0
        = powvp_sum (parameter (arg 1)) (fun k => taylor (arg 0 * cap_order + k))
            (fun k => taylor (i_z * cap_order + k)) q := by
      unfold powvp_sum
      apply List.foldl_ext
      intro a k hk
      rw [List.mem_range'_1] at hk
      rw [show (k - 1) * 1 + 0 + 1 = k by omega, show (q - k - 1) * 1 + 0 + 1 = q - k by omega]
    unfold forward_powvp_dir_ell forward_powvp_order
    dsimp only
    rw [hc, hsum, show (q - 1) * 1 + 0 + 1 = q by omega]

/-- Witness for C8: order `q = 2`, `r = 2` directions, direction `ell = 1`,
`x` in slot `0` and `z` in slot `1`, `cap_order = 4`. -/
theorem forward_powvp_op_dir_eq_single_witness :
    (1 ≤ 2 ∧ 2 < 4 ∧ 1 < 2 ∧
      exSingle (exArg 0 * 4) = exTaylorDir (exArg 0 * ((4 - 1) * 2 + 1)) ∧
      exSingle (1 * 4) = exTaylorDir (1 * ((4 - 1) * 2 + 1)) ∧
      (∀ k, 1 ≤ k → k ≤ 2 → exSingle (exArg 0 * 4 + k)
        = exTaylorDir (exArg 0 * ((4 - 1) * 2 + 1) + ((k - 1) * 2 + 1 + 1))) ∧
      (∀ k, 1 ≤ k → k < 2 → exSingle (1 * 4 + k)
        = exTaylorDir (1 * ((4 - 1) * 2 + 1) + ((k - 1) * 2 + 1 + 1)))) ∧
    forward_powvp_op_dir 2 2 1 exArg exPar 4 exTaylorDir
        (1 * ((4 - 1) * 2 + 1) + ((2 - 1) * 2 + 1 + 1))
      = forward_powvp_op ratPow 2 2 1 exArg exPar 4 exSingle (1 * 4 + 2) ∧
    forward_powvp_op_dir 2 1 1 exArg exPar 4 exTaylorDir
      = forward_powvp_op ratPow 2 2 1 exArg exPar 4 exTaylorDir :=
  have h0 : 1 ≤ 2 := by decide
  have hq : 2 < 4 := by decide
  have hell : 1 < 2 := by decide
  have hx0 : exSingle (exArg 0 * 4) = exTaylorDir (exArg 0 * ((4 - 1) * 2 + 1)) := by
    norm_num [exSingle, exTaylorDir, exArg]
  have hz0 : exSingle (1 * 4) = exTaylorDir (1 * ((4 - 1) * 2 + 1)) := by
    norm_num [exSingle, exTaylorDir]
  have hx : ∀ k, 1 ≤ k → k ≤ 2 → exSingle (exArg 0 * 4 + k)
      = exTaylorDir (exArg 0 * ((4 - 1) * 2 + 1) + ((k - 1) * 2 + 1 + 1)) := by
    intro k h1 h2
    interval_cases k <;> norm_num [exSingle, exTaylorDir, exArg]
  have hz : ∀ k, 1 ≤ k → k < 2 → exSingle (1 * 4 + k)
      = exTaylorDir (1 * ((4 - 1) * 2 + 1) + ((k - 1) * 2 + 1 + 1)) := by
    intro k h1 h2
    interval_cases k
    norm_num [exSingle, exTaylorDir]
  ⟨⟨h0, hq, hell, hx0, hz0, hx, hz⟩,
    (forward_powvp_op_dir_eq_single ratPow 2 1 exArg exPar 4 exTaylorDir h0 hq).1
      2 1 exSingle hell hx0 hz0 hx hz,
    (forward_powvp_op_dir_eq_single ratPow 2 1 exArg exPar 4 exTaylorDir h0 hq).2⟩

end DirSingle

/-! ## Reverse mode for `z = pow(x, y)` with `y` a parameter -/

section Reverse

variable {K : Type}

/-- Over a field `azmul` is multiplication. -/
theorem azmul_eq_mul [Field K] [DecidableEq K] (x y : K) : azmul x y = x * y := by
  unfold azmul
  split_ifs with h
  · rw [h, zero_mul]
  · rfl

/-- A call of `forward_powvp_op` changes no entry other than `z[p], ..., z[q]`. -/
theorem forward_powvp_op_frame
    [Zero K] [Add K] [Sub K] [Mul K] [Div K] [NatCast K] [DecidableEq K]
    (pow : K → K → K) (p q i_z : Nat) (arg : Nat → Nat) (parameter : Nat → K)
    (cap_order : Nat) (t : Nat → K) (n : Nat)
    (h : ∀ j, p ≤ j → j ≤ q → n ≠ i_z * cap_order + j) :
    forward_powvp_op pow p q i_z arg parameter cap_order t n = t n := by
  rcases Nat.eq_zero_or_pos p with hp | hp
  · subst hp
    rw [forward_powvp_op_zero_eq, powvp_loop_frame]
    · by_cases hq : n = i_z * cap_order
      · exfalso
        rcases Nat.eq_zero_or_pos q with hq0 | hq0
        · exact h 0 (le_refl 0) (by omega) (by omega)
        · exact h 0 (le_refl 0) (by omega) (by omega)
      · exact Function.update_noteq hq _ _
    · intro j h1 h2
      exact h j (by omega) (by omega)
  · rw [forward_powvp_op_pos_eq pow p q i_z arg parameter cap_order t hp, powvp_loop_frame]
    intro j h1 h2
    exact h j h1 (by omega)

/-- The order one coefficient after a call `forward_powvp_op(p, 1, ...)`, `p ≤ 1`. -/
theorem forward_powvp_op_order_one [Field K] [DecidableEq K]
    (pow : K → K → K) (p i_z : Nat) (arg : Nat → Nat) (parameter : Nat → K)
    (cap_order : Nat) (t : Nat → K)
    (hp : p ≤ 1) (hcap : 1 < cap_order) (hne : arg 0 ≠ i_z) :
    forward_powvp_op pow p 1 i_z arg parameter cap_order t (i_z * cap_order + 1) =
      CondExpEq (t (arg 0 * cap_order)) 0 0
        (parameter (arg 1) * forward_powvp_op pow p 1 i_z arg parameter cap_order t
            (i_z * cap_order) * t (arg 0 * cap_order + 1) / t (arg 0 * cap_order)) := by
  have hsum : ∀ (x z : Nat → K), powvp_sum (parameter (arg 1)) x z 1 = 0 := by
    intro x z
    simp [powvp_sum]
  rcases Nat.eq_zero_or_pos p with hp0 | hp0
  · subst hp0
    rw [forward_powvp_op_coef pow 1 i_z arg parameter cap_order t 1 hcap hne (le_refl 1)
      (le_refl 1), hsum]
    simp
  · obtain rfl : p = 1 := by omega
    rw [forward_powvp_op_single_order pow 1 i_z arg parameter cap_order t (le_refl 1),
      forward_powvp_order_self, hsum,
      forward_powvp_order_ne i_z arg parameter cap_order t 1 (i_z * cap_order) (by omega)]
    simp

/-- Reverse mode of order zero: the partial of `x[0]` after the call. -/
theorem reverse_powvp_op_zero_px [Field K] [DecidableEq K]
    (i_z : Nat) (arg : Nat → Nat) (parameter : Nat → K) (cap_order : Nat)
    (taylor : Nat → K) ( nc_partial : Nat) (partial_ work : Nat → K) :
    reverse_powvp_op 0 i_z arg parameter cap_order taylor nc_partial partial_ work
        (arg 0 * nc_partial) =
      CondExpEq (taylor (arg 0 * cap_order)) 0 0
        (partial_ (arg 0 * nc_partial)
          + partial_ (i_z * nc_partial)
            * (parameter (arg 1) * taylor (i_z * cap_order) / taylor (arg 0 * cap_order))) := by
  simp [reverse_powvp_op, azmul_eq_mul]

/-- Reverse mode of order one: the partials of `x[1]` and `x[0]` after the call,
in terms of the partials before it. -/
theorem reverse_powvp_op_one_px [Field K] [DecidableEq K]
    (i_z : Nat) (arg : Nat → Nat) (parameter : Nat → K) (cap_order : Nat)
    (taylor : Nat → K) ( nc_partial : Nat) (partial_ work : Nat → K) :
    reverse_powvp_op 1 i_z arg parameter cap_order taylor nc_partial partial_ work
        (arg 0 * nc_partial + 1) =
      CondExpEq (taylor (arg 0 * cap_order)) 0 0
        (partial_ (arg 0 * nc_partial + 1)
          + partial_ (i_z * nc_partial + 1)
            * (parameter (arg 1) * taylor (i_z * cap_order) / taylor (arg 0 * cap_order))) ∧
    reverse_powvp_op 1 i_z arg parameter cap_order taylor nc_partial partial_ work
        (arg 0 * nc_partial) =
      CondExpEq (taylor (arg 0 * cap_order)) 0 0
        (partial_ (arg 0 * nc_partial)
          - partial_ (i_z * nc_partial + 1)
            * (taylor (i_z * cap_order + 1) / taylor (arg 0 * cap_order))
          + (partial_ (i_z * nc_partial)
              + partial_ (i_z * nc_partial + 1)
                * (parameter (arg 1) * taylor (arg 0 * cap_order + 1)
                    / taylor (arg 0 * cap_order)))
            * (parameter (arg 1) * taylor (i_z * cap_order) / taylor (arg 0 * cap_order))) := by
  have r2 : List.range' 0 2 = [0, 1] := rfl
  constructor
  · simp [reverse_powvp_op, reverse_powvp_order, azmul_eq_mul, r2]
  · simp [reverse_powvp_op, reverse_powvp_order, azmul_eq_mul, r2]

/-- C9. Forward and reverse first derivatives agree for `pow` with a parameter
exponent: for `x[0] ≠ 0`, `x` and `z` in distinct slots and direction
`x[1] = 1`, the order one coefficient `z[1]` left by `forward_powvp_op`
(called with `p ≤ 1`, `q = 1`) equals the partial `px[0]` left by
`reverse_powvp_op` with `d = 0`, weight `pz[0] = 1` and `px[0]` initially `0`,
run on the buffer of the forward call; both equal `y * z[0] / x[0]`. -/
theorem forward_reverse_powvp_first_order [Field K] [DecidableEq K]
    (pow : K → K → K) (p i_z : Nat) (arg : Nat → Nat) (parameter : Nat → K)
    (cap_order : Nat) (taylor : Nat → K) ( nc_partial : Nat) (partial_ work : Nat → K)
    (hp : p ≤ 1) (hcap : 1 < cap_order) (hne : arg 0 ≠ i_z)
    (hx0 : taylor (arg 0 * cap_order) ≠ 0) (hx1 : taylor (arg 0 * cap_order + 1) = 1)
    (hpz : partial_ (i_z * nc_partial) = 1) (hpx : partial_ (arg 0 * nc_partial) = 0) :
    forward_powvp_op pow p 1 i_z arg parameter cap_order taylor (i_z * cap_order + 1)
      = reverse_powvp_op 0 i_z arg parameter cap_order
          (forward_powvp_op pow p 1 i_z arg parameter cap_order taylor)
          nc_partial partial_ work (arg 0 * nc_partial) ∧
    reverse_powvp_op 0 i_z arg parameter cap_order
          (forward_powvp_op pow p 1 i_z arg parameter cap_order taylor)
          nc_partial partial_ work (arg 0 * nc_partial)
      = parameter (arg 1)
          * forward_powvp_op pow p 1 i_z arg parameter cap_order taylor (i_z * cap_order)
          / taylor (arg 0 * cap_order) := by
  have hTx0 : forward_powvp_op pow p 1 i_z arg parameter cap_order taylor (arg 0 * cap_order)
      = taylor (arg 0 * cap_order) := by
    apply forward_powvp_op_frame
    intro j _ hj
    have := slot_offset_ne (c := cap_order) (k := 0) (j := j) hne (by omega) (by omega)
    simpa using this
  have hrev : reverse_powvp_op 0 i_z arg parameter cap_order
        (forward_powvp_op pow p 1 i_z arg parameter cap_order taylor)
        nc_partial partial_ work (arg 0 * nc_partial)
      = parameter (arg 1)
          * forward_powvp_op pow p 1 i_z arg parameter cap_order taylor (i_z * cap_order)
          / taylor (arg 0 * cap_order) := by
    rw [reverse_powvp_op_zero_px, hTx0, hpz, hpx]
    simp [CondExpEq, hx0]
  refine ⟨?_, hrev⟩
  rw [hrev, forward_powvp_op_order_one pow p i_z arg parameter cap_order taylor hp hcap hne, hx1]
  simp [CondExpEq, hx0]

/-- Witness for C9 on `x = (2, 1, 0, 0)`, `y = 3`, a forward call with `p = 0`,
and partials `pz[0] = 1`, `px[0] = 0` (`nc_partial = 1`). -/
theorem forward_reverse_powvp_first_order_witness :
    (0 ≤ 1 ∧ 1 < 4 ∧ exArg 0 ≠ 1 ∧ exTaylor (exArg 0 * 4) ≠ 0 ∧
      exTaylor (exArg 0 * 4 + 1) = 1 ∧ exPartial (1 * 1) = 1 ∧
      exPartial (exArg 0 * 1) = 0) ∧
    forward_powvp_op ratPow 0 1 1 exArg exPar 4 exTaylor (1 * 4 + 1)
      = reverse_powvp_op 0 1 exArg exPar 4
          (forward_powvp_op ratPow 0 1 1 exArg exPar 4 exTaylor)
          1 exPartial exWork (exArg 0 * 1) ∧
    reverse_powvp_op 0 1 exArg exPar 4
          (forward_powvp_op ratPow 0 1 1 exArg exPar 4 exTaylor)
          1 exPartial exWork (exArg 0 * 1)
      = exPar (exArg 1)
          * forward_powvp_op ratPow 0 1 1 exArg exPar 4 exTaylor (1 * 4)
          / exTaylor (exArg 0 * 4) :=
  have h1 : 0 ≤ 1 := by decide
  have h2 : 1 < 4 := by decide
  have h3 : exArg 0 ≠ 1 := by decide
  have h4 : exTaylor (exArg 0 * 4) ≠ 0 := by norm_num [exTaylor, exArg]
  have h5 : exTaylor (exArg 0 * 4 + 1) = 1 := by norm_num [exTaylor, exArg]
  have h6 : exPartial (1 * 1) = 1 := by norm_num [exPartial]
  have h7 : exPartial (exArg 0 * 1) = 0 := by norm_num [exPartial, exArg]
  ⟨⟨h1, h2, h3, h4, h5, h6, h7⟩,
    forward_reverse_powvp_first_order ratPow 0 1 exArg exPar 4 exTaylor 1
      exPartial exWork h1 h2 h3 h4 h5 h6 h7⟩

/-- C10. `reverse_powvp_op` with `d = 1` is the transpose of the forward map: for
`x[0] ≠ 0`, over a field, `px[1]` increases by `pz[1] * y * z[0] / x[0]` and
`px[0]` increases by
`(pz[0] + pz[1] * y * x[1] / x[0]) * y * z[0] / x[0] - pz[1] * z[1] / x[0]`,
with `pz`, `px` the partials before the call. -/
theorem reverse_powvp_op_order_one [Field K] [DecidableEq K]
    (i_z : Nat) (arg : Nat → Nat) (parameter : Nat → K) (cap_order : Nat)
    (taylor : Nat → K) ( nc_partial : Nat) (partial_ work : Nat → K)
    (hx0 : taylor (arg 0 * cap_order) ≠ 0) :
    reverse_powvp_op 1 i_z arg parameter cap_order taylor nc_partial partial_ work
        (arg 0 * nc_partial + 1)
      = partial_ (arg 0 * nc_partial + 1)
        + partial_ (i_z * nc_partial + 1) * parameter (arg 1) * taylor (i_z * cap_order)
          / taylor (arg 0 * cap_order) ∧
    reverse_powvp_op 1 i_z arg parameter cap_order taylor nc_partial partial_ work
        (arg 0 * nc_partial)
      = partial_ (arg 0 * nc_partial)
        + ((partial_ (i_z * nc_partial)
              + partial_ (i_z * nc_partial + 1) * parameter (arg 1)
                * taylor (arg 0 * cap_order + 1) / taylor (arg 0 * cap_order))
            * parameter (arg 1) * taylor (i_z * cap_order) / taylor (arg 0 * cap_order)
          - partial_ (i_z * nc_partial + 1) * taylor (i_z * cap_order + 1)
            / taylor (arg 0 * cap_order)) := by
  obtain ⟨h1, h0⟩ := reverse_powvp_op_one_px i_z arg parameter cap_order taylor nc_partial
    partial_ work
  rw [h1, h0]
  simp only [CondExpEq, if_neg hx0]
  constructor
  · ring
  · ring

/-- Witness for C10 on `x = (2, 1, 0, 0)`, `y = 3`, with the Taylor buffer of
the forward call and partials `px = (0, 0)`, `pz = (1, 10)` (`nc_partial = 2`). -/
theorem reverse_powvp_op_order_one_witness :
    forward_powvp_op ratPow 0 1 1 exArg exPar 4 exTaylor (exArg 0 * 4) ≠ 0 ∧
    reverse_powvp_op 1 1 exArg exPar 4 (forward_powvp_op ratPow 0 1 1 exArg exPar 4 exTaylor)
        2 exPartialTwo exWork (exArg 0 * 2 + 1)
      = exPartialTwo (exArg 0 * 2 + 1)
        + exPartialTwo (1 * 2 + 1) * exPar (exArg 1)
          * forward_powvp_op ratPow 0 1 1 exArg exPar 4 exTaylor (1 * 4)
          / forward_powvp_op ratPow 0 1 1 exArg exPar 4 exTaylor (exArg 0 * 4) ∧
    reverse_powvp_op 1 1 exArg exPar 4 (forward_powvp_op ratPow 0 1 1 exArg exPar 4 exTaylor)
        2 exPartialTwo exWork (exArg 0 * 2)
      = exPartialTwo (exArg 0 * 2)
        + ((exPartialTwo (1 * 2)
              + exPartialTwo (1 * 2 + 1) * exPar (exArg 1)
                * forward_powvp_op ratPow 0 1 1 exArg exPar 4 exTaylor (exArg 0 * 4 + 1)
                / forward_powvp_op ratPow 0 1 1 exArg exPar 4 exTaylor (exArg 0 * 4))
            * exPar (exArg 1)
            * forward_powvp_op ratPow 0 1 1 exArg exPar 4 exTaylor (1 * 4)
            / forward_powvp_op ratPow 0 1 1 exArg exPar 4 exTaylor (exArg 0 * 4)
          - exPartialTwo (1 * 2 + 1)
            * forward_powvp_op ratPow 0 1 1 exArg exPar 4 exTaylor (1 * 4 + 1)
            / forward_powvp_op ratPow 0 1 1 exArg exPar 4 exTaylor (exArg 0 * 4)) :=
  have h : forward_powvp_op ratPow 0 1 1 exArg exPar 4 exTaylor (exArg 0 * 4) ≠ 0 := by
    rw [forward_powvp_op_frame]
    · norm_num [exTaylor, exArg]
    · intro j _ _
      simp only [exArg]
      omega
  ⟨h, reverse_powvp_op_order_one 1 exArg exPar 4
    (forward_powvp_op ratPow 0 1 1 exArg exPar 4 exTaylor) 2 exPartialTwo exWork h⟩

/-- The increments of C10 as a gradient, over the reals: let `Z` be the order zero
map `x[0] ↦ z[0]`, differentiable at `x[0] ≠ 0` with `Z' = y * Z / x[0]`, and let
the Taylor buffer hold `z[0] = Z(x[0])`, `z[1] = y * z[0] * x[1] / x[0]`.  Then
the amounts `reverse_powvp_op` with `d = 1` adds to `px[0]` and `px[1]` are the
partial derivatives in `x[0]` and `x[1]` of
`G = pz[0] * z[0] + pz[1] * z[1]`. -/
theorem reverse_powvp_op_order_one_gradient (Z : ℝ → ℝ)
    (i_z : Nat) (arg : Nat → Nat) (parameter : Nat → ℝ) (cap_order : Nat)
    (taylor : Nat → ℝ) ( nc_partial : Nat) (partial_ work : Nat → ℝ)
    (hx0 : taylor (arg 0 * cap_order) ≠ 0)
    (hz0 : taylor (i_z * cap_order) = Z (taylor (arg 0 * cap_order)))
    (hz1 : taylor (i_z * cap_order + 1)
      = parameter (arg 1) * taylor (i_z * cap_order) * taylor (arg 0 * cap_order + 1)
        / taylor (arg 0 * cap_order))
    (hZ : HasDerivAt Z
      (parameter (arg 1) * Z (taylor (arg 0 * cap_order)) / taylor (arg 0 * cap_order))
      (taylor (arg 0 * cap_order))) :
    HasDerivAt
      (fun u => partial_ (i_z * nc_partial) * Z u
        + partial_ (i_z * nc_partial + 1)
          * (parameter (arg 1) * Z u * taylor (arg 0 * cap_order + 1) / u))
      (reverse_powvp_op 1 i_z arg parameter cap_order taylor nc_partial partial_ work
          (arg 0 * nc_partial) - partial_ (arg 0 * nc_partial))
      (taylor (arg 0 * cap_order)) ∧
    HasDerivAt
      (fun v => partial_ (i_z * nc_partial) * Z (taylor (arg 0 * cap_order))
        + partial_ (i_z * nc_partial + 1)
          * (parameter (arg 1) * Z (taylor (arg 0 * cap_order)) * v
              / taylor (arg 0 * cap_order)))
      (reverse_powvp_op 1 i_z arg parameter cap_order taylor nc_partial partial_ work
          (arg 0 * nc_partial + 1) - partial_ (arg 0 * nc_partial + 1))
      (taylor (arg 0 * cap_order + 1)) := by
  obtain ⟨h1, h0⟩ := reverse_powvp_op_one_px i_z arg parameter cap_order taylor nc_partial
    partial_ work
  rw [h1, h0]
  simp only [CondExpEq, if_neg hx0]
  rw [hz1, hz0]
  generalize taylor (arg 0 * cap_order) = x0 at hx0 hZ ⊢
  generalize taylor (arg 0 * cap_order + 1) = x1
  generalize parameter (arg 1) = y at hZ ⊢
  generalize partial_ (i_z * nc_partial) = pz0
  generalize partial_ (i_z * nc_partial + 1) = pz1
  generalize partial_ (arg 0 * nc_partial) = px0
  generalize partial_ (arg 0 * nc_partial + 1) = px1
  constructor
  · have hnum : HasDerivAt (fun u => y * Z u * x1) (y * (y * Z x0 / x0) * x1) x0 :=
      (hZ.const_mul y).mul_const x1
    have hquot := hnum.div (hasDerivAt_id x0) hx0
    have hG := (hZ.const_mul pz0).add (hquot.const_mul pz1)
    refine hG.congr_deriv ?_
    simp only [id]
    field_simp
    ring
  · have hlin : HasDerivAt (fun v : ℝ => y * Z x0 * v / x0) (y * Z x0 / x0) x1 := by
      have := ((hasDerivAt_id x1).const_mul (y * Z x0)).div_const x0
      simpa using this
    have hG := (hlin.const_mul pz1).const_add (pz0 * Z x0)
    refine hG.congr_deriv ?_
    field_simp
    ring

end Reverse

/-! ## The guard and the accumulation of `reverse_powvp_op` -/

section ReverseGuard

variable {K : Type}

/-- Two runs of a loop whose passes preserve a relation end in related states. -/
theorem foldl_rel {α α' β : Type} (R : α → α' → Prop) (f : α → β → α) (f' : α' → β → α')
    (l : List β) (h : ∀ a a' b, b ∈ l → R a a' → R (f a b) (f' a' b)) :
    ∀ a a', R a a' → R (l.foldl f a) (l.foldl f' a') := by
  induction l with
  | nil => intro a a' hR; exact hR
  | cons b l ih =>
    intro a a' hR
    rw [List.foldl_cons, List.foldl_cons]
    exact ih (fun a a' c hc hR => h a a' c (List.mem_cons_of_mem b hc) hR) _ _
      (h a a' b (List.mem_cons_self b l) hR)

/-- A loop storing `v j` at offset `base + j` for `j < len` leaves `v j` there. -/
theorem store_loop_value (base : Nat) (v : Nat → K) (t : Nat → K) (len j : Nat)
    (hj : j < len) :
    (List.range' 0 len).foldl (fun (pt : Nat → K) (j : Nat) =>
      Function.update pt (base + j) (v j)) t (base + j) = v j := by
  rw [foldl_range'_value (fun (pt : Nat → K) (j : Nat) => Function.update pt (base + j) (v j))
    base (fun t j n hn => Function.update_noteq hn _ _) len 0 t j (Nat.zero_le j) (by omega)]
  exact Function.update_same _ _ _

/-- The loop `work[j] = px[j]` for `j < len`. -/
theorem copy_loop_value (src : Nat → K) (w : Nat → K) (len k : Nat) (hk : k < len) :
    (List.range' 0 len).foldl (fun (w : Nat → K) (j : Nat) =>
      Function.update w j (src j)) w k = src k := by
  have h := store_loop_value 0 src w len k hk
  simpa using h

/-- The partial of `x[j]` after `reverse_powvp_op` is the conditional select on
the final `work[j]`, which is zero when `x[0] = 0`. -/
theorem reverse_powvp_op_px_zero
    [Zero K] [Add K] [Sub K] [Mul K] [Div K] [NatCast K] [DecidableEq K]
    (d i_z : Nat) (arg : Nat → Nat) (parameter : Nat → K) (cap_order : Nat)
    (taylor : Nat → K) ( nc_partial : Nat) (partial_ work : Nat → K)
    (hx : taylor (arg 0 * cap_order) = 0) (j : Nat) (hj : j ≤ d) :
    reverse_powvp_op d i_z arg parameter cap_order taylor nc_partial partial_ work
      (arg 0 * nc_partial + j) = 0 := by
  unfold reverse_powvp_op
  dsimp only
  rw [store_loop_value _ _ _ (d + 1) j (by omega), Nat.add_zero, hx]
  simp [CondExpEq]

/-- Two runs of an accumulation loop `work[k] += c k` keep the difference of
the two `work` vectors. -/
theorem work_loop_rel [Field K] (c : Nat → K) (Δ : Nat → K) (d : Nat) (l : List Nat)
    (w w' : Nat → K) (h : ∀ k, k ≤ d → w k - w' k = Δ k) :
    ∀ k, k ≤ d →
      l.foldl (fun (w : Nat → K) (k : Nat) => Function.update w k (w k + c k)) w k
        - l.foldl (fun (w : Nat → K) (k : Nat) => Function.update w k (w k + c k)) w' k
      = Δ k := by
  refine foldl_rel (fun (w w' : Nat → K) => ∀ k, k ≤ d → w k - w' k = Δ k) _ _ l ?_ w w' h
  intro a a' b _ hR k hk
  simp only [Function.update_apply]
  split_ifs with hkb
  · subst hkb
    rw [add_sub_add_right_eq_sub]
    exact hR k hk
  · exact hR k hk

/-- Two runs of the loop `pz[k] += azmul(pz[j], term k)` on partial buffers that
agree on `pz[0..d]` end in buffers that agree on `pz[0..d]`. -/
theorem part_loop_rel [Zero K] [Add K] [Mul K] [DecidableEq K]
    (pz j d : Nat) (term : Nat → K) (l : List Nat) (hj : j ≤ d)
    (pt pt' : Nat → K) (h : ∀ k, k ≤ d → pt (pz + k) = pt' (pz + k)) :
    ∀ k, k ≤ d →
      l.foldl (fun (pt : Nat → K) (k : Nat) =>
          Function.update pt (pz + k) (pt (pz + k) + azmul (pt (pz + j)) (term k))) pt (pz + k)
      = l.foldl (fun (pt : Nat → K) (k : Nat) =>
          Function.update pt (pz + k) (pt (pz + k) + azmul (pt (pz + j)) (term k))) pt'
          (pz + k) := by
  refine foldl_rel (fun (pt pt' : Nat → K) => ∀ k, k ≤ d → pt (pz + k) = pt' (pz + k))
    _ _ l ?_ pt pt' h
  intro a a' b _ hR k hk
  simp only [Function.update_apply]
  split_ifs with hkb
  · have hb : k = b := by omega
    rw [← hb, hR k hk, hR j hj]
  · exact hR k hk

/-- One pass of the `while(j)` loop of `reverse_powvp_op`, run on two states
that agree on `pz[0..d]` and whose `work` vectors differ by `Δ`, ends in two
such states. -/
theorem reverse_powvp_order_rel [Field K] [DecidableEq K]
    (d i_z : Nat) (arg : Nat → Nat) (parameter : Nat → K) (cap_order : Nat)
    (taylor : Nat → K) ( nc_partial : Nat) (Δ : Nat → K)
    (s s' : (Nat → K) × (Nat → K)) (j : Nat) (hj : j ≤ d)
    (h : (∀ k, k ≤ d → s.1 (i_z * nc_partial + k) = s'.1 (i_z * nc_partial + k)) ∧
      (∀ k, k ≤ d → s.2 k - s'.2 k = Δ k)) :
    (∀ k, k ≤ d →
      (reverse_powvp_order i_z arg parameter cap_order taylor nc_partial s j).1
          (i_z * nc_partial + k)
        = (reverse_powvp_order i_z arg parameter cap_order taylor nc_partial s' j).1
          (i_z * nc_partial + k)) ∧
    (∀ k, k ≤ d →
      (reverse_powvp_order i_z arg parameter cap_order taylor nc_partial s j).2 k
        - (reverse_powvp_order i_z arg parameter cap_order taylor nc_partial s' j).2 k
        = Δ k) := by
  obtain ⟨hA, hB⟩ := h
  unfold reverse_powvp_order
  dsimp only
  rw [hA j hj]
  constructor
  · intro k hk
    simp only [Function.update_apply]
    have hP := part_loop_rel (i_z * nc_partial) j d
      (fun k => (((j - k : Nat) : K) * parameter (arg 1) - (k : K))
        * taylor (arg 0 * cap_order + (j - k)) / ((j : K) * taylor (arg 0 * cap_order + 0)))
      (List.range' 1 (j - 1)) hj s.1 s'.1 hA
    split_ifs with hk0
    · rw [hP 0 (Nat.zero_le d), hP j hj]
    · exact hP k hk
  · intro k hk
    have hP := part_loop_rel (i_z * nc_partial) j d
      (fun k => (((j - k : Nat) : K) * parameter (arg 1) - (k : K))
        * taylor (arg 0 * cap_order + (j - k)) / ((j : K) * taylor (arg 0 * cap_order + 0)))
      (List.range' 1 (j - 1)) hj s.1 s'.1 hA
    have hW1 : ∀ k, k ≤ d →
        Function.update s.2 j (s.2 j + azmul (s'.1 (i_z * nc_partial + j))
            (parameter (arg 1) * taylor (i_z * cap_order + 0) / taylor (arg 0 * cap_order + 0)))
          k
        - Function.update s'.2 j (s'.2 j + azmul (s'.1 (i_z * nc_partial + j))
            (parameter (arg 1) * taylor (i_z * cap_order + 0) / taylor (arg 0 * cap_order + 0)))
          k = Δ k := by
      intro k hk
      simp only [Function.update_apply]
      split_ifs with hkj
      · subst hkj
        rw [add_sub_add_right_eq_sub]
        exact hB k hk
      · exact hB k hk
    have hW2 := work_loop_rel
      (fun k => azmul (s'.1 (i_z * nc_partial + j))
        (((k : K) * parameter (arg 1) - ((j - k : Nat) : K))
          * taylor (i_z * cap_order + (j - k)) / ((j : K) * taylor (arg 0 * cap_order + 0))))
      Δ d (List.range' 1 (j - 1)) _ _ hW1
    simp only [Function.update_apply]
    split_ifs with hk0
    · subst hk0
      rw [hP j hj, sub_sub_sub_cancel_right]
      exact hW2 0 (Nat.zero_le d)
    · exact hW2 k hk

/-- The state after the `while(j)` loop of `reverse_powvp_op`, for two partial
buffers that differ only in `px[0..d]`: the partial buffers agree on `pz[0..d]`
and the `work` vectors differ by the difference of the initial `px`. -/
theorem reverse_powvp_loop_rel [Field K] [DecidableEq K]
    (d i_z : Nat) (arg : Nat → Nat) (parameter : Nat → K) (cap_order : Nat)
    (taylor : Nat → K) ( nc_partial : Nat) (p₁ p₂ w₁ w₂ : Nat → K)
    (hne : arg 0 ≠ i_z) (hd : d < nc_partial)
    (hagree : ∀ n, (∀ j, j ≤ d → n ≠ arg 0 * nc_partial + j) → p₁ n = p₂ n)
    (l : List Nat) (hl : ∀ j, j ∈ l → j ≤ d) :
    (∀ k, k ≤ d →
      (l.foldl (reverse_powvp_order i_z arg parameter cap_order taylor nc_partial)
        (p₁, (List.range' 0 (d + 1)).foldl (fun (w : Nat → K) (j : Nat) =>
          Function.update w j (p₁ (arg 0 * nc_partial + j))) w₁)).1 (i_z * nc_partial + k)
      = (l.foldl (reverse_powvp_order i_z arg parameter cap_order taylor nc_partial)
        (p₂, (List.range' 0 (d + 1)).foldl (fun (w : Nat → K) (j : Nat) =>
          Function.update w j (p₂ (arg 0 * nc_partial + j))) w₂)).1 (i_z * nc_partial + k)) ∧
    (∀ k, k ≤ d →
      (l.foldl (reverse_powvp_order i_z arg parameter cap_order taylor nc_partial)
        (p₁, (List.range' 0 (d + 1)).foldl (fun (w : Nat → K) (j : Nat) =>
          Function.update w j (p₁ (arg 0 * nc_partial + j))) w₁)).2 k
      - (l.foldl (reverse_powvp_order i_z arg parameter cap_order taylor nc_partial)
        (p₂, (List.range' 0 (d + 1)).foldl (fun (w : Nat → K) (j : Nat) =>
          Function.update w j (p₂ (arg 0 * nc_partial + j))) w₂)).2 k
      = p₁ (arg 0 * nc_partial + k) - p₂ (arg 0 * nc_partial + k)) := by
  refine foldl_rel
    (fun (s s' : (Nat → K) × (Nat → K)) =>
      (∀ k, k ≤ d → s.1 (i_z * nc_partial + k) = s'.1 (i_z * nc_partial + k)) ∧
      (∀ k, k ≤ d → s.2 k - s'.2 k
        = p₁ (arg 0 * nc_partial + k) - p₂ (arg 0 * nc_partial + k)))
    _ _ l ?_ _ _ ⟨?_, ?_⟩
  · intro s s' j hj hR
    exact reverse_powvp_order_rel d i_z arg parameter cap_order taylor nc_partial
      (fun k => p₁ (arg 0 * nc_partial + k) - p₂ (arg 0 * nc_partial + k)) s s' j (hl j hj) hR
  · intro k hk
    apply hagree
    intro j hj
    exact (slot_offset_ne hne (by omega) (by omega)).symm
  · intro k hk
    dsimp only
    rw [copy_loop_value (fun j => p₁ (arg 0 * nc_partial + j)) w₁ (d + 1) k (by omega),
      copy_loop_value (fun j => p₂ (arg 0 * nc_partial + j)) w₂ (d + 1) k (by omega)]

/-- C11. Guarded division in reverse mode, for any `Base`: when `x[0] = 0`,
after `reverse_powvp_op` every partial `px[j]` with `0 ≤ j ≤ d` is exactly `0`. -/
theorem reverse_powvp_op_guard
    [Zero K] [Add K] [Sub K] [Mul K] [Div K] [NatCast K] [DecidableEq K]
    (d i_z : Nat) (arg : Nat → Nat) (parameter : Nat → K) (cap_order : Nat)
    (taylor : Nat → K) ( nc_partial : Nat) (partial_ work : Nat → K)
    (hx : taylor (arg 0 * cap_order) = 0) :
    ∀ j, j ≤ d →
      reverse_powvp_op d i_z arg parameter cap_order taylor nc_partial partial_ work
        (arg 0 * nc_partial + j) = 0 :=
  fun j hj => reverse_powvp_op_px_zero d i_z arg parameter cap_order taylor nc_partial
    partial_ work hx j hj

/-- Witness for C11 on `x = (0, 1, 0, 0)`, `y = 3`, `d = 1`, partials
`px = (0, 0)`, `pz = (1, 10)`. -/
theorem reverse_powvp_op_guard_witness :
    exTaylorZero (exArg 0 * 4) = 0 ∧
    ∀ j, j ≤ 1 →
      reverse_powvp_op 1 1 exArg exPar 4 exTaylorZero 2 exPartialTwo exWork
        (exArg 0 * 2 + j) = 0 :=
  have h : exTaylorZero (exArg 0 * 4) = 0 := by simp [exTaylorZero, exArg]
  ⟨h, reverse_powvp_op_guard 1 1 exArg exPar 4 exTaylorZero 2 exPartialTwo exWork h⟩

/-- C12, counterexample. With `x[0] = 0` and `d = 0`, two partial buffers that
differ only in the initial `px[0]` (`5` and `7`) both end with `px[0] = 0`: the
amounts added to `px[0]`, `-5` and `-7`, depend on the initial `px[0]`, and the
partial accumulated in `px[0]` before the call is discarded. -/
theorem reverse_powvp_op_accumulates_counterexample :
    exTaylorZero (exArg 0 * 4) = 0 ∧
    (∀ n, n ≠ exArg 0 * 1 + 0 → exPartialFive n = exPartialSeven n) ∧
    reverse_powvp_op 0 1 exArg exPar 4 exTaylorZero 1 exPartialFive exWork (exArg 0 * 1 + 0)
      = 0 ∧
    exPartialFive (exArg 0 * 1 + 0) = 5 ∧
    reverse_powvp_op 0 1 exArg exPar 4 exTaylorZero 1 exPartialFive exWork (exArg 0 * 1 + 0)
        - exPartialFive (exArg 0 * 1 + 0)
      ≠ reverse_powvp_op 0 1 exArg exPar 4 exTaylorZero 1 exPartialSeven exWork
          (exArg 0 * 1 + 0)
        - exPartialSeven (exArg 0 * 1 + 0) := by
  have h : exTaylorZero (exArg 0 * 4) = 0 := by simp [exTaylorZero, exArg]
  have h5 := reverse_powvp_op_px_zero 0 1 exArg exPar 4 exTaylorZero 1 exPartialFive exWork
    h 0 (le_refl 0)
  have h7 := reverse_powvp_op_px_zero 0 1 exArg exPar 4 exTaylorZero 1 exPartialSeven exWork
    h 0 (le_refl 0)
  refine ⟨h, ?_, h5, by simp [exPartialFive, exArg], ?_⟩
  · intro n hn
    have hn0 : n ≠ 0 := by simpa [exArg] using hn
    simp [exPartialFive, exPartialSeven, hn0]
  · rw [h5, h7]
    norm_num [exPartialFive, exPartialSeven, exArg]

/-- C12, amended. `reverse_powvp_op` accumulates into the partials of `x` when
`x[0] ≠ 0`: over a field, for `x` and `z` in distinct slots and `d < nc_partial`,
two calls on partial buffers that differ only in the initial `px[0..d]` add the
same amount to every `px[j]`, `j ≤ d`; so the final `px[j]` is the initial
`px[j]` plus a contribution that does not depend on the initial `px`. -/
theorem reverse_powvp_op_accumulates [Field K] [DecidableEq K]
    (d i_z : Nat) (arg : Nat → Nat) (parameter : Nat → K) (cap_order : Nat)
    (taylor : Nat → K) ( nc_partial : Nat) (p₁ p₂ w₁ w₂ : Nat → K)
    (hx0 : taylor (arg 0 * cap_order) ≠ 0) (hne : arg 0 ≠ i_z) (hd : d < nc_partial)
    (hagree : ∀ n, (∀ j, j ≤ d → n ≠ arg 0 * nc_partial + j) → p₁ n = p₂ n) :
    ∀ j, j ≤ d →
      reverse_powvp_op d i_z arg parameter cap_order taylor nc_partial p₁ w₁
          (arg 0 * nc_partial + j) - p₁ (arg 0 * nc_partial + j)
      = reverse_powvp_op d i_z arg parameter cap_order taylor nc_partial p₂ w₂
          (arg 0 * nc_partial + j) - p₂ (arg 0 * nc_partial + j) := by
  intro j hj
  obtain ⟨hA, hB⟩ := reverse_powvp_loop_rel d i_z arg parameter cap_order taylor nc_partial
    p₁ p₂ w₁ w₂ hne hd hagree (List.range' 1 d).reverse (by
      intro j hj
      rw [List.mem_reverse, List.mem_range'_1] at hj
      omega)
  unfold reverse_powvp_op
  dsimp only
  rw [store_loop_value _ _ _ (d + 1) j (by omega), store_loop_value _ _ _ (d + 1) j (by omega)]
  simp only [CondExpEq, Nat.add_zero, if_neg hx0, Function.update_apply]
  have hA0 := hA 0 (Nat.zero_le d)
  simp only [Nat.add_zero] at hA0
  split_ifs with hj0
  · subst hj0
    rw [hA0]
    have hB0 := hB 0 (Nat.zero_le d)
    simp only [Nat.add_zero] at hB0 ⊢
    linear_combination hB0
  · linear_combination hB j hj

/-- Witness for the amended C12 on `x = (2, 1, 0, 0)`, `y = 3`, `d = 0`, with
initial `px[0] = 5` and `px[0] = 7`. -/
theorem reverse_powvp_op_accumulates_witness :
    (exTaylor (exArg 0 * 4) ≠ 0 ∧ exArg 0 ≠ 1 ∧ 0 < 1 ∧
      (∀ n, (∀ j, j ≤ 0 → n ≠ exArg 0 * 1 + j) → exPartialFive n = exPartialSeven n)) ∧
    ∀ j, j ≤ 0 →
      reverse_powvp_op 0 1 exArg exPar 4 exTaylor 1 exPartialFive exWork
          (exArg 0 * 1 + j) - exPartialFive (exArg 0 * 1 + j)
      = reverse_powvp_op 0 1 exArg exPar 4 exTaylor 1 exPartialSeven exWork
          (exArg 0 * 1 + j) - exPartialSeven (exArg 0 * 1 + j) :=
  have h1 : exTaylor (exArg 0 * 4) ≠ 0 := by norm_num [exTaylor, exArg]
  have h2 : exArg 0 ≠ 1 := by decide
  have h3 : 0 < 1 := by decide
  have h4 : ∀ n, (∀ j, j ≤ 0 → n ≠ exArg 0 * 1 + j) → exPartialFive n = exPartialSeven n := by
    intro n hn
    have hn0 : n ≠ 0 := by simpa [exArg] using hn 0 (le_refl 0)
    simp [exPartialFive, exPartialSeven, hn0]
  ⟨⟨h1, h2, h3, h4⟩,
    reverse_powvp_op_accumulates 0 1 exArg exPar 4 exTaylor 1 exPartialFive exPartialSeven
      exWork exWork h1 h2 h3 h4⟩

end ReverseGuard

/-! ## The capacity check of the `pv` variant -/

section Capacity

variable {K : Type}

/-- C14. Capacity violations fail fast instead of truncating: for `i_z ≥ 2`,
`forward_powpv_op` and `reverse_powpv_op` raise the
`cppad_tape_addr_type maximum value has been exceeded` error exactly when the
offset `(i_z - 2) * cap_order` exceeds the largest `addr_t` value; otherwise
the address `adr[0] = addr_t((i_z - 2) * cap_order)` is the product itself and
the result of each routine is its body run with `adr[0] = (i_z - 2) * cap_order`
handed to the multiply step: for `forward_powpv_op` the loop `z_0 = log(x)`
(`taylor1`), then `forward_mulpv_op` with that address (`taylor2`), then the
order zero store of `pow` (`taylor3`) and `forward_exp_op`; for
`reverse_powpv_op`, `reverse_exp_op` and then `reverse_mulpv_op` with that
address. -/
theorem powpv_capacity_check
    [Zero K] [Add K] [Mul K] [Div K] [NatCast K] [DecidableEq K]
    (pow : K → K → K) (log exp : K → K) (addr_max p q d i_z : Nat) (arg : Nat → Nat)
    (parameter : Nat → K) (cap_order : Nat) (taylor : Nat → K) ( nc_partial : Nat)
    (partial_ : Nat → K) (hiz : 2 ≤ i_z) :
    (forward_powpv_op pow log exp addr_max p q i_z arg parameter cap_order taylor
        = Except.error addr_exceeded_msg ↔ addr_max < (i_z - 2) * cap_order) ∧
    (reverse_powpv_op addr_max d i_z arg parameter cap_order taylor nc_partial partial_
        = Except.error addr_exceeded_msg ↔ addr_max < (i_z - 2) * cap_order) ∧
    (¬ addr_max < (i_z - 2) * cap_order →
      addr_t addr_max ((i_z - 2) * cap_order) = (i_z - 2) * cap_order ∧
      (∀ taylor1 taylor2 taylor3 : Nat → K,
        taylor1 = (List.range' p (q + 1 - p)).foldl
          (fun (t : Nat → K) (k : Nat) =>
            if k = 0 then Function.update t ((i_z - 2) * cap_order + k) (log (parameter (arg 0)))
            else Function.update t ((i_z - 2) * cap_order + k) 0) taylor →
        taylor2 = forward_mulpv_op p q (i_z - 1)
          (fun i => if i = 0 then (i_z - 2) * cap_order else arg 1) taylor1 cap_order taylor1 →
        taylor3 = (if p = 0 then
            Function.update taylor2 (i_z * cap_order + 0)
              (pow (parameter (arg 0)) (taylor2 (arg 1 * cap_order + 0)))
          else taylor2) →
        forward_powpv_op pow log exp addr_max p q i_z arg parameter cap_order taylor
          = Except.ok (if (if p = 0 then p + 1 else p) ≤ q then
              forward_exp_op exp (if p = 0 then p + 1 else p) q i_z (i_z - 1) cap_order taylor3
            else taylor3)) ∧
      reverse_powpv_op addr_max d i_z arg parameter cap_order taylor nc_partial partial_
        = Except.ok (reverse_mulpv_op d (i_z - 1)
            (fun i => if i = 0 then (i_z - 2) * cap_order else arg 1) taylor cap_order taylor
            nc_partial (reverse_exp_op d i_z (i_z - 1) cap_order taylor nc_partial partial_))) := by
  obtain ⟨i, rfl⟩ : ∃ i, i_z = i + 2 := ⟨i_z - 2, by omega⟩
  have e2 : i + 2 - 2 = i := by omega
  have e1 : i + 2 - 1 = i + 1 := by omega
  rw [e2, e1]
  by_cases h : addr_max < i * cap_order
  · have h' : ¬ addr_max ≥ i * cap_order := by omega
    refine ⟨?_, ?_, fun hn => absurd h hn⟩
    · simp only [forward_powpv_op, e2, if_neg h', h]
    · simp only [reverse_powpv_op, e2, if_neg h', h]
  · have h' : addr_max ≥ i * cap_order := by omega
    have hadr : addr_t addr_max (i * cap_order) = i * cap_order := Nat.mod_eq_of_lt (by omega)
    refine ⟨?_, ?_, fun _ => ⟨hadr, ?_, ?_⟩⟩
    · simp only [forward_powpv_op, e2, if_pos h', h, iff_false]
      split_ifs <;> simp
    · simp only [reverse_powpv_op, e2, if_pos h', h, iff_false]
      simp
    · rintro taylor1 taylor2 taylor3 rfl rfl rfl
      simp only [forward_powpv_op, e2, if_pos h', hadr]
      split_ifs <;> rfl
    · simp only [reverse_powpv_op, e2, if_pos h', hadr]

/-- Witness for C14 with `i_z = 3`, `cap_order = 4` and a 31 bit `addr_t`: no
error, and the result of `reverse_powpv_op` is `reverse_exp_op` followed by
`reverse_mulpv_op` with `adr[0] = 4`. -/
theorem powpv_capacity_check_witness :
    2 ≤ 3 ∧
    (forward_powpv_op ratPow exLog exExp 2147483647 0 1 3 exArg exPar 4 exTaylor
        = Except.error addr_exceeded_msg ↔ 2147483647 < (3 - 2) * 4) ∧
    reverse_powpv_op 2147483647 1 3 exArg exPar 4 exTaylor 2 exPartialTwo
      = Except.ok (reverse_mulpv_op 1 (3 - 1)
          (fun i => if i = 0 then (3 - 2) * 4 else exArg 1) exTaylor 4 exTaylor
          2 (reverse_exp_op 1 3 (3 - 1) 4 exTaylor 2 exPartialTwo)) :=
  ⟨by decide,
    (powpv_capacity_check ratPow exLog exExp 2147483647 0 1 1 3 exArg exPar 4
      exTaylor 2 exPartialTwo (by decide)).1,
    ((powpv_capacity_check ratPow exLog exExp 2147483647 0 1 1 3 exArg exPar 4
      exTaylor 2 exPartialTwo (by decide)).2.2 (by decide)).2.2⟩

end Capacity

/-! ## First order forward mode for `pow` with two variable operands -/

section PowvvFirstOrder

variable {K : Type}

/-- Offsets of orders zero and one in two distinct slots are distinct. -/
theorem slot_pair_ne {a b c : Nat} (hab : a ≠ b) (hc : 1 < c) :
    a * c ≠ b * c ∧ a * c + 1 ≠ b * c ∧ a * c ≠ b * c + 1 := by
  have h00 := slot_offset_ne (c := c) (k := 0) (j := 0) hab (by omega) (by omega)
  have h10 := slot_offset_ne (c := c) (k := 1) (j := 0) hab hc (by omega)
  have h01 := slot_offset_ne (c := c) (k := 0) (j := 1) hab (by omega) hc
  exact ⟨by simpa using h00, by simpa using h10, by simpa using h01⟩

set_option maxHeartbeats 1600000 in
/-- The buffer after `forward_powvv_op(0, 1, ...)`, entry by entry. -/
theorem forward_powvv_op_zero_one [Field K]
    (pow : K → K → K) (log exp : K → K)
    (i : Nat) (arg : Nat → Nat) (parameter : Nat → K) (cap_order : Nat)
    (taylor : Nat → K)
    (hcap : 1 < cap_order) (h0 : arg 0 < i) (h1 : arg 1 < i) :
    forward_powvv_op pow log exp 0 1 (i + 2) arg parameter cap_order taylor (i * cap_order)
        = log (taylor (arg 0 * cap_order)) ∧
    forward_powvv_op pow log exp 0 1 (i + 2) arg parameter cap_order taylor
        (i * cap_order + 1)
        = taylor (arg 0 * cap_order + 1) / taylor (arg 0 * cap_order) ∧
    forward_powvv_op pow log exp 0 1 (i + 2) arg parameter cap_order taylor
        ((i + 1) * cap_order)
        = log (taylor (arg 0 * cap_order)) * taylor (arg 1 * cap_order) ∧
    forward_powvv_op pow log exp 0 1 (i + 2) arg parameter cap_order taylor
        ((i + 1) * cap_order + 1)
        = log (taylor (arg 0 * cap_order)) * taylor (arg 1 * cap_order + 1)
          + taylor (arg 0 * cap_order + 1) / taylor (arg 0 * cap_order)
            * taylor (arg 1 * cap_order) ∧
    forward_powvv_op pow log exp 0 1 (i + 2) arg parameter cap_order taylor
        ((i + 2) * cap_order)
        = pow (taylor (arg 0 * cap_order)) (taylor (arg 1 * cap_order)) ∧
    forward_powvv_op pow log exp 0 1 (i + 2) arg parameter cap_order taylor
        ((i + 2) * cap_order + 1)
        = (log (taylor (arg 0 * cap_order)) * taylor (arg 1 * cap_order + 1)
            + taylor (arg 0 * cap_order + 1) / taylor (arg 0 * cap_order)
              * taylor (arg 1 * cap_order))
          * pow (taylor (arg 0 * cap_order)) (taylor (arg 1 * cap_order)) := by
  obtain ⟨xa, xa1, xa2⟩ := slot_pair_ne (c := cap_order) (show arg 0 ≠ i by omega) hcap
  obtain ⟨ax, ax1, ax2⟩ := slot_pair_ne (c := cap_order) (show i ≠ arg 0 by omega) hcap
  obtain ⟨xb, xb1, xb2⟩ := slot_pair_ne (c := cap_order) (show arg 0 ≠ i + 1 by omega) hcap
  obtain ⟨bx, bx1, bx2⟩ := slot_pair_ne (c := cap_order) (show i + 1 ≠ arg 0 by omega) hcap
  obtain ⟨xc, xc1, xc2⟩ := slot_pair_ne (c := cap_order) (show arg 0 ≠ i + 2 by omega) hcap
  obtain ⟨cx, cx1, cx2⟩ := slot_pair_ne (c := cap_order) (show i + 2 ≠ arg 0 by omega) hcap
  obtain ⟨ya, ya1, ya2⟩ := slot_pair_ne (c := cap_order) (show arg 1 ≠ i by omega) hcap
  obtain ⟨ay, ay1, ay2⟩ := slot_pair_ne (c := cap_order) (show i ≠ arg 1 by omega) hcap
  obtain ⟨yb, yb1, yb2⟩ := slot_pair_ne (c := cap_order) (show arg 1 ≠ i + 1 by omega) hcap
  obtain ⟨by', by1, by2⟩ := slot_pair_ne (c := cap_order) (show i + 1 ≠ arg 1 by omega) hcap
  obtain ⟨yc, yc1, yc2⟩ := slot_pair_ne (c := cap_order) (show arg 1 ≠ i + 2 by omega) hcap
  obtain ⟨cy, cy1, cy2⟩ := slot_pair_ne (c := cap_order) (show i + 2 ≠ arg 1 by omega) hcap
  obtain ⟨ab, ab1, ab2⟩ := slot_pair_ne (c := cap_order) (show i ≠ i + 1 by omega) hcap
  obtain ⟨ba, ba1, ba2⟩ := slot_pair_ne (c := cap_order) (show i + 1 ≠ i by omega) hcap
  obtain ⟨ac, ac1, ac2⟩ := slot_pair_ne (c := cap_order) (show i ≠ i + 2 by omega) hcap
  obtain ⟨ca, ca1, ca2⟩ := slot_pair_ne (c := cap_order) (show i + 2 ≠ i by omega) hcap
  obtain ⟨bc, bc1, bc2⟩ := slot_pair_ne (c := cap_order) (show i + 1 ≠ i + 2 by omega) hcap
  obtain ⟨cb, cb1, cb2⟩ := slot_pair_ne (c := cap_order) (show i + 2 ≠ i + 1 by omega) hcap
  have r2 : List.range' 0 2 = [0, 1] := rfl
  have r1 : List.range' 1 1 = [1] := rfl
  have r01 : List.range' 0 1 = [0] := rfl
  simp only [forward_powvv_op, forward_log_op, forward_mulvv_op, forward_mulvv_order,
    forward_exp_op, forward_exp_order, Nat.add_sub_cancel, r2, r1, r01, List.foldl_cons,
    List.foldl_nil, Nat.reduceAdd, Nat.reduceSub, Nat.reduceEqDiff, Nat.reduceLeDiff,
    if_true, if_false, ite_true, ite_false, and_false, and_true, Nat.add_zero, Nat.sub_self,
    Nat.sub_zero, zero_add, List.range'_zero, Nat.le_refl, Nat.one_ne_zero, Nat.zero_ne_one]
  generalize arg 0 * cap_order = X at *
  generalize arg 1 * cap_order = Y at *
  generalize i * cap_order = A at *
  generalize (i + 1) * cap_order = B at *
  generalize (i + 2) * cap_order = C at *
  simp [Function.update_apply, r2, r1, xa, xa1, xa2, ax, ax1, ax2, xb, xb1, xb2, bx, bx1, bx2,
    xc, xc1, xc2, cx, cx1, cx2, ya, ya1, ya2, ay, ay1, ay2, yb, yb1, yb2, by', by1, by2,
    yc, yc1, yc2, cy, cy1, cy2, ab, ab1, ab2, ba, ba1, ba2, ac, ac1, ac2, ca, ca1, ca2,
    bc, bc1, bc2, cb, cb1, cb2]
  exact ⟨add_comm _ _, Or.inl (add_comm _ _)⟩

/-- C20. First order forward mode of `z = pow(x, y)` with two variable operands,
called with `p = 0`, `q = 1` and `x^(0) ≠ 0`: the three result slots hold
`z_0 = (log x0, x1 / x0)`, `z_1 = (z_0[0] * y0, z_0[0] * y1 + z_0[1] * y0)`,
`z_2[0] = pow(x0, y0)` and `z_2[1] = pow(x0, y0) * (y0 * x1 / x0 + log(x0) * y1)`.
The operands are earlier variables (`arg[0], arg[1] < i_z - 2`) and the
buffer holds at least orders zero and one (`1 < cap_order`). -/
theorem forward_powvv_op_first_order [Field K]
    (pow : K → K → K) (log exp : K → K)
    (i_z : Nat) (arg : Nat → Nat) (parameter : Nat → K) (cap_order : Nat)
    (taylor : Nat → K)
    (hcap : 1 < cap_order) (h0 : arg 0 < i_z - 2) (h1 : arg 1 < i_z - 2)
    (hx : taylor (arg 0 * cap_order) ≠ 0) :
    forward_powvv_op pow log exp 0 1 i_z arg parameter cap_order taylor
        ((i_z - 2) * cap_order) = log (taylor (arg 0 * cap_order)) ∧
    forward_powvv_op pow log exp 0 1 i_z arg parameter cap_order taylor
        ((i_z - 2) * cap_order + 1)
      = taylor (arg 0 * cap_order + 1) / taylor (arg 0 * cap_order) ∧
    forward_powvv_op pow log exp 0 1 i_z arg parameter cap_order taylor
        ((i_z - 1) * cap_order)
      = forward_powvv_op pow log exp 0 1 i_z arg parameter cap_order taylor
          ((i_z - 2) * cap_order) * taylor (arg 1 * cap_order) ∧
    forward_powvv_op pow log exp 0 1 i_z arg parameter cap_order taylor
        ((i_z - 1) * cap_order + 1)
      = forward_powvv_op pow log exp 0 1 i_z arg parameter cap_order taylor
            ((i_z - 2) * cap_order) * taylor (arg 1 * cap_order + 1)
        + forward_powvv_op pow log exp 0 1 i_z arg parameter cap_order taylor
            ((i_z - 2) * cap_order + 1) * taylor (arg 1 * cap_order) ∧
    forward_powvv_op pow log exp 0 1 i_z arg parameter cap_order taylor
        (i_z * cap_order)
      = pow (taylor (arg 0 * cap_order)) (taylor (arg 1 * cap_order)) ∧
    forward_powvv_op pow log exp 0 1 i_z arg parameter cap_order taylor
        (i_z * cap_order + 1)
      = pow (taylor (arg 0 * cap_order)) (taylor (arg 1 * cap_order))
        * (taylor (arg 1 * cap_order) * taylor (arg 0 * cap_order + 1)
              / taylor (arg 0 * cap_order)
            + log (taylor (arg 0 * cap_order)) * taylor (arg 1 * cap_order + 1)) := by
  obtain ⟨i, rfl⟩ : ∃ i, i_z = i + 2 := ⟨i_z - 2, by omega⟩
  have e2 : i + 2 - 2 = i := by omega
  have e1 : i + 2 - 1 = i + 1 := by omega
  rw [e2] at h0 h1
  obtain ⟨a0, a1, b0, b1, c0, c1⟩ :=
    forward_powvv_op_zero_one pow log exp i arg parameter cap_order taylor hcap h0 h1
  simp only [e2, e1]
  refine ⟨a0, a1, ?_, ?_, c0, ?_⟩
  · rw [b0, a0]
  · rw [b1, a0, a1]
  · rw [c1]
    field_simp
    ring

/-- Witness for C20: `x = (2, 1)`, `y = (2, 1)` in slot 0, result slots 1, 2, 3. -/
theorem forward_powvv_op_first_order_witness :
    (1 < 4 ∧ exArg 0 < 3 - 2 ∧ exArg 1 < 3 - 2 ∧ exTaylor (exArg 0 * 4) ≠ 0) ∧
    forward_powvv_op ratPow exLog exExp 0 1 3 exArg exPar 4 exTaylor (3 * 4 + 1)
      = ratPow (exTaylor (exArg 0 * 4)) (exTaylor (exArg 1 * 4))
        * (exTaylor (exArg 1 * 4) * exTaylor (exArg 0 * 4 + 1) / exTaylor (exArg 0 * 4)
            + exLog (exTaylor (exArg 0 * 4)) * exTaylor (exArg 1 * 4 + 1)) :=
  ⟨⟨by decide, by decide, by decide, by simp [exTaylor, exArg]⟩,
    (forward_powvv_op_first_order ratPow exLog exExp 3 exArg exPar 4 exTaylor
      (by decide) (by decide) (by decide) (by simp [exTaylor, exArg])).2.2.2.2.2⟩

end PowvvFirstOrder

/-! ## Reverse mode for `pow` with two variable operands -/

section ReversePowvv

variable {K : Type}

/-- Order zero entries of distinct slots are distinct. -/
theorem slot_zero_ne {a b c : Nat} (hab : a ≠ b) (hc : 0 < c) : a * c ≠ b * c := by
  have h := slot_offset_ne (c := c) (k := 0) (j := 0) hab hc hc
  simpa using h

/-- The partials of `x` and `y` after `reverse_powvv_op` with `d = 0`, for any
Taylor buffer: the partial of `z_2` flows through `exp`, the product and `log`. -/
theorem reverse_powvv_op_zero [Field K] [DecidableEq K]
    (i_z : Nat) (arg : Nat → Nat) (parameter : Nat → K) (cap_order : Nat)
    (taylor : Nat → K) ( nc_partial : Nat) (partial_ : Nat → K)
    (hnc : 0 < nc_partial) (h0 : arg 0 < i_z - 2) (h1 : arg 1 < i_z - 2)
    (hxy : arg 0 ≠ arg 1)
    (hz0 : partial_ ((i_z - 2) * nc_partial) = 0)
    (hz1 : partial_ ((i_z - 1) * nc_partial) = 0) :
    reverse_powvv_op 0 i_z arg parameter cap_order taylor nc_partial partial_
        (arg 0 * nc_partial)
      = partial_ (arg 0 * nc_partial)
        + partial_ (i_z * nc_partial) * taylor (i_z * cap_order)
          * taylor (arg 1 * cap_order) / taylor (arg 0 * cap_order) ∧
    reverse_powvv_op 0 i_z arg parameter cap_order taylor nc_partial partial_
        (arg 1 * nc_partial)
      = partial_ (arg 1 * nc_partial)
        + partial_ (i_z * nc_partial) * taylor (i_z * cap_order)
          * taylor ((i_z - 2) * cap_order) := by
  obtain ⟨i, rfl⟩ : ∃ i, i_z = i + 2 := ⟨i_z - 2, by omega⟩
  have e2 : i + 2 - 2 = i := by omega
  have e1 : i + 2 - 1 = i + 1 := by omega
  rw [e2] at h0 h1 hz0
  rw [e1] at hz1
  have xa := slot_zero_ne (c := nc_partial) (show arg 0 ≠ i by omega) hnc
  have xb := slot_zero_ne (c := nc_partial) (show arg 0 ≠ i + 1 by omega) hnc
  have xc := slot_zero_ne (c := nc_partial) (show arg 0 ≠ i + 2 by omega) hnc
  have ya := slot_zero_ne (c := nc_partial) (show arg 1 ≠ i by omega) hnc
  have yb := slot_zero_ne (c := nc_partial) (show arg 1 ≠ i + 1 by omega) hnc
  have yc := slot_zero_ne (c := nc_partial) (show arg 1 ≠ i + 2 by omega) hnc
  have xy := slot_zero_ne (c := nc_partial) hxy hnc
  have ab := slot_zero_ne (c := nc_partial) (show i ≠ i + 1 by omega) hnc
  have ac := slot_zero_ne (c := nc_partial) (show i ≠ i + 2 by omega) hnc
  have bc := slot_zero_ne (c := nc_partial) (show i + 1 ≠ i + 2 by omega) hnc
  have r1 : List.range' 0 1 = [0] := rfl
  have r0 : List.range' 1 0 = [] := rfl
  simp only [reverse_powvv_op, reverse_exp_op, reverse_mulvv_op, reverse_log_op, e2, r1, r0,
    List.reverse_nil, List.reverse_cons, List.nil_append, List.foldl_cons, List.foldl_nil,
    Nat.add_zero, Nat.sub_self, Nat.zero_add, if_true, if_false, azmul_eq_mul,
    Nat.one_ne_zero, Nat.reduceAdd, Nat.reduceEqDiff, one_ne_zero, ↓reduceIte,
    Function.update_apply, Nat.add_sub_cancel]
  generalize arg 0 * nc_partial = X at *
  generalize arg 1 * nc_partial = Y at *
  generalize i * nc_partial = A at *
  generalize (i + 1) * nc_partial = B at *
  generalize (i + 2) * nc_partial = C at *
  simp [Function.update_apply, xa, xb, xc, ya, yb, yc, xy, ab, ac, bc, xa.symm, xb.symm, xc.symm,
    ya.symm, yb.symm, yc.symm, xy.symm, ab.symm, ac.symm, bc.symm, hz0, hz1]
  exact (div_eq_mul_inv _ _).symm

/-- The entries of the buffer after `forward_powvv_op_0` that the reverse
sweep of order zero reads. -/
theorem forward_powvv_op_0_entries [Mul K] (pow : K → K → K) (log : K → K)
    (i_z : Nat) (arg : Nat → Nat) (parameter : Nat → K) (cap_order : Nat) (taylor : Nat → K)
    (hcap : 0 < cap_order) (h0 : arg 0 < i_z - 2) (h1 : arg 1 < i_z - 2) :
    forward_powvv_op_0 pow log i_z arg parameter cap_order taylor (arg 0 * cap_order)
      = taylor (arg 0 * cap_order) ∧
    forward_powvv_op_0 pow log i_z arg parameter cap_order taylor (arg 1 * cap_order)
      = taylor (arg 1 * cap_order) ∧
    forward_powvv_op_0 pow log i_z arg parameter cap_order taylor ((i_z - 2) * cap_order)
      = log (taylor (arg 0 * cap_order)) ∧
    forward_powvv_op_0 pow log i_z arg parameter cap_order taylor (i_z * cap_order)
      = pow (taylor (arg 0 * cap_order)) (taylor (arg 1 * cap_order)) := by
  obtain ⟨i, rfl⟩ : ∃ i, i_z = i + 2 := ⟨i_z - 2, by omega⟩
  have e2 : i + 2 - 2 = i := by omega
  rw [e2] at h0 h1
  have eb : i * cap_order + cap_order = (i + 1) * cap_order := by
    rw [Nat.add_mul, Nat.one_mul]
  have ec : (i + 1) * cap_order + cap_order = (i + 2) * cap_order := by
    rw [Nat.add_mul (i + 1) 1, Nat.one_mul]
  have xa := slot_zero_ne (c := cap_order) (show arg 0 ≠ i by omega) hcap
  have xb := slot_zero_ne (c := cap_order) (show arg 0 ≠ i + 1 by omega) hcap
  have xc := slot_zero_ne (c := cap_order) (show arg 0 ≠ i + 2 by omega) hcap
  have ya := slot_zero_ne (c := cap_order) (show arg 1 ≠ i by omega) hcap
  have yb := slot_zero_ne (c := cap_order) (show arg 1 ≠ i + 1 by omega) hcap
  have yc := slot_zero_ne (c := cap_order) (show arg 1 ≠ i + 2 by omega) hcap
  have ab := slot_zero_ne (c := cap_order) (show i ≠ i + 1 by omega) hcap
  have ac := slot_zero_ne (c := cap_order) (show i ≠ i + 2 by omega) hcap
  have bc := slot_zero_ne (c := cap_order) (show i + 1 ≠ i + 2 by omega) hcap
  simp only [forward_powvv_op_0, e2, Nat.add_zero, eb, ec, Function.update_apply]
  generalize arg 0 * cap_order = X at *
  generalize arg 1 * cap_order = Y at *
  generalize i * cap_order = A at *
  generalize (i + 1) * cap_order = B at *
  generalize (i + 2) * cap_order = C at *
  simp [xa, xb, xc, ya, yb, yc, ab, ac, bc, ac.symm, bc.symm, ab.symm]

end ReversePowvv

/-! ## The `pv` variant: the constant `log(x)` and the product with `y` -/

section PowpvLog

variable {K : Type}

/-- A loop that stores at one entry leaves every other entry alone. -/
theorem foldl_update_ne (f : (Nat → K) → Nat → K) (a n : Nat) (h : n ≠ a) :
    ∀ (l : List Nat) (t : Nat → K),
      l.foldl (fun (t : Nat → K) (k : Nat) => Function.update t a (f t k)) t n = t n := by
  intro l
  induction l with
  | nil => intro t; rfl
  | cons k l ih =>
    intro t
    rw [List.foldl_cons, ih, Function.update_noteq h]

/-- Order `j` of the exponential recurrence stores only `z[j]`. -/
theorem forward_exp_order_ne [Add K] [Mul K] [Div K] [NatCast K]
    (i_z i_x cap_order : Nat) (t : Nat → K) (j n : Nat) (h : n ≠ i_z * cap_order + j) :
    forward_exp_order i_z i_x cap_order t j n = t n := by
  unfold forward_exp_order
  rw [Function.update_noteq h,
    foldl_update_ne (fun (t : Nat → K) (k : Nat) =>
      t (i_z * cap_order + j) + (k : K) * t (i_x * cap_order + k)
        * t (i_z * cap_order + (j - k))) (i_z * cap_order + j) n h,
    Function.update_noteq h]

/-- A call of `forward_exp_op` with `p ≥ 1` stores only `z[p..q]`. -/
theorem forward_exp_op_frame [Add K] [Mul K] [Div K] [NatCast K] (exp : K → K)
    (p q i_z i_x cap_order : Nat) (t : Nat → K) (n : Nat) (hp : 1 ≤ p)
    (h : ∀ j, p ≤ j → j ≤ q → n ≠ i_z * cap_order + j) :
    forward_exp_op exp p q i_z i_x cap_order t n = t n := by
  have hp0 : p ≠ 0 := by omega
  unfold forward_exp_op
  simp only [if_neg hp0]
  apply foldl_range'_frame _ (i_z * cap_order)
    (fun t j n hn => forward_exp_order_ne i_z i_x cap_order t j n hn)
  intro j h1 h2
  exact h j h1 (by omega)

/-- The loop of `forward_mulpv_op` stores only `z[p..q]`, and stores there the
parameter times the coefficient of `y`, the slot of `y` being another one. -/
theorem forward_mulpv_op_value [Mul K] (p q i_z : Nat) (arg : Nat → Nat)
    (parameter : Nat → K) (cap_order : Nat) (t : Nat → K)
    (hq : q < cap_order) (hne : arg 1 ≠ i_z) :
    (∀ n, (∀ j, p ≤ j → j ≤ q → n ≠ i_z * cap_order + j) →
      forward_mulpv_op p q i_z arg parameter cap_order t n = t n) ∧
    (∀ d, p ≤ d → d ≤ q →
      forward_mulpv_op p q i_z arg parameter cap_order t (i_z * cap_order + d)
        = parameter (arg 0) * t (arg 1 * cap_order + d)) := by
  have hstep : ∀ (t : Nat → K) (j n : Nat), n ≠ i_z * cap_order + j →
      (fun (t : Nat → K) (d : Nat) =>
        Function.update t (i_z * cap_order + d) (parameter (arg 0) * t (arg 1 * cap_order + d)))
        t j n = t n :=
    fun t j n hn => Function.update_noteq hn _ _
  constructor
  · intro n hn
    unfold forward_mulpv_op
    apply foldl_range'_frame _ (i_z * cap_order) hstep
    intro j h1 h2
    exact hn j h1 (by omega)
  · intro d h1 h2
    unfold forward_mulpv_op
    rw [foldl_range'_value _ (i_z * cap_order) hstep (q + 1 - p) p t d h1 (by omega)]
    rw [Function.update_same,
      foldl_range'_frame _ (i_z * cap_order) hstep (d - p) p t (arg 1 * cap_order + d)
        (fun j _ _ => slot_offset_ne hne (by omega) (by omega))]

/-- The loop `z_0 = log(x)` of `forward_powpv_op` with `p = 0`: it stores only
`z_0[0..q]`, namely `log(x)` at order zero and `0` above. -/
theorem powpv_log_loop [Zero K] (log : K → K) (x : K) (q z_0 : Nat) (t : Nat → K) :
    (∀ n, (∀ d, d ≤ q → n ≠ z_0 + d) →
      (List.range' 0 (q + 1 - 0)).foldl
        (fun (t : Nat → K) (d : Nat) =>
          if d = 0 then Function.update t (z_0 + d) (log x)
          else Function.update t (z_0 + d) 0) t n = t n) ∧
    (∀ d, d ≤ q →
      (List.range' 0 (q + 1 - 0)).foldl
        (fun (t : Nat → K) (d : Nat) =>
          if d = 0 then Function.update t (z_0 + d) (log x)
          else Function.update t (z_0 + d) 0) t (z_0 + d) = if d = 0 then log x else 0) := by
  have hstep : ∀ (t : Nat → K) (j n : Nat), n ≠ z_0 + j →
      (fun (t : Nat → K) (d : Nat) =>
          if d = 0 then Function.update t (z_0 + d) (log x)
          else Function.update t (z_0 + d) 0) t j n = t n := by
    intro t j n hn
    dsimp only
    split_ifs
    · exact Function.update_noteq hn _ _
    · exact Function.update_noteq hn _ _
  constructor
  · intro n hn
    apply foldl_range'_frame _ z_0 hstep
    intro j _ h2
    exact hn j (by omega)
  · intro d hd
    rw [foldl_range'_value _ z_0 hstep (q + 1 - 0) 0 t d (Nat.zero_le d) (by omega)]
    split_ifs
    · exact Function.update_same _ _ _
    · exact Function.update_same _ _ _

/-- C22. `pow` with a parameter base: for `q < cap_order`, `y` a variable in a
slot before `i_z - 2` and no capacity error, `forward_powpv_op` with `p = 0`
returns a buffer whose first auxiliary slot holds the Taylor coefficients of
the constant `log(x)`, `z_0[0] = log(parameter[arg[0]])` and `z_0[d] = 0` for
`1 ≤ d ≤ q`, and whose second auxiliary slot holds `z_1[d] = log(x) * y[d]` for
every `0 ≤ d ≤ q`: the multiply step reads its parameter operand from the
Taylor buffer at offset `(i_z - 2) * cap_order`. -/
theorem forward_powpv_op_log_slots [Zero K] [Add K] [Mul K] [Div K] [NatCast K]
    (pow : K → K → K) (log exp : K → K) (addr_max q i_z : Nat) (arg : Nat → Nat)
    (parameter : Nat → K) (cap_order : Nat) (taylor : Nat → K)
    (hq : q < cap_order) (h1 : arg 1 < i_z - 2)
    (hcap : (i_z - 2) * cap_order ≤ addr_max) :
    ∃ t, forward_powpv_op pow log exp addr_max 0 q i_z arg parameter cap_order taylor
        = Except.ok t ∧
      t ((i_z - 2) * cap_order) = log (parameter (arg 0)) ∧
      (∀ d, 1 ≤ d → d ≤ q → t ((i_z - 2) * cap_order + d) = 0) ∧
      (∀ d, d ≤ q →
        t ((i_z - 1) * cap_order + d)
          = log (parameter (arg 0)) * taylor (arg 1 * cap_order + d)) := by
  obtain ⟨i, rfl⟩ : ∃ i, i_z = i + 2 := ⟨i_z - 2, by omega⟩
  have e2 : i + 2 - 2 = i := by omega
  have e1 : i + 2 - 1 = i + 1 := by omega
  rw [e2] at h1 hcap
  rw [e2, e1]
  have hadr : addr_t addr_max (i * cap_order) = i * cap_order :=
    Nat.mod_eq_of_lt (by omega)
  unfold forward_powpv_op
  simp only [e2, ge_iff_le, if_pos hcap, if_true, Nat.zero_add]
  obtain ⟨hlf, hlv⟩ := powpv_log_loop log (parameter (arg 0)) q (i * cap_order) taylor
  generalize List.foldl _ taylor (List.range' 0 (q + 1 - 0)) = T1 at hlf hlv ⊢
  have hne1 : (fun k => if k = 0 then addr_t addr_max (i * cap_order) else arg 1) 1 ≠ i + 1 := by
    simp only [one_ne_zero, if_false]
    omega
  obtain ⟨hmf, hmv⟩ := forward_mulpv_op_value 0 q (i + 1)
    (fun k => if k = 0 then addr_t addr_max (i * cap_order) else arg 1) T1 cap_order T1 hq hne1
  generalize forward_mulpv_op 0 q (i + 1) _ T1 cap_order T1 = T2 at hmf hmv ⊢
  simp only [one_ne_zero, if_false, if_true, hadr] at hmv
  generalize pow _ _ = v
  have hlog : T1 (i * cap_order) = log (parameter (arg 0)) := by
    simpa using hlv 0 (Nat.zero_le q)
  have key : ∀ t : Nat → K, (∀ n, (∀ j, j ≤ q → n ≠ (i + 2) * cap_order + j) → t n = T2 n) →
      t (i * cap_order) = log (parameter (arg 0)) ∧
      (∀ d, 1 ≤ d → d ≤ q → t (i * cap_order + d) = 0) ∧
      (∀ d, d ≤ q →
        t ((i + 1) * cap_order + d)
          = log (parameter (arg 0)) * taylor (arg 1 * cap_order + d)) := by
    intro t ht
    have hz0 : ∀ d, d ≤ q → t (i * cap_order + d) = T1 (i * cap_order + d) := by
      intro d hd
      rw [ht _ (fun j hj => slot_offset_ne (show i ≠ i + 2 by omega) (by omega) (by omega)),
        hmf _ (fun j _ hj => slot_offset_ne (show i ≠ i + 1 by omega) (by omega) (by omega))]
    refine ⟨?_, ?_, ?_⟩
    · have h := hz0 0 (Nat.zero_le q)
      rw [Nat.add_zero] at h
      rw [h, hlog]
    · intro d hd1 hd
      have hd0 : d ≠ 0 := by omega
      rw [hz0 d hd, hlv d hd, if_neg hd0]
    · intro d hd
      rw [ht _ (fun j hj => slot_offset_ne (show i + 1 ≠ i + 2 by omega) (by omega) (by omega)),
        hmv d (Nat.zero_le d) hd, hlog,
        hlf _ (fun j hj => slot_offset_ne (show arg 1 ≠ i by omega) (by omega) (by omega))]
  split_ifs with hq1
  · refine ⟨_, rfl, key _ ?_⟩
    intro n hn
    rw [forward_exp_op_frame exp 1 q (i + 2) (i + 1) cap_order _ n le_rfl
      (fun j _ hj => hn j hj), Function.update_noteq (hn 0 (Nat.zero_le q))]
  · refine ⟨_, rfl, key _ ?_⟩
    intro n hn
    rw [Function.update_noteq (hn 0 (Nat.zero_le q))]

/-- Witness for C22: `x = parameter[0] = 3`, `y = (2, 1, 0, 0)` in slot 0,
result slots 1, 2, 3, `cap_order = 4`, `q = 3`, addresses up to 255. -/
theorem forward_powpv_op_log_slots_witness :
    (3 < 4 ∧ exArg 1 < 3 - 2 ∧ (3 - 2) * 4 ≤ 255) ∧
    ∃ t, forward_powpv_op ratPow exLog exExp 255 0 3 3 exArg exPar 4 exTaylor = Except.ok t ∧
      t ((3 - 2) * 4) = exLog (exPar (exArg 0)) ∧
      (∀ d, 1 ≤ d → d ≤ 3 → t ((3 - 2) * 4 + d) = 0) ∧
      (∀ d, d ≤ 3 →
        t ((3 - 1) * 4 + d) = exLog (exPar (exArg 0)) * exTaylor (exArg 1 * 4 + d)) :=
  ⟨⟨by decide, by decide, by decide⟩,
    forward_powpv_op_log_slots ratPow exLog exExp 255 3 3 exArg exPar 4 exTaylor
      (by decide) (by decide) (by decide)⟩

end PowpvLog

/-! ## The Cauchy square of a sequence -/

section CauchySquare

variable {K : Type}

/-- The coefficients of the square of a power series are the Cauchy squares. -/
theorem coeff_mk_mul_self [CommRing K] (x : Nat → K) (n : Nat) :
    PowerSeries.coeff K n (PowerSeries.mk x * PowerSeries.mk x)
      = ∑ i ∈ Finset.range (n + 1), x i * x (n - i) := by
  rw [PowerSeries.coeff_mul,
    Finset.Nat.sum_antidiagonal_eq_sum_range_succ_mk]
  simp [PowerSeries.coeff_mk]

/-- The power rule for the Cauchy square `c = x * x` of a sequence:
`sum_{k=1..j} k c[k] x[j-k] = 2 sum_{k=1..j} k x[k] c[j-k]`, the coefficient form
of `x * (x * x)' = 2 * x' * (x * x)`. -/
theorem cauchy_square_rule [CommRing K] (x : Nat → K) (j : Nat) :
    ∑ k ∈ Finset.Icc 1 j,
        (k : K) * (∑ i ∈ Finset.range (k + 1), x i * x (k - i)) * x (j - k)
      = 2 * ∑ k ∈ Finset.Icc 1 j,
        (k : K) * x k * (∑ i ∈ Finset.range (j - k + 1), x i * x (j - k - i)) := by
  cases j with
  | zero => simp
  | succ n =>
    have hps : PowerSeries.derivativeFun (PowerSeries.mk x * PowerSeries.mk x)
          * PowerSeries.mk x
        = PowerSeries.derivativeFun (PowerSeries.mk x)
            * (PowerSeries.mk x * PowerSeries.mk x)
          + PowerSeries.derivativeFun (PowerSeries.mk x)
            * (PowerSeries.mk x * PowerSeries.mk x) := by
      rw [PowerSeries.derivativeFun_mul]
      simp only [smul_eq_mul]
      ring
    have hc := congrArg (PowerSeries.coeff K n) hps
    rw [map_add, PowerSeries.coeff_mul, PowerSeries.coeff_mul,
      Finset.Nat.sum_antidiagonal_eq_sum_range_succ_mk,
      Finset.Nat.sum_antidiagonal_eq_sum_range_succ_mk] at hc
    simp only [PowerSeries.coeff_derivativeFun, coeff_mk_mul_self, PowerSeries.coeff_mk] at hc
    rw [← Nat.Ico_succ_right, two_mul]
    have e : Finset.Ico 1 (n + 1).succ = Finset.Ico (0 + 1) (n + 1 + 1) := rfl
    rw [e, ← Finset.sum_Ico_add' _ 0 (n + 1) 1, ← Finset.sum_Ico_add' _ 0 (n + 1) 1,
      ← Finset.range_eq_Ico]
    simp only [Nat.add_sub_add_right, Nat.cast_add, Nat.cast_one]
    refine Eq.trans (Finset.sum_congr rfl fun k _ => ?_)
      (hc.trans (congrArg₂ (· + ·) (Finset.sum_congr rfl fun k _ => ?_)
        (Finset.sum_congr rfl fun k _ => ?_)))
    · ring
    · ring
    · ring

end CauchySquare

/-! ## Exponents one and two -/

section PowvpSmallExponent

variable {K : Type}

/-- C24. Exponent two gives the Cauchy square: over a field of characteristic
zero, for `q < cap_order`, `x` and `z` in distinct slots and `x[0] ≠ 0`, if
`y = 2` and `pow(x[0], 2) = x[0] * x[0]`, then `forward_powvp_op` with `p = 0`
yields `z[j] = sum_{k=0..j} x[k] * x[j-k]` for every `0 ≤ j ≤ q`. -/
theorem forward_powvp_op_exponent_two [Field K] [CharZero K] [DecidableEq K]
    (pow : K → K → K) (q i_z : Nat) (arg : Nat → Nat) (parameter : Nat → K)
    (cap_order : Nat) (taylor : Nat → K)
    (hq : q < cap_order) (hne : arg 0 ≠ i_z) (hx0 : taylor (arg 0 * cap_order) ≠ 0)
    (hy : parameter (arg 1) = 2)
    (hpow : pow (taylor (arg 0 * cap_order)) 2
      = taylor (arg 0 * cap_order) * taylor (arg 0 * cap_order)) :
    ∀ j, j ≤ q →
      forward_powvp_op pow 0 q i_z arg parameter cap_order taylor (i_z * cap_order + j)
        = ∑ k ∈ Finset.range (j + 1),
            taylor (arg 0 * cap_order + k) * taylor (arg 0 * cap_order + (j - k)) := by
  intro j
  induction j using Nat.strong_induction_on with
  | _ j ih =>
    intro hj
    rcases Nat.eq_zero_or_pos j with h0 | hpos
    · subst h0
      rw [Nat.add_zero, forward_powvp_op_z0, hy, hpow]
      simp
    · have hz0 : forward_powvp_op pow 0 q i_z arg parameter cap_order taylor (i_z * cap_order)
          = taylor (arg 0 * cap_order) * taylor (arg 0 * cap_order) := by
        simpa using ih 0 hpos (by omega)
      obtain ⟨i, rfl⟩ : ∃ i, j = i + 1 := ⟨j - 1, by omega⟩
      have hrule := cauchy_square_rule (fun n => taylor (arg 0 * cap_order + n)) (i + 1)
      rw [Finset.sum_Icc_succ_top (by omega), Finset.sum_Icc_succ_top (by omega)] at hrule
      simp only [Nat.sub_self, Nat.add_zero, Nat.zero_add, Finset.sum_range_one,
        Nat.sub_zero] at hrule
      have hS : ∑ k ∈ Finset.Ico 1 (i + 1), (k : K) *
            (2 * taylor (arg 0 * cap_order + k)
                * forward_powvp_op pow 0 q i_z arg parameter cap_order taylor
                    (i_z * cap_order + (i + 1 - k))
              - forward_powvp_op pow 0 q i_z arg parameter cap_order taylor
                    (i_z * cap_order + k)
                * taylor (arg 0 * cap_order + (i + 1 - k)))
          = 2 * (∑ k ∈ Finset.Icc 1 i, (k : K) * taylor (arg 0 * cap_order + k)
              * ∑ n ∈ Finset.range (i + 1 - k + 1),
                  taylor (arg 0 * cap_order + n) * taylor (arg 0 * cap_order + (i + 1 - k - n)))
            - ∑ k ∈ Finset.Icc 1 i,
                (k : K) * (∑ n ∈ Finset.range (k + 1),
                  taylor (arg 0 * cap_order + n) * taylor (arg 0 * cap_order + (k - n)))
                * taylor (arg 0 * cap_order + (i + 1 - k)) := by
        rw [Nat.Ico_succ_right, Finset.mul_sum, ← Finset.sum_sub_distrib]
        apply Finset.sum_congr rfl
        intro k hk
        rw [Finset.mem_Icc] at hk
        rw [ih k (by omega) (by omega), ih (i + 1 - k) (by omega) (by omega)]
        ring
      rw [forward_powvp_op_coef pow q i_z arg parameter cap_order taylor (i + 1) hq hne hpos hj,
        powvp_sum_eq, hy, hz0]
      simp only [CondExpEq, if_neg hx0]
      rw [hS]
      have hi : ((i + 1 : Nat) : K) ≠ 0 := Nat.cast_ne_zero.mpr (by omega)
      generalize (∑ k ∈ Finset.Icc 1 i, (k : K) * taylor (arg 0 * cap_order + k)
              * ∑ n ∈ Finset.range (i + 1 - k + 1),
                  taylor (arg 0 * cap_order + n) * taylor (arg 0 * cap_order + (i + 1 - k - n)))
        = B at hrule ⊢
      generalize (∑ k ∈ Finset.Icc 1 i,
                (k : K) * (∑ n ∈ Finset.range (k + 1),
                  taylor (arg 0 * cap_order + n) * taylor (arg 0 * cap_order + (k - n)))
                * taylor (arg 0 * cap_order + (i + 1 - k))) = A at hrule ⊢
      generalize (∑ k ∈ Finset.range (i + 1 + 1),
            taylor (arg 0 * cap_order + k) * taylor (arg 0 * cap_order + (i + 1 - k)))
        = C at hrule ⊢
      generalize ((i + 1 : Nat) : K) = c at hi hrule ⊢
      field_simp
      linear_combination (-1) * hrule

/-- Witness for C24 on `x = (2, 1, 0, 0)`, `y = 2`, `q = 3`, at order `j = 1`. -/
theorem forward_powvp_op_exponent_two_witness :
    (3 < 4 ∧ exArg 0 ≠ 1 ∧ exTaylor (exArg 0 * 4) ≠ 0 ∧ exParTwo (exArg 1) = 2 ∧
      ratPow (exTaylor (exArg 0 * 4)) 2 = exTaylor (exArg 0 * 4) * exTaylor (exArg 0 * 4)) ∧
    forward_powvp_op ratPow 0 3 1 exArg exParTwo 4 exTaylor (1 * 4 + 1)
      = ∑ k ∈ Finset.range (1 + 1), exTaylor (exArg 0 * 4 + k) * exTaylor (exArg 0 * 4 + (1 - k)) :=
  have h3 : exTaylor (exArg 0 * 4) ≠ 0 := by norm_num [exTaylor, exArg]
  have h5 : ratPow (exTaylor (exArg 0 * 4)) 2
      = exTaylor (exArg 0 * 4) * exTaylor (exArg 0 * 4) := by
    norm_num [ratPow, exTaylor, exArg]
  ⟨⟨by decide, by decide, h3, rfl, h5⟩,
    forward_powvp_op_exponent_two ratPow 3 1 exArg exParTwo 4 exTaylor
      (by decide) (by decide) h3 rfl h5 1 (by decide)⟩

end PowvpSmallExponent

/-! ## Frame and causality of `forward_powvp_op` -/

section PowvpFrame

variable {K : Type} [Zero K] [Add K] [Sub K] [Mul K] [Div K] [NatCast K] [DecidableEq K]

/-- C25. Frame of `forward_powvp_op`: for `q < cap_order` and `arg[0] ≠ i_z` the
call changes only the entries `z[p..q]` of the result slot `i_z`: every other
entry of the buffer is unchanged, in particular the coefficients of every other
slot, those of `x`, and the entries `z[k]` with `k < p` or `k > q`.  The
parameter vector is read only; the routine returns no new one. -/
theorem forward_powvp_op_changes_only (pow : K → K → K) (p q i_z : Nat) (arg : Nat → Nat)
    (parameter : Nat → K) (cap_order : Nat) (taylor : Nat → K)
    (hq : q < cap_order) (hne : arg 0 ≠ i_z) :
    (∀ n, (∀ j, p ≤ j → j ≤ q → n ≠ i_z * cap_order + j) →
      forward_powvp_op pow p q i_z arg parameter cap_order taylor n = taylor n) ∧
    (∀ i k, i ≠ i_z → k < cap_order →
      forward_powvp_op pow p q i_z arg parameter cap_order taylor (i * cap_order + k)
        = taylor (i * cap_order + k)) ∧
    (∀ k, k < cap_order →
      forward_powvp_op pow p q i_z arg parameter cap_order taylor (arg 0 * cap_order + k)
        = taylor (arg 0 * cap_order + k)) ∧
    (∀ k, k < p ∨ q < k →
      forward_powvp_op pow p q i_z arg parameter cap_order taylor (i_z * cap_order + k)
        = taylor (i_z * cap_order + k)) := by
  have hslot : ∀ i k, i ≠ i_z → k < cap_order →
      forward_powvp_op pow p q i_z arg parameter cap_order taylor (i * cap_order + k)
        = taylor (i * cap_order + k) := by
    intro i k hi hk
    apply forward_powvp_op_frame
    intro j _ hj
    exact slot_offset_ne hi hk (by omega)
  refine ⟨fun n hn => forward_powvp_op_frame pow p q i_z arg parameter cap_order taylor n hn,
    hslot, fun k hk => hslot (arg 0) k hne hk, fun k hk => ?_⟩
  apply forward_powvp_op_frame
  intro j h1 h2
  omega

/-- Witness for C25: a call with `p = 1`, `q = 2` on slot 1 (`cap_order = 4`)
leaves `z[3]` as it was. -/
theorem forward_powvp_op_changes_only_witness :
    (2 < 4 ∧ exArg 0 ≠ 1) ∧
    forward_powvp_op ratPow 1 2 1 exArg exPar 4 exTaylor (1 * 4 + 3) = exTaylor (1 * 4 + 3) :=
  ⟨⟨by decide, by decide⟩,
    (forward_powvp_op_changes_only ratPow 1 2 1 exArg exPar 4 exTaylor
      (by decide) (by decide)).2.2.2 3 (Or.inr (by decide))⟩

/-- C26. Causality of the recurrence of `forward_powvp_op` with `p = 0`, for any
`Base`: for `q < cap_order`, `arg[0] ≠ i_z` and `j ≤ q`, two inputs that agree
on `parameter[arg[1]]` and on `x[0..j]` give the same `z[j]`, whatever the
other entries of the two buffers (the prior contents of slot `i_z`, the
coefficients `x[j+1..]`) and of the two parameter vectors. -/
theorem forward_powvp_op_causal (pow : K → K → K) (q i_z : Nat) (arg : Nat → Nat)
    (parameter₁ parameter₂ : Nat → K) (cap_order : Nat) (taylor₁ taylor₂ : Nat → K) (j : Nat)
    (hq : q < cap_order) (hne : arg 0 ≠ i_z) (hj : j ≤ q)
    (hy : parameter₁ (arg 1) = parameter₂ (arg 1))
    (hx : ∀ k, k ≤ j → taylor₁ (arg 0 * cap_order + k) = taylor₂ (arg 0 * cap_order + k)) :
    forward_powvp_op pow 0 q i_z arg parameter₁ cap_order taylor₁ (i_z * cap_order + j)
      = forward_powvp_op pow 0 q i_z arg parameter₂ cap_order taylor₂ (i_z * cap_order + j) := by
  induction j using Nat.strong_induction_on with
  | _ j ih =>
    have hx0 : taylor₁ (arg 0 * cap_order) = taylor₂ (arg 0 * cap_order) := by
      simpa using hx 0 (Nat.zero_le j)
    have hz : ∀ k, k < j →
        forward_powvp_op pow 0 q i_z arg parameter₁ cap_order taylor₁ (i_z * cap_order + k)
          = forward_powvp_op pow 0 q i_z arg parameter₂ cap_order taylor₂
              (i_z * cap_order + k) :=
      fun k hk => ih k hk (by omega) (fun i hi => hx i (by omega))
    rcases Nat.eq_zero_or_pos j with h0 | hpos
    · subst h0
      rw [Nat.add_zero, forward_powvp_op_z0, forward_powvp_op_z0, hx0, hy]
    · rw [forward_powvp_op_coef pow q i_z arg parameter₁ cap_order taylor₁ j hq hne hpos hj,
        forward_powvp_op_coef pow q i_z arg parameter₂ cap_order taylor₂ j hq hne hpos hj,
        hx0, hy, hx j (le_refl j)]
      have hz0 := hz 0 hpos
      rw [Nat.add_zero] at hz0
      rw [hz0, powvp_sum_congr (parameter₂ (arg 1))
        (fun k => taylor₁ (arg 0 * cap_order + k))
        (fun k => forward_powvp_op pow 0 q i_z arg parameter₁ cap_order taylor₁
          (i_z * cap_order + k))
        (fun k => taylor₂ (arg 0 * cap_order + k))
        (fun k => forward_powvp_op pow 0 q i_z arg parameter₂ cap_order taylor₂
          (i_z * cap_order + k)) j
        (fun k _ hk => hx k (by omega)) (fun k _ hk => hz k hk)]

/-- Witness for C26: the buffers `(2, 1, 0, 0, 0, ...)` and `(2, 1, 9, 9, 9, ...)`
agree on `x[0..1]` and give the same `z[1]` (`q = 3`, `z` in slot 1). -/
theorem forward_powvp_op_causal_witness :
    (3 < 4 ∧ exArg 0 ≠ 1 ∧ 1 ≤ 3 ∧ exPar (exArg 1) = exPar (exArg 1) ∧
      ∀ k, k ≤ 1 → exTaylor (exArg 0 * 4 + k) = exTaylorAlt (exArg 0 * 4 + k)) ∧
    forward_powvp_op ratPow 0 3 1 exArg exPar 4 exTaylor (1 * 4 + 1)
      = forward_powvp_op ratPow 0 3 1 exArg exPar 4 exTaylorAlt (1 * 4 + 1) :=
  have hx : ∀ k, k ≤ 1 → exTaylor (exArg 0 * 4 + k) = exTaylorAlt (exArg 0 * 4 + k) := by
    intro k hk
    interval_cases k <;> simp [exTaylor, exTaylorAlt, exArg]
  ⟨⟨by decide, by decide, by decide, rfl, hx⟩,
    forward_powvp_op_causal ratPow 3 1 exArg exPar exPar 4 exTaylor exTaylorAlt 1
      (by decide) (by decide) (by decide) rfl hx⟩

end PowvpFrame

end local_op

/-! ## `Value` -/

section ValueClaims

/-- C13. `Value(x)` fails exactly when `x` is a variable or a dynamic parameter,
that is when `x` is not classified constant; for a constant `x` it returns the
stored `x.value_`; and any value it returns is the `value_` of a constant. -/
theorem Value_fails_iff {Base : Type} (x : AD Base) :
    (Value x = Except.error value_error_msg ↔ (Variable x = true ∨ Dynamic x = true)) ∧
    ((Variable x = true ∨ Dynamic x = true) ↔ x.ad_type_ ≠ ad_type_enum.constant_enum) ∧
    (Variable x = false → Dynamic x = false → Value x = Except.ok x.value_) ∧
    (∀ v, Value x = Except.ok v →
      x.ad_type_ = ad_type_enum.constant_enum ∧ v = x.value_) := by
  obtain ⟨v, tid, ta, ty⟩ := x
  cases ty
  · refine ⟨by simp [Value, Variable, Dynamic], by simp [Variable, Dynamic],
      fun _ _ => rfl, fun w hw => ⟨rfl, ?_⟩⟩
    simp [Value, Variable, Dynamic] at hw
    exact hw.symm
  · simp [Value, Variable, Dynamic]
  · simp [Value, Variable, Dynamic]

/-- Witness for C13 on a constant with value `3`. -/
theorem Value_fails_iff_witness :
    (Variable (AD.mk (3 : ℚ) 0 0 ad_type_enum.constant_enum) = false ∧
      Dynamic (AD.mk (3 : ℚ) 0 0 ad_type_enum.constant_enum) = false) ∧
    Value (AD.mk (3 : ℚ) 0 0 ad_type_enum.constant_enum) = Except.ok 3 :=
  ⟨⟨rfl, rfl⟩,
    (Value_fails_iff (AD.mk (3 : ℚ) 0 0 ad_type_enum.constant_enum)).2.2.1 rfl rfl⟩

end ValueClaims

/-! ## The atomic linear ODE: `set` and `forward` -/

section LinOde

variable {Base : Type}

/-- The pair `get` finds under `call_id`, in terms of the thread's call vector
(empty for a null pointer). -/
theorem atomic_lin_ode_get_eq (work_ : Nat → Option (List (call_struct Base)))
    (thread call_id : Nat) :
    atomic_lin_ode.get work_ thread call_id
      = (((work_ thread).getD []).get? call_id).map (fun call => (call.r, call.n_step)) := by
  unfold atomic_lin_ode.get
  cases work_ thread <;> simp

/-- The call vector of the calling thread after `set`. -/
theorem atomic_lin_ode_set_vec (work_ : Nat → Option (List (call_struct Base)))
    (thread : Nat) (r : Base) (n_step : Nat) :
    (atomic_lin_ode.set work_ thread r n_step).2 thread
      = some ((work_ thread).getD [] ++ [{ r := r, n_step := n_step, thread := thread }]) := by
  unfold atomic_lin_ode.set
  cases h : work_ thread <;> simp [h]

/-- The index `set` returns. -/
theorem atomic_lin_ode_set_id (work_ : Nat → Option (List (call_struct Base)))
    (thread : Nat) (r : Base) (n_step : Nat) :
    (atomic_lin_ode.set work_ thread r n_step).1 = ((work_ thread).getD []).length := by
  unfold atomic_lin_ode.set
  cases h : work_ thread <;> simp [h]

/-- The call vectors of the other threads after `set`. -/
theorem atomic_lin_ode_set_other (work_ : Nat → Option (List (call_struct Base)))
    (thread : Nat) (r : Base) (n_step : Nat) (t : Nat) (ht : t ≠ thread) :
    (atomic_lin_ode.set work_ thread r n_step).2 t = work_ t := by
  unfold atomic_lin_ode.set
  cases h : work_ thread <;> simp [h, Function.update_noteq ht]

/-- A sequence of calls of `set` on one thread: the indices returned and the
call vector of the thread at the end. -/
theorem atomic_lin_ode_set_fold (thread : Nat) (cs : List (Base × Nat)) :
    ∀ (ids : List Nat) (work_ : Nat → Option (List (call_struct Base))),
      (cs.foldl (fun (acc : List Nat × (Nat → Option (List (call_struct Base))))
          (c : Base × Nat) =>
          (acc.1 ++ [(atomic_lin_ode.set acc.2 thread c.1 c.2).1],
            (atomic_lin_ode.set acc.2 thread c.1 c.2).2)) (ids, work_)).1
        = ids ++ List.range' ((work_ thread).getD []).length cs.length ∧
      ((cs.foldl (fun (acc : List Nat × (Nat → Option (List (call_struct Base))))
          (c : Base × Nat) =>
          (acc.1 ++ [(atomic_lin_ode.set acc.2 thread c.1 c.2).1],
            (atomic_lin_ode.set acc.2 thread c.1 c.2).2)) (ids, work_)).2 thread).getD []
        = (work_ thread).getD []
          ++ cs.map (fun c => { r := c.1, n_step := c.2, thread := thread }) := by
  induction cs with
  | nil => intro ids work_; simp
  | cons c cs ih =>
    intro ids work_
    rw [List.foldl_cons]
    obtain ⟨h1, h2⟩ := ih (ids ++ [(atomic_lin_ode.set work_ thread c.1 c.2).1])
      (atomic_lin_ode.set work_ thread c.1 c.2).2
    rw [h1, h2, atomic_lin_ode_set_vec, atomic_lin_ode_set_id]
    simp [List.range'_succ]

/-- C19. `atomic_lin_ode::set` stores the call information and returns its
index: it returns the number of calls the thread had stored (zero for a null
pointer), appends exactly one record with the fields `r`, `n_step` and the
thread number, leaves the earlier records and the other threads' stores
unchanged, and the returned index retrieves `(r, n_step)`; successive calls on
one thread, starting from a null pointer, return `0, 1, 2, ...` and afterwards
every returned index still retrieves the pair it was given. -/
theorem atomic_lin_ode_set_stores (work_ : Nat → Option (List (call_struct Base)))
    (thread : Nat) (r : Base) (n_step : Nat) :
    (atomic_lin_ode.set work_ thread r n_step).1 = ((work_ thread).getD []).length ∧
    (atomic_lin_ode.set work_ thread r n_step).2 thread
      = some ((work_ thread).getD [] ++ [{ r := r, n_step := n_step, thread := thread }]) ∧
    (∀ t, t ≠ thread → (atomic_lin_ode.set work_ thread r n_step).2 t = work_ t) ∧
    (∀ i, i < ((work_ thread).getD []).length →
      atomic_lin_ode.get (atomic_lin_ode.set work_ thread r n_step).2 thread i
        = atomic_lin_ode.get work_ thread i) ∧
    atomic_lin_ode.get (atomic_lin_ode.set work_ thread r n_step).2 thread
      (atomic_lin_ode.set work_ thread r n_step).1 = some (r, n_step) ∧
    (∀ (cs : List (Base × Nat)), work_ thread = none →
      (cs.foldl (fun (acc : List Nat × (Nat → Option (List (call_struct Base))))
          (c : Base × Nat) =>
          (acc.1 ++ [(atomic_lin_ode.set acc.2 thread c.1 c.2).1],
            (atomic_lin_ode.set acc.2 thread c.1 c.2).2)) ([], work_)).1
        = List.range cs.length ∧
      ∀ i, i < cs.length →
        atomic_lin_ode.get
          (cs.foldl (fun (acc : List Nat × (Nat → Option (List (call_struct Base))))
            (c : Base × Nat) =>
            (acc.1 ++ [(atomic_lin_ode.set acc.2 thread c.1 c.2).1],
              (atomic_lin_ode.set acc.2 thread c.1 c.2).2)) ([], work_)).2 thread i
          = cs.get? i) := by
  refine ⟨atomic_lin_ode_set_id work_ thread r n_step,
    atomic_lin_ode_set_vec work_ thread r n_step,
    atomic_lin_ode_set_other work_ thread r n_step, ?_, ?_, ?_⟩
  · intro i hi
    rw [atomic_lin_ode_get_eq, atomic_lin_ode_get_eq, atomic_lin_ode_set_vec]
    simp [List.getElem?_append_left hi]
  · rw [atomic_lin_ode_get_eq, atomic_lin_ode_set_vec, atomic_lin_ode_set_id]
    simp
  · intro cs hnull
    obtain ⟨h1, h2⟩ := atomic_lin_ode_set_fold thread cs [] work_
    refine ⟨?_, ?_⟩
    · rw [h1, hnull]
      simp [List.range_eq_range']
    · intro i hi
      rw [atomic_lin_ode_get_eq, h2, hnull]
      simp [List.getElem?_map]
      cases h : cs[i]? <;> simp

/-- Witness for C19: two calls on thread `0` of a store with null pointers. -/
theorem atomic_lin_ode_set_stores_witness :
    exWorkNull 0 = none ∧
    ([((1 : ℚ), 2), (3, 4)].foldl
        (fun (acc : List Nat × (Nat → Option (List (call_struct ℚ)))) (c : ℚ × Nat) =>
          (acc.1 ++ [(atomic_lin_ode.set acc.2 0 c.1 c.2).1],
            (atomic_lin_ode.set acc.2 0 c.1 c.2).2)) ([], exWorkNull)).1
      = List.range [((1 : ℚ), 2), (3, 4)].length ∧
    ∀ i, i < [((1 : ℚ), 2), (3, 4)].length →
      atomic_lin_ode.get
        ([((1 : ℚ), 2), (3, 4)].foldl
          (fun (acc : List Nat × (Nat → Option (List (call_struct ℚ)))) (c : ℚ × Nat) =>
            (acc.1 ++ [(atomic_lin_ode.set acc.2 0 c.1 c.2).1],
              (atomic_lin_ode.set acc.2 0 c.1 c.2).2)) ([], exWorkNull)).2 0 i
        = [((1 : ℚ), 2), (3, 4)].get? i :=
  ⟨rfl, (atomic_lin_ode_set_stores exWorkNull 0 (0 : ℚ) 0).2.2.2.2.2
    [((1 : ℚ), 2), (3, 4)] rfl⟩

/-- C18. `atomic_lin_ode::forward` implements order zero only: it returns
`false` if and only if `order_up > 0`, and then `taylor_y` is unchanged,
whatever the ODE solver is; for `order_up = 0` with
`taylor_x.size() = m * m + m`, `m = taylor_y.size()`, and `(r, n_step)` the pair
stored under `call_id`, it returns `true` with `taylor_y` set by
`base_lin_ode(r, n_step, taylor_x, taylor_y)`. -/
theorem atomic_lin_ode_forward_order_zero
    (base_lin_ode : Base → Nat → List Base → List Base → List Base)
    (work_ : Nat → Option (List (call_struct Base))) (thread call_id : Nat)
    (select_y : List Bool) (order_low order_up : Nat) (taylor_x taylor_y : List Base) :
    ((∃ y, atomic_lin_ode.forward base_lin_ode work_ thread call_id select_y order_low
        order_up taylor_x taylor_y = some (false, y)) ↔ order_up > 0) ∧
    (order_up > 0 →
      atomic_lin_ode.forward base_lin_ode work_ thread call_id select_y order_low
        order_up taylor_x taylor_y = some (false, taylor_y)) ∧
    (∀ (r : Base) (n_step : Nat), order_up = 0 →
      taylor_x.length = taylor_y.length * taylor_y.length + taylor_y.length →
      atomic_lin_ode.get work_ thread call_id = some (r, n_step) →
      atomic_lin_ode.forward base_lin_ode work_ thread call_id select_y order_low
        order_up taylor_x taylor_y
        = some (true, base_lin_ode r n_step taylor_x taylor_y)) := by
  refine ⟨⟨?_, ?_⟩, ?_, ?_⟩
  · rintro ⟨y, hy⟩
    by_contra hup
    unfold atomic_lin_ode.forward at hy
    rw [if_neg hup] at hy
    dsimp only at hy
    split_ifs at hy
    · cases hg : atomic_lin_ode.get work_ thread call_id with
      | none => rw [hg] at hy; simp at hy
      | some rn => rw [hg] at hy; simp at hy
  · intro hup
    exact ⟨taylor_y, by unfold atomic_lin_ode.forward; rw [if_pos hup]⟩
  · intro hup
    unfold atomic_lin_ode.forward
    rw [if_pos hup]
  · intro r n_step hup hsize hget
    have hup' : ¬ order_up > 0 := by omega
    unfold atomic_lin_ode.forward
    rw [if_neg hup']
    dsimp only
    rw [if_pos hsize, hget]

/-- Witness for C18: the pair `(5, 3)` stored under `call_id = 0`, `m = 1`,
`taylor_x` of size `2`, `order_up = 0`. -/
theorem atomic_lin_ode_forward_order_zero_witness :
    ((0 : Nat) = 0 ∧ [(1 : ℚ), 2].length = [(7 : ℚ)].length * [(7 : ℚ)].length
        + [(7 : ℚ)].length ∧
      atomic_lin_ode.get (atomic_lin_ode.set exWorkNull 0 (5 : ℚ) 3).2 0 0 = some (5, 3)) ∧
    atomic_lin_ode.forward exLinOde (atomic_lin_ode.set exWorkNull 0 (5 : ℚ) 3).2 0 0
        [true] 0 0 [1, 2] [7]
      = some (true, exLinOde 5 3 [1, 2] [7]) :=
  have h1 : (0 : Nat) = 0 := rfl
  have h2 : [(1 : ℚ), 2].length = [(7 : ℚ)].length * [(7 : ℚ)].length + [(7 : ℚ)].length :=
    rfl
  have h3 : atomic_lin_ode.get (atomic_lin_ode.set exWorkNull 0 (5 : ℚ) 3).2 0 0
      = some (5, 3) := rfl
  ⟨⟨h1, h2, h3⟩,
    (atomic_lin_ode_forward_order_zero exLinOde (atomic_lin_ode.set exWorkNull 0 (5 : ℚ) 3).2
      0 0 [true] 0 0 [1, 2] [7]).2.2 5 3 h1 h2 h3⟩

end LinOde

/-! ## The graph example and the graph round trip -/

section GraphClaims

variable {K : Type}

/-- One more slot: its node is the next one. -/
theorem slot_nodes_succ (nd m : Nat) : slot_nodes nd (m + 1) = slot_nodes nd m ++ [nd + m + 1] := by
  simp [slot_nodes, List.range_succ]

/-- The length of `slot_nodes`. -/
theorem slot_nodes_length (nd m : Nat) : (slot_nodes nd m).length = m := by
  simp [slot_nodes]

/-- The node of slot `v` among the first `m` slots. -/
theorem slot_nodes_getD (nd m v : Nat) (h : v < m) : (slot_nodes nd m).getD v 0 = nd + v + 1 := by
  simp [slot_nodes, List.getD_eq_getElem?_getD, h]

/-- The node of the address of a node is the node itself. -/
theorem to_graph_node_graph_node (nd m a : Nat) (l : tape_arg) (V : List Nat)
    (hV : ∀ v, v < m → V.getD v 0 = nd + v + 1)
    (h : graph_node nd (nd + m) a = some l) : to_graph_node V l = a := by
  unfold graph_node at h
  split_ifs at h with h1 h2
  · cases h
    simp only [to_graph_node]
    omega
  · cases h
    simp only [to_graph_node]
    rw [hV _ (by omega)]
    omega

/-- Walking the opcodes recorded for the operators of a graph gives the
operators and their arguments back. -/
theorem to_graph_ops_from_graph_ops (nd : Nat) :
    ∀ (ops : List graph_op_enum) (args : List Nat) (m : Nat) (tops tl : List tape_op),
      from_graph_ops nd (nd + m) ops args = some tops →
      to_graph_ops (slot_nodes nd m) (nd + m + 1) (tops ++ tl)
        = ((to_graph_ops (slot_nodes nd (m + ops.length)) (nd + (m + ops.length) + 1) tl).1,
           ops ++ (to_graph_ops (slot_nodes nd (m + ops.length))
              (nd + (m + ops.length) + 1) tl).2.1,
           args ++ (to_graph_ops (slot_nodes nd (m + ops.length))
              (nd + (m + ops.length) + 1) tl).2.2) := by
  intro ops
  induction ops with
  | nil =>
    intro args m tops tl h
    cases args with
    | nil =>
      simp only [from_graph_ops, Option.some.injEq] at h
      subst h
      simp
    | cons a args => simp [from_graph_ops] at h
  | cons op ops ih =>
    intro args m tops tl h
    match args, h with
    | [], h => simp [from_graph_ops] at h
    | [_], h => simp [from_graph_ops] at h
    | a :: b :: args, h =>
      simp only [from_graph_ops] at h
      cases hl : graph_node nd (nd + m) a with
      | none => simp [hl] at h
      | some l =>
        cases hr : graph_node nd (nd + m) b with
        | none => simp [hl, hr] at h
        | some r =>
          cases hrest : from_graph_ops nd (nd + m + 1) ops args with
          | none => simp [hl, hr, hrest] at h
          | some rest =>
            simp only [hl, hr, hrest, Option.some.injEq] at h
            subst h
            have hV : ∀ v, v < m → (slot_nodes nd m).getD v 0 = nd + v + 1 :=
              fun v hv => slot_nodes_getD nd m v hv
            have e : m + (op :: ops).length = m + 1 + ops.length := by
              simp only [List.length_cons]; omega
            have ih1 := ih args (m + 1) rest tl hrest
            rw [slot_nodes_succ, show nd + (m + 1) + 1 = nd + m + 1 + 1 from rfl] at ih1
            simp only [List.cons_append, to_graph_ops, e, List.append_eq]
            rw [ih1, to_graph_node_graph_node nd m a l _ hV hl,
              to_graph_node_graph_node nd m b r _ hV hr]

/-- Walking the `ParOp` opcodes recorded for the dependents of a graph gives
the dependent nodes back. -/
theorem to_graph_ops_from_graph_dep (nd m : Nat) :
    ∀ (ds : List Nat) (n_var : Nat) (V : List Nat) (pops : List tape_op) (dep : List Nat),
      from_graph_dep nd (nd + m) n_var ds = some (pops, dep) →
      V.length = n_var → (∀ v, v < m → V.getD v 0 = nd + v + 1) → m ≤ n_var →
      ∃ P, (∀ next, to_graph_ops V next pops = (V ++ P, [], [])) ∧
        dep.map (fun d => (V ++ P).getD d 0) = ds := by
  intro ds
  induction ds with
  | nil =>
    intro n_var V pops dep h _ _ _
    simp only [from_graph_dep, Option.some.injEq, Prod.mk.injEq] at h
    obtain ⟨rfl, rfl⟩ := h
    exact ⟨[], fun _ => by simp [to_graph_ops], rfl⟩
  | cons d ds ih =>
    intro n_var V pops dep h hlen hV hm
    simp only [from_graph_dep] at h
    cases hd : graph_node nd (nd + m) d with
    | none => simp [hd] at h
    | some l =>
      have hnode := to_graph_node_graph_node nd m d l V hV hd
      cases l with
      | par i =>
        cases hrest : from_graph_dep nd (nd + m) (n_var + 1) ds with
        | none => simp [hd, hrest] at h
        | some rest =>
          simp only [hd, hrest, Option.some.injEq, Prod.mk.injEq] at h
          obtain ⟨rfl, rfl⟩ := h
          have hV1 : ∀ v, v < m → (V ++ [i + 1]).getD v 0 = nd + v + 1 := by
            intro v hv
            rw [List.getD_append _ _ _ _ (by omega)]
            exact hV v hv
          obtain ⟨P, hP, hmap⟩ := ih (n_var + 1) (V ++ [i + 1]) rest.1 rest.2 hrest
            (by simp [hlen]) hV1 (by omega)
          refine ⟨(i + 1) :: P, fun next => ?_, ?_⟩
          · simp only [to_graph_ops, hP]
            simp
          · simp only [to_graph_node] at hnode
            simp only [List.map_cons]
            rw [show V ++ (i + 1) :: P = (V ++ [i + 1]) ++ P by simp, hmap]
            congr 1
            rw [List.append_assoc, List.getD_append_right _ _ _ _ (by omega)]
            simp [hlen, hnode]
      | var v =>
        cases hrest : from_graph_dep nd (nd + m) n_var ds with
        | none => simp [hd, hrest] at h
        | some rest =>
          simp only [hd, hrest, Option.some.injEq, Prod.mk.injEq] at h
          obtain ⟨rfl, rfl⟩ := h
          obtain ⟨P, hP, hmap⟩ := ih n_var V rest.1 rest.2 hrest hlen hV hm
          refine ⟨P, hP, ?_⟩
          simp only [List.map_cons, hmap]
          congr 1
          have hv : v < m := by
            unfold graph_node at hd
            split_ifs at hd with h1 h2
            · cases hd
            · cases hd
              omega
          simp only [to_graph_node] at hnode
          rw [List.getD_append _ _ _ _ (by omega)]
          exact hnode

/-- The conversion `to_graph` gives back the graph a tape was recorded from,
whatever values the parameter pool holds. -/
theorem to_graph_from_graph (g : cpp_graph) (f : ADFun K) (p : List K)
    (h : from_graph K g = some f) : to_graph { f with parameters := p } = g := by
  unfold from_graph at h
  simp only at h
  cases hops : from_graph_ops g.n_dynamic_ind (g.n_dynamic_ind + g.n_variable_ind)
      g.operator_vec g.operator_arg with
  | none => simp [hops] at h
  | some ops =>
    cases hdep : from_graph_dep g.n_dynamic_ind
        (g.n_dynamic_ind + g.n_variable_ind + g.operator_vec.length)
        (g.n_variable_ind + g.operator_vec.length) g.dependent_vec with
    | none => simp [hops, hdep] at h
    | some rest =>
      simp only [hops, hdep, Option.some.injEq] at h
      subst h
      have hA := to_graph_ops_from_graph_ops g.n_dynamic_ind g.operator_vec g.operator_arg
        g.n_variable_ind ops rest.1 hops
      obtain ⟨P, hP, hmap⟩ := to_graph_ops_from_graph_dep g.n_dynamic_ind
        (g.n_variable_ind + g.operator_vec.length) g.dependent_vec
        (g.n_variable_ind + g.operator_vec.length)
        (slot_nodes g.n_dynamic_ind (g.n_variable_ind + g.operator_vec.length)) rest.1 rest.2
        (by rw [← Nat.add_assoc]; exact hdep) (slot_nodes_length _ _)
        (fun v hv => slot_nodes_getD _ _ v hv) le_rfl
      simp only [to_graph, hA, hP, List.append_nil, hmap]

/-- The operand recorded for a defined node has a value. -/
theorem graph_node_value (nd m a : Nat) (l : tape_arg) (p slots : List K)
    (hp : p.length = nd) (hs : m ≤ slots.length)
    (h : graph_node nd (nd + m) a = some l) : ∃ v, tape_arg.value p slots l = some v := by
  unfold graph_node at h
  split_ifs at h with h1 h2
  · cases h
    have hlt : a - 1 < p.length := by omega
    exact ⟨p[a - 1], by simp [tape_arg.value, List.getElem?_eq_getElem hlt]⟩
  · cases h
    have hlt : a - nd - 1 < slots.length := by omega
    exact ⟨slots[a - nd - 1], by simp [tape_arg.value, List.getElem?_eq_getElem hlt]⟩

/-- The sweep over the opcodes recorded for the operators of a graph succeeds
and appends one slot per operator. -/
theorem forward_sweep_from_graph_ops [Add K] [Sub K] [Mul K] [Div K] (nd : Nat) (p : List K)
    (hp : p.length = nd) :
    ∀ (ops : List graph_op_enum) (args : List Nat) (m : Nat) (tops : List tape_op)
      (slots : List K),
      from_graph_ops nd (nd + m) ops args = some tops → slots.length = m →
      ∃ Q : List K, Q.length = ops.length ∧
        ∀ tl, forward_sweep p slots (tops ++ tl) = forward_sweep p (slots ++ Q) tl := by
  intro ops
  induction ops with
  | nil =>
    intro args m tops slots h _
    cases args with
    | nil =>
      simp only [from_graph_ops, Option.some.injEq] at h
      subst h
      exact ⟨[], rfl, fun tl => by simp⟩
    | cons a args => simp [from_graph_ops] at h
  | cons op ops ih =>
    intro args m tops slots h hs
    match args, h with
    | [], h => simp [from_graph_ops] at h
    | [_], h => simp [from_graph_ops] at h
    | a :: b :: args, h =>
      simp only [from_graph_ops] at h
      cases hl : graph_node nd (nd + m) a with
      | none => simp [hl] at h
      | some l =>
        cases hr : graph_node nd (nd + m) b with
        | none => simp [hl, hr] at h
        | some r =>
          cases hrest : from_graph_ops nd (nd + m + 1) ops args with
          | none => simp [hl, hr, hrest] at h
          | some rest =>
            simp only [hl, hr, hrest, Option.some.injEq] at h
            subst h
            obtain ⟨va, hva⟩ := graph_node_value nd m a l p slots hp (by omega) hl
            obtain ⟨vb, hvb⟩ := graph_node_value nd m b r p slots hp (by omega) hr
            obtain ⟨Q, hQ, hsweep⟩ := ih args (m + 1) rest (slots ++ [op.value va vb]) hrest
              (by simp [hs])
            refine ⟨op.value va vb :: Q, by simp [hQ], fun tl => ?_⟩
            simp only [List.cons_append, forward_sweep, hva, hvb, List.append_eq]
            rw [hsweep tl]
            simp

/-- The sweep over the `ParOp` opcodes recorded for the dependents of a graph
succeeds, and every dependent slot then holds a value. -/
theorem forward_sweep_from_graph_dep [Add K] [Sub K] [Mul K] [Div K] (nd m : Nat) (p : List K)
    (hp : p.length = nd) :
    ∀ (ds : List Nat) (n_var : Nat) (slots : List K) (pops : List tape_op) (dep : List Nat),
      from_graph_dep nd (nd + m) n_var ds = some (pops, dep) →
      slots.length = n_var → m ≤ n_var →
      ∃ (Q y : List K), forward_sweep p slots pops = some (slots ++ Q) ∧
        dependent_values (slots ++ Q) dep = some y ∧ y.length = ds.length := by
  intro ds
  induction ds with
  | nil =>
    intro n_var slots pops dep h _ _
    simp only [from_graph_dep, Option.some.injEq, Prod.mk.injEq] at h
    obtain ⟨rfl, rfl⟩ := h
    exact ⟨[], [], by simp [forward_sweep], by simp [dependent_values], rfl⟩
  | cons d ds ih =>
    intro n_var slots pops dep h hlen hm
    simp only [from_graph_dep] at h
    cases hd : graph_node nd (nd + m) d with
    | none => simp [hd] at h
    | some l =>
      obtain ⟨vd, hvd⟩ := graph_node_value nd m d l p slots hp (by omega) hd
      cases l with
      | par i =>
        cases hrest : from_graph_dep nd (nd + m) (n_var + 1) ds with
        | none => simp [hd, hrest] at h
        | some rest =>
          simp only [hd, hrest, Option.some.injEq, Prod.mk.injEq] at h
          obtain ⟨rfl, rfl⟩ := h
          simp only [tape_arg.value] at hvd
          obtain ⟨Q, y, hQ, hy, hylen⟩ := ih (n_var + 1) (slots ++ [vd]) rest.1 rest.2 hrest
            (by simp [hlen]) (by omega)
          refine ⟨vd :: Q, vd :: y, ?_, ?_, by simp [hylen]⟩
          · simp only [forward_sweep, hvd, hQ]
            simp
          · have hget : (slots ++ vd :: Q).get? n_var = some vd := by
              simp [← hlen, List.getElem_append_right]
            rw [show slots ++ [vd] ++ Q = slots ++ vd :: Q by simp] at hy
            simp only [dependent_values, hget, hy]
      | var v =>
        cases hrest : from_graph_dep nd (nd + m) n_var ds with
        | none => simp [hd, hrest] at h
        | some rest =>
          simp only [hd, hrest, Option.some.injEq, Prod.mk.injEq] at h
          obtain ⟨rfl, rfl⟩ := h
          obtain ⟨Q, y, hQ, hy, hylen⟩ := ih n_var slots rest.1 rest.2 hrest hlen hm
          have hv : v < slots.length := by
            unfold graph_node at hd
            split_ifs at hd with h1 h2
            · cases hd
            · cases hd
              omega
          simp only [tape_arg.value] at hvd
          have hget : (slots ++ Q).get? v = some vd := by
            simpa [List.getElem?_append_left hv] using hvd
          exact ⟨Q, vd :: y, hQ, by simp only [dependent_values, hget, hy], by simp [hylen]⟩

/-- A tape recorded from a graph evaluates: with as many parameter values as
dynamic parameters and as many arguments as independent variables,
`Forward(0, x)` returns one value per dependent node. -/
theorem Forward_from_graph [Add K] [Sub K] [Mul K] [Div K] (g : cpp_graph) (f : ADFun K)
    (p x : List K) (h : from_graph K g = some f) (hp : p.length = g.n_dynamic_ind)
    (hx : x.length = g.n_variable_ind) :
    ∃ y, ADFun.Forward { f with parameters := p } 0 x = some y ∧
      y.length = g.dependent_vec.length := by
  unfold from_graph at h
  simp only at h
  cases hops : from_graph_ops g.n_dynamic_ind (g.n_dynamic_ind + g.n_variable_ind)
      g.operator_vec g.operator_arg with
  | none => simp [hops] at h
  | some ops =>
    cases hdep : from_graph_dep g.n_dynamic_ind
        (g.n_dynamic_ind + g.n_variable_ind + g.operator_vec.length)
        (g.n_variable_ind + g.operator_vec.length) g.dependent_vec with
    | none => simp [hops, hdep] at h
    | some rest =>
      simp only [hops, hdep, Option.some.injEq] at h
      subst h
      obtain ⟨Q, hQ, hsweep⟩ := forward_sweep_from_graph_ops g.n_dynamic_ind p hp
        g.operator_vec g.operator_arg g.n_variable_ind ops x hops hx
      obtain ⟨Q2, y, hQ2, hy, hylen⟩ := forward_sweep_from_graph_dep g.n_dynamic_ind
        (g.n_variable_ind + g.operator_vec.length) p hp g.dependent_vec
        (g.n_variable_ind + g.operator_vec.length) (x ++ Q) rest.1 rest.2
        (by rw [← Nat.add_assoc]; exact hdep) (by simp [hx, hQ]) le_rfl
      refine ⟨y, ?_, hylen⟩
      simp only [ADFun.Forward, hx, and_self, if_true, hsweep, hQ2, hy]

/-- C15, as stated, fails: at `p = [2, 3]`, `x = [4]` the function of the div
example graph does not return values that round to `[0.6667, 2.6667]`. -/
theorem div_op_example_value_counterexample :
    ¬ ∃ y0 y1 : ℚ, div_op_y [2, 3] [4] = some [y0, y1] ∧
      |y0 - 6667 / 10000| ≤ 1 / 20000 ∧ |y1 - 26667 / 10000| ≤ 1 / 20000 := by
  rintro ⟨y0, y1, h, -, h1⟩
  have e : div_op_y [(2 : ℚ), 3] [4] = some [2 / 3, 4 / (2 / 3)] := rfl
  rw [e] at h
  simp only [Option.some.injEq, List.cons.injEq, and_true] at h
  obtain ⟨-, rfl⟩ := h
  rw [abs_le] at h1
  norm_num at h1

/-- C15, amended. For the div example graph, evaluating at `p = [2, 3]`,
`x = [4]` yields `y = [2/3, 6]`, that is `[0.6667, 6.0000]` to four decimals:
`y[1]` is `x[0] / (p[0] / p[1])`, the value `div_op.cpp` compares it with. -/
theorem div_op_example_value :
    div_op_y [(2 : ℚ), 3] [4] = some [2 / 3, 6] ∧
    |(2 : ℚ) / 3 - 6667 / 10000| ≤ 1 / 20000 ∧
    ((4 : ℚ) / (2 / 3) = 6) := by
  have e : div_op_y [(2 : ℚ), 3] [4] = some [2 / 3, 4 / (2 / 3)] := rfl
  refine ⟨?_, ?_, by norm_num⟩
  · rw [e]
    norm_num
  · rw [abs_le]
    constructor <;> norm_num

/-- C16. The function built from the div example graph computes, for every
`p` and `x`, `y[0] = p[0] / p[1]` and `y[1] = x[0] / (p[0] / p[1])`.  The pool
holds nodes 1 and 2 (the dynamic parameters) and the variable slots hold the
nodes after them: node 3 is `x[0]`, `node_4 = node_1 / node_2` and
`node_5 = node_3 / node_4`, each division being the first argument node over
the second. -/
theorem div_op_y_eq [Add K] [Sub K] [Mul K] [Div K] (p0 p1 x0 : K) :
    div_op_y [p0, p1] [x0] = some [p0 / p1, x0 / (p0 / p1)] ∧
    (∃ f : ADFun K, from_graph K div_op_graph = some f ∧
      forward_sweep [p0, p1] [x0] f.opcodes = some [x0, p0 / p1, x0 / (p0 / p1)]) ∧
    (∀ a b : K, graph_op_enum.div_graph_op.value a b = a / b) :=
  ⟨rfl, ⟨_, rfl, rfl⟩, fun _ _ => rfl⟩

/-- C17. Graph round trip: for the function `f` built by `from_graph`,
`Domain()` is the graph's `n_variable_ind`, `Range()` the number of dependent
nodes and `size_dyn_ind()` is `n_dynamic_ind`; converting `f` (after
`new_dynamic(p)`) with `to_graph` and rebuilding it with `from_graph` succeeds
and preserves all three counts, and after `new_dynamic` with the same `p` the
rebuilt function has the same `Forward(0, x)` outputs for every `x`; these
outputs exist, one per dependent, when `x` has `Domain()` entries; and a second
`new_dynamic(p)` changes nothing. -/
theorem from_graph_round_trip [Add K] [Sub K] [Mul K] [Div K] (g : cpp_graph) (f : ADFun K)
    (h : from_graph K g = some f) :
    f.Domain = g.n_variable_ind ∧ f.Range = g.dependent_vec.length ∧
    f.size_dyn_ind = g.n_dynamic_ind ∧
    ∀ (p : List K) (fp : ADFun K), f.new_dynamic p = some fp →
      fp.new_dynamic p = some fp ∧
      ∃ f2 fp2 : ADFun K, from_graph K (to_graph fp) = some f2 ∧
        f2.Domain = f.Domain ∧ f2.Range = f.Range ∧ f2.size_dyn_ind = f.size_dyn_ind ∧
        f2.new_dynamic p = some fp2 ∧
        ∀ x : List K, fp2.Forward 0 x = fp.Forward 0 x ∧
          (x.length = f.Domain → ∃ y, fp.Forward 0 x = some y ∧ y.length = f.Range) := by
  have hg := to_graph_from_graph g f f.parameters h
  have hD : f.Domain = g.n_variable_ind := congrArg cpp_graph.n_variable_ind hg
  have hS : f.size_dyn_ind = g.n_dynamic_ind := congrArg cpp_graph.n_dynamic_ind hg
  have hR : f.Range = g.dependent_vec.length := by
    have := congrArg (fun t => t.dependent_vec.length) hg
    simpa [to_graph, ADFun.Range] using this
  refine ⟨hD, hR, hS, fun p fp hfp => ?_⟩
  unfold ADFun.new_dynamic at hfp
  split_ifs at hfp with hp
  simp only [Option.some.injEq] at hfp
  subst hfp
  refine ⟨by simp [ADFun.new_dynamic, hp], f, { f with parameters := p }, ?_, rfl, rfl, rfl,
    by simp [ADFun.new_dynamic, hp], fun x => ⟨rfl, fun hx => ?_⟩⟩
  · rw [to_graph_from_graph g f p h, h]
  · rw [hR]
    exact Forward_from_graph g f p x h (hp.trans hS) (hx.trans hD)

/-- Witness for C17 on the graph of `div_op.cpp`: the counts are 1, 2, 2, and
the value computed after the round trip is the one computed before it. -/
theorem from_graph_round_trip_witness :
    from_graph ℚ div_op_graph = some div_op_tape ∧
    (div_op_tape.Domain = 1 ∧ div_op_tape.Range = 2 ∧ div_op_tape.size_dyn_ind = 2) ∧
    div_op_y_again [(2 : ℚ), 3] [4] = div_op_y [(2 : ℚ), 3] [4] :=
  ⟨rfl,
    ⟨(from_graph_round_trip div_op_graph div_op_tape rfl).1,
      (from_graph_round_trip div_op_graph div_op_tape rfl).2.1,
      (from_graph_round_trip div_op_graph div_op_tape rfl).2.2.1⟩, rfl⟩

end GraphClaims

end CppAD
